import Mathlib

/-!
A verification development for the cpp-btree repository (a B-tree of values
with set/map/multiset/multimap façades).

The C++ sources are shallowly embedded: each Lean definition transliterates
one C++ function (named in its doc comment).  Machine integers are modelled
by `Nat`/`Int`; node-local search works over a key accessor `key : Nat → α`
mirroring `btree_node::key(int i)`; the tree itself is modelled as an
inductive value tree whose operations thread the state explicitly, with
pointer-based iterators `(node, position)` rendered as `(path, position)`
where `path` is the list of child indices from the root.
-/

namespace BtreeSpec

/-- `kExactMatch = 1 << 30` from `btree_node` (part_005, line 1492). -/
def kExactMatch : Nat := 2 ^ 30

/-- `kMatchMask = kExactMatch - 1` (part_005, line 1493). -/
def kMatchMask : Nat := kExactMatch - 1

/-!  ## Node-level searches (btree_node, part_005 lines 1585-1654)

Each search works on the node's key accessor `key i` (`btree_node::key(i)`)
over the index range `[s, e)`.  Loops become recursion on `e - s`.
-/

/-- `btree_node::linear_search_plain_compare` (part_005 lines 1587-1597).
`lt x y` models `btree_compare_keys(comp, x, y)`. -/
def linearSearchPlainCompare (lt : α → α → Bool) (key : Nat → α) (k : α)
    (s e : Nat) : Nat :=
  if s < e then
    if lt (key s) k then linearSearchPlainCompare lt key k (s + 1) e else s
  else s
termination_by e - s

/-- `btree_node::linear_search_compare_to` (part_005 lines 1601-1614). -/
def linearSearchCompareTo (comp : α → α → Int) (key : Nat → α) (k : α)
    (s e : Nat) : Nat :=
  if s < e then
    let c := comp (key s) k
    if c = 0 then s ||| kExactMatch
    else if c > 0 then s
    else linearSearchCompareTo comp key k (s + 1) e
  else s
termination_by e - s

/-- `btree_node::binary_search_plain_compare` (part_005 lines 1618-1630).
The source loop guard is `s != e`; every caller passes `s ≤ e`, under which
the guard is equivalent to `s < e` (used here so that the recursion is
well-founded on `Nat`). -/
def binarySearchPlainCompare (lt : α → α → Bool) (key : Nat → α) (k : α)
    (s e : Nat) : Nat :=
  if s < e then
    let mid := (s + e) / 2
    if lt (key mid) k then binarySearchPlainCompare lt key k (mid + 1) e
    else binarySearchPlainCompare lt key k s mid
  else s
termination_by e - s
decreasing_by
  all_goals omega

/-- `btree_node::binary_search_compare_to` (part_005 lines 1634-1654).
On an equal midpoint the search recurses on the left half and tags the
result with `kExactMatch`.  Source guard `s != e` rendered as `s < e`
(callers maintain `s ≤ e`). -/
def binarySearchCompareTo (comp : α → α → Int) (key : Nat → α) (k : α)
    (s e : Nat) : Nat :=
  if s < e then
    let mid := (s + e) / 2
    let c := comp (key mid) k
    if c < 0 then binarySearchCompareTo comp key k (mid + 1) e
    else if c > 0 then binarySearchCompareTo comp key k s mid
    else (binarySearchCompareTo comp key k s mid) ||| kExactMatch
  else s
termination_by e - s
decreasing_by
  all_goals omega

/-!  ## Comparator-dispatch for compare-to binary search (btree_compare.h)

`btree_binary_search_compare_to::lower_bound` (src/btree_compare.h lines
234-247) receives the tree's comparator instance `comp` but invokes the
node search with a *default-constructed* `CompareTo()`.  A stateful
comparator type is modelled as a state type `σ`, an evaluation function
`ev : σ → α → α → Int` and the state `dflt : σ` produced by default
construction. -/

/-- `btree_binary_search_compare_to::lower_bound(k, n, comp)`: the node is
given by `(key, count)`; the supplied instance `comp : σ` is ignored and
`CompareTo()` (state `dflt`) is used, exactly as in the source. -/
def binarySearchCompareToLowerBound (ev : σ → α → α → Int) (dflt : σ)
    (key : Nat → α) (count : Nat) (k : α) (comp : σ) : Nat :=
  binarySearchCompareTo (ev dflt) key k 0 count

/-- `btree_binary_search_compare_to::upper_bound(k, n, comp)` for contrast:
it adapts the *supplied* comparator through `btree_upper_bound_adapter`
over `btree_key_comparer`, i.e. tests `ev comp k (key i) < 0` negated. -/
def binarySearchCompareToUpperBound (ev : σ → α → α → Int)
    (key : Nat → α) (count : Nat) (k : α) (comp : σ) : Nat :=
  linearSearchPlainCompare (fun a b => !(ev comp b a < 0)) key k 0 count

/-!  ## Node capacity arithmetic (btree_node, part_005 lines 1479-1494,
and btree_common_params, part_005 lines 2268-2281)

`kNodeTargetValues = (kTargetNodeSize - sizeof(btree_base_fields)) / kValueSize`
(C++ `int` division, truncating toward zero) and
`kNodeValues = kNodeTargetValues >= 3 ? kNodeTargetValues : 3`. -/

/-- `kNodeTargetValues` (part_005 line 1485).  `Int.tdiv` is C-style
truncated division, matching C++ `int` arithmetic in the enum. -/
def kNodeTargetValues (targetNodeSize sizeofBase valueSize : Int) : Int :=
  Int.tdiv (targetNodeSize - sizeofBase) valueSize

/-- `kNodeValues` (part_005 line 1490). -/
def kNodeValues (targetNodeSize sizeofBase valueSize : Int) : Int :=
  if kNodeTargetValues targetNodeSize sizeofBase valueSize ≥ 3 then
    kNodeTargetValues targetNodeSize sizeofBase valueSize
  else 3

/-- `btree_common_params::kNodeValueSpace = TargetNodeSize - 2*sizeof(void*)`
(part_005 line 2273) on an LP64 platform (`sizeof(void*) = 8`). -/
def kNodeValueSpace (targetNodeSize : Int) : Int := targetNodeSize - 2 * 8

/-- `btree_common_params::node_count_type` width in bytes (part_005 lines
2278-2281): `uint16_t` when `kNodeValueSpace / ValueSize >= 256`, else
`uint8_t`. -/
def nodeCountTypeBytes (targetNodeSize valueSize : Int) : Int :=
  if Int.tdiv (kNodeValueSpace targetNodeSize) valueSize ≥ 256 then 2 else 1

/-- `sizeof(btree_base_fields)` (src/btree_base_fields.h): a `bool`, three
`field_type` fields and a pointer, laid out under LP64 alignment: the four
scalar fields pack into `1 + 3·w` bytes, padded to the 8-byte pointer
alignment, followed by an 8-byte pointer. -/
def sizeofBaseFields (fieldBytes : Int) : Int :=
  8 * Int.tdiv (1 + 3 * fieldBytes + 7) 8 + 8

/-- `kNodeValues` for a concrete instantiation
`btree_map<int32, int32, less, alloc, TargetNodeSize>`:
`kValueSize = sizeof(Key) + sizeof(Data) = 8` (part_005 line 2300). -/
def kNodeValuesMapInt32 (targetNodeSize : Int) : Int :=
  kNodeValues targetNodeSize
    (sizeofBaseFields (nodeCountTypeBytes targetNodeSize 8)) 8

/-!  ## The tree model

The tree engine (`btree<P>` with `btree_node<P>`) is embedded functionally.
A node is a value of the inductive type `BNode`: pointer links (`parent`,
`position`, `children[i]`) become the tree structure itself, and an
iterator's node pointer becomes the *path* of child indices from the root.
`max_count` is stored on leaves (it varies only for the small root,
`init_leaf`); internal nodes always have `max_count = kNodeValues` (called
`N` throughout, `init_internal`).  The root bookkeeping field
`root_fields::size` is carried in `BTreeM.size`; `rightmost`/leftmost
pointers are maintained by the C++ code to always denote the rightmost and
leftmost leaves and are recomputed here on demand.

Keys are ordered by a `LinearOrder`, modelling instantiations with
`std::less` over a totally ordered key type; `btree_compare_keys` is `<`
and `btree_node::search_type` is the linear plain-compare search (the
integral-key case of part_005 lines 1471-1474). -/

/-- A btree node: `leaf` holds `max_count` and the constructed values;
`inner` additionally holds the `count + 1` children (part_005 lines
1498-1511 and btree_leaf_fields.h / btree_internal_fields.h). -/
inductive BNode (α β : Type) where
  | leaf (maxCount : Nat) (vals : List (α × β))
  | inner (vals : List (α × β)) (children : List (BNode α β))
deriving Repr

namespace BNode

variable {α β : Type}

/-- `btree_node::count()`: the number of values stored. -/
def count : BNode α β → Nat
  | leaf _ vs => vs.length
  | inner vs _ => vs.length

/-- `btree_node::max_count()`; internal nodes are always created with
`kNodeValues` capacity (`init_internal`). -/
def maxCountOf (N : Nat) : BNode α β → Nat
  | leaf mc _ => mc
  | inner _ _ => N

/-- `btree_node::leaf()`. -/
def isLeaf : BNode α β → Bool
  | leaf _ _ => true
  | inner _ _ => false

/-- The values stored directly in the node. -/
def valsOf : BNode α β → List (α × β)
  | leaf _ vs => vs
  | inner vs _ => vs

/-- The children of the node (empty for leaves). -/
def childrenOf : BNode α β → List (BNode α β)
  | leaf _ _ => []
  | inner _ cs => cs

end BNode

variable {α β : Type}

/-- Dereference a path of child indices (an iterator's node pointer). -/
def getNode : BNode α β → List Nat → Option (BNode α β)
  | n, [] => some n
  | BNode.leaf _ _, _ :: _ => none
  | BNode.inner _ cs, i :: p =>
    match cs.get? i with
    | some c => getNode c p
    | none => none

/-- Replace the node at a path (no-op on an invalid path). -/
def setNode : BNode α β → List Nat → BNode α β → BNode α β
  | _, [], m => m
  | BNode.leaf mc vs, _ :: _, _ => BNode.leaf mc vs
  | BNode.inner vs cs, i :: p, m =>
    match cs.get? i with
    | some c => BNode.inner vs (cs.set i (setNode c p m))
    | none => BNode.inner vs cs

/-- In-order contents of a node: child `i`, then value `i`, as walked by
`internal_dump` (part_005 lines 1205-1220) and the iterator. -/
def toListNode : BNode α β → List (α × β)
  | BNode.leaf _ vs => vs
  | BNode.inner vs cs => toListChildren cs vs
where
  /-- Interleave `count + 1` children with `count` values. -/
  toListChildren : List (BNode α β) → List (α × β) → List (α × β)
  | [], _ => []
  | c :: _, [] => toListNode c
  | c :: cs, v :: vs => toListNode c ++ v :: toListChildren cs vs

/-- An iterator `(node, position)` (btree_iterator.h): the node pointer is
the path of child indices from the root. -/
structure Iter where
  path : List Nat
  pos : Nat
deriving Repr, DecidableEq

/-- The tree: root pointer plus the `root_fields::size` bookkeeping field
(meaningful whenever the root is an internal node). -/
structure BTreeM (α β : Type) where
  root : Option (BNode α β)
  size : Nat
deriving Repr

/-- `btree::size()` (part_005 lines 294-298). -/
def treeSize (t : BTreeM α β) : Nat :=
  match t.root with
  | none => 0
  | some (BNode.leaf _ vs) => vs.length
  | some (BNode.inner _ _) => t.size

/-- `btree::empty()`. -/
def treeEmpty (t : BTreeM α β) : Bool := t.root.isNone

/-- The empty tree (default-constructed `btree`). -/
def emptyTree : BTreeM α β := ⟨none, 0⟩

/-- Path of the leftmost leaf (the target of the root's parent pointer,
maintained by the leftmost-leaf back-edge; recomputed on demand here). -/
def leftmostFrom : BNode α β → List Nat
  | BNode.leaf _ _ => []
  | BNode.inner _ cs =>
    match cs with
    | c :: _ => 0 :: leftmostFrom c
    | [] => []

/-- Path and count of the rightmost leaf (the target of the
`root_fields::rightmost` pointer, recomputed on demand). -/
def rightmostFrom : BNode α β → List Nat × Nat
  | BNode.leaf _ vs => ([], vs.length)
  | BNode.inner vs cs =>
    let r := rightmostFrom (cs.getLastD (BNode.leaf 0 []))
    (vs.length :: r.1, r.2)
decreasing_by
  rename_i vs cs
  rcases Nat.eq_zero_or_pos cs.length with hz | hpos
  · have : cs = [] := List.length_eq_zero.mp hz
    subst this
    simp only [List.getLastD_nil, BNode.inner.sizeOf_spec, BNode.leaf.sizeOf_spec,
      List.nil.sizeOf_spec, sizeOf_nat]
    have h1 : 1 ≤ sizeOf vs := by
      cases vs
      · simp
      · simp only [List.cons.sizeOf_spec]
        omega
    omega
  · have hne : cs ≠ [] := by
      intro hc
      subst hc
      simp at hpos
    have : cs.getLastD (BNode.leaf 0 []) = cs.getLast hne := by
      rw [List.getLastD_eq_getLast?, List.getLast?_eq_getLast cs hne]
      rfl
    rw [this]
    have := List.sizeOf_lt_of_mem (List.getLast_mem hne)
    simp only [BNode.inner.sizeOf_spec]
    omega

/-- `btree::begin()`: `(leftmost(), 0)`. -/
def beginIter (t : BTreeM α β) : Iter :=
  match t.root with
  | none => ⟨[], 0⟩
  | some r => ⟨leftmostFrom r, 0⟩

/-- `btree::end()`: `(rightmost(), rightmost()->count())`, and `([], 0)`
for the empty tree (null rightmost). -/
def endIter (t : BTreeM α β) : Iter :=
  match t.root with
  | none => ⟨[], 0⟩
  | some r =>
    let rm := rightmostFrom r
    ⟨rm.1, rm.2⟩
/-- `btree_node::count()` of the node at a path (0 on an invalid path). -/
def countAt (t : BNode α β) (p : List Nat) : Nat :=
  match getNode t p with
  | some n => n.count
  | none => 0

/-- The `while (position == count && !is_root)` parent walk shared by
`increment_slow` (btree_iterator.h): `position = node->position();
node = node->parent()` is `pos := last path; path := dropLast path`;
`is_root()` is `path = []`. -/
def upWalk (t : BNode α β) : List Nat → Nat → Iter
  | [], pos => ⟨[], pos⟩
  | q :: qs, pos =>
    if pos = countAt t (q :: qs) then
      upWalk t (q :: qs).dropLast ((q :: qs).getLastD 0)
    else ⟨q :: qs, pos⟩
termination_by path _ => path.length
decreasing_by
  simp [List.length_dropLast]

/-- `btree_iterator::increment_slow()` (btree_iterator.h): on a leaf, walk
up while off the end, restoring the saved state if the walk ends off the
end of the root (i.e. we were at `end()`); on an internal node, descend
leftmost into `children[position + 1]`. -/
def incrementSlow (t : BNode α β) (it : Iter) : Iter :=
  match getNode t it.path with
  | some (BNode.leaf _ _) =>
    let w := upWalk t it.path it.pos
    if w.pos = countAt t w.path then it else w
  | some (BNode.inner _ _) =>
    let base := it.path ++ [it.pos + 1]
    match getNode t base with
    | some c => ⟨base ++ leftmostFrom c, 0⟩
    | none => it
  | none => it

/-- `btree_iterator::increment()`: in a leaf with room, just advance;
otherwise take the slow path (with `position` already incremented on a
leaf, mirroring the C++ `++position` inside the short-circuit test). -/
def increment (t : BNode α β) (it : Iter) : Iter :=
  match getNode t it.path with
  | some (BNode.leaf _ vs) =>
    if it.pos + 1 < vs.length then ⟨it.path, it.pos + 1⟩
    else incrementSlow t ⟨it.path, it.pos + 1⟩
  | _ => incrementSlow t it

/-- `btree::internal_last` (part_005 lines 1044-1054): move the iterator
up while `position == count`; the node pointer becomes null (`none`) when
the walk leaves the root (its parent is the leftmost *leaf*). -/
def internalLast (t : BNode α β) : Iter → Option Iter
  | ⟨path, pos⟩ =>
    if pos = countAt t path then
      match path with
      | [] => none
      | q :: qs => internalLast t ⟨(q :: qs).dropLast, (q :: qs).getLastD 0⟩
    else some ⟨path, pos⟩
termination_by it => it.path.length
decreasing_by
  simp [List.length_dropLast]

/-- Node-level `lower_bound` (part_005 lines 1575-1578) instantiated at
the linear plain-compare search over the node's values: the first position
whose key is not less than `k`. -/
def nodeLowerBound [LinearOrder α] (vals : List (α × β)) (k : α) : Nat :=
  linearSearchPlainCompare (fun a b => decide (a < b))
    (fun i => ((vals.get? i).map Prod.fst).getD k) k 0 vals.length

/-- Node-level `upper_bound` (part_005 lines 1580-1583): the linear search
through `btree_upper_bound_adapter` (`upper(a,b) := ¬ less(b,a)`). -/
def nodeUpperBound [LinearOrder α] (vals : List (α × β)) (k : α) : Nat :=
  linearSearchPlainCompare (fun a b => !decide (b < a))
    (fun i => ((vals.get? i).map Prod.fst).getD k) k 0 vals.length

/-- The descent loop of `internal_locate_plain_compare` (part_005 lines
1093-1104): at each node take `lower_bound`, descending into
`children[position]` until a leaf is reached. -/
def locateLoop [LinearOrder α] (n : BNode α β) (k : α) : List Nat × Nat :=
  match n with
  | BNode.leaf _ vs => ([], nodeLowerBound vs k)
  | BNode.inner vs cs =>
    let p := nodeLowerBound vs k
    let r := locateLoop (cs.getD p (BNode.leaf 0 [])) k
    (p :: r.1, r.2)
decreasing_by
  rename_i vs cs
  rcases Nat.lt_or_ge p cs.length with hlt | hge
  · rw [List.getD_eq_getElem cs (BNode.leaf 0 []) hlt]
    have := List.sizeOf_lt_of_mem (cs.getElem_mem hlt)
    simp only [BNode.inner.sizeOf_spec]
    omega
  · rw [List.getD_eq_default cs (BNode.leaf 0 []) hge]
    simp only [BNode.inner.sizeOf_spec, BNode.leaf.sizeOf_spec,
      List.nil.sizeOf_spec, sizeOf_nat]
    have h1 : 1 ≤ sizeOf vs := by
      cases vs
      · simp
      · simp only [List.cons.sizeOf_spec]
        omega
    have h2 : 1 ≤ sizeOf cs := by
      cases cs
      · simp
      · simp only [List.cons.sizeOf_spec]
        omega
    omega

/-- The descent loop of `internal_upper_bound` (part_005 lines 1140-1154),
before its final `internal_last` fixup. -/
def upperLoop [LinearOrder α] (n : BNode α β) (k : α) : List Nat × Nat :=
  match n with
  | BNode.leaf _ vs => ([], nodeUpperBound vs k)
  | BNode.inner vs cs =>
    let p := nodeUpperBound vs k
    let r := upperLoop (cs.getD p (BNode.leaf 0 [])) k
    (p :: r.1, r.2)
decreasing_by
  rename_i vs cs
  rcases Nat.lt_or_ge p cs.length with hlt | hge
  · rw [List.getD_eq_getElem cs (BNode.leaf 0 []) hlt]
    have := List.sizeOf_lt_of_mem (cs.getElem_mem hlt)
    simp only [BNode.inner.sizeOf_spec]
    omega
  · rw [List.getD_eq_default cs (BNode.leaf 0 []) hge]
    simp only [BNode.inner.sizeOf_spec, BNode.leaf.sizeOf_spec,
      List.nil.sizeOf_spec, sizeOf_nat]
    have h1 : 1 ≤ sizeOf vs := by
      cases vs
      · simp
      · simp only [List.cons.sizeOf_spec]
        omega
    have h2 : 1 ≤ sizeOf cs := by
      cases cs
      · simp
      · simp only [List.cons.sizeOf_spec]
        omega
    omega

/-- `btree::internal_lower_bound` (part_005 lines 1123-1138): descend by
`lower_bound`, then `internal_last`. -/
def internalLowerBound [LinearOrder α] (r : BNode α β) (k : α) : Option Iter :=
  let l := locateLoop r k
  internalLast r ⟨l.1, l.2⟩

/-- `btree::internal_upper_bound` (part_005 lines 1140-1154): descend by
`upper_bound`, then `internal_last`. -/
def internalUpperBound [LinearOrder α] (r : BNode α β) (k : α) : Option Iter :=
  let l := upperLoop r k
  internalLast r ⟨l.1, l.2⟩

/-- The key at an iterator (`iter.key()`). -/
def keyAtIter (t : BNode α β) (it : Iter) : Option α :=
  match getNode t it.path with
  | some n => (n.valsOf.get? it.pos).map Prod.fst
  | none => none

/-- The value at an iterator (`*iter`). -/
def valAtIter (t : BNode α β) (it : Iter) : Option (α × β) :=
  match getNode t it.path with
  | some n => n.valsOf.get? it.pos
  | none => none

/-- `btree::internal_find_unique` (part_005 lines 1156-1172) in the
plain-compare instantiation: locate, `internal_last`, then the equal-key
check `!compare_keys(key, iter.key())`. -/
def internalFindUnique [LinearOrder α] (r : BNode α β) (k : α) : Option Iter :=
  let l := locateLoop r k
  match internalLast r ⟨l.1, l.2⟩ with
  | some it =>
    match keyAtIter r it with
    | some ik => if ¬ k < ik then some it else none
    | none => none
  | none => none
/-!  ## Node restructuring (btree_node methods, part_005 lines 1737-1976)

Each operation moves values and children between a node, an adjacent
sibling and the delimiting value in the parent.  They are expressed here
at the parent level: a single rewrite of the parent node captures the
simultaneous updates of the parent's value array, the two siblings and the
child array. -/

/-- Glue two siblings and the delimiter into one node, keeping the left
node's `max_count` — the value/child moves of `btree_node::merge`
(part_005 lines 1907-1937). -/
def joinNodes (l : BNode α β) (d : α × β) (r : BNode α β) : BNode α β :=
  match l, r with
  | BNode.leaf mc lv, BNode.leaf _ rv => BNode.leaf mc (lv ++ d :: rv)
  | BNode.inner lv lc, BNode.inner rv rc => BNode.inner (lv ++ d :: rv) (lc ++ rc)
  | l, _ => l

/-- `merge_nodes(left, right)` (part_005 lines 952-963) for `left =
children[il]`, `right = children[il + 1]` of parent `p`: the right node is
absorbed into the left together with the delimiter `vals[il]`, which
`merge` removes from the parent (`remove_value` also drops the emptied
child slot `il + 1`). -/
def mergeAt (p : BNode α β) (il : Nat) : BNode α β :=
  match p with
  | BNode.inner pvals pchildren =>
    match pchildren.get? il, pchildren.get? (il + 1), pvals.get? il with
    | some l, some r, some d =>
      BNode.inner (pvals.eraseIdx il)
        ((pchildren.set il (joinNodes l d r)).eraseIdx (il + 1))
    | _, _, _ => BNode.inner pvals pchildren
  | n => n

/-- `btree_node::rebalance_right_to_left(src, to_move)` (part_005 lines
1774-1819) for `left = children[i]`, `src = children[i + 1]` of parent
`p`: the delimiter and the first `m - 1` values of `src` move to the left
node, `src.vals[m - 1]` becomes the new delimiter, and (for internal
nodes) the first `m` children of `src` move over. -/
def rebalanceRTLAt (p : BNode α β) (i m : Nat) : BNode α β :=
  match p with
  | BNode.inner pvals pchildren =>
    match pchildren.get? i, pchildren.get? (i + 1), pvals.get? i with
    | some l, some r, some d =>
      let newDelim := ((r.valsOf.get? (m - 1)).getD d)
      let l2 : BNode α β :=
        match l, r with
        | BNode.leaf mc lv, BNode.leaf _ rv =>
          BNode.leaf mc (lv ++ d :: rv.take (m - 1))
        | BNode.inner lv lc, BNode.inner rv rc =>
          BNode.inner (lv ++ d :: rv.take (m - 1)) (lc ++ rc.take m)
        | l, _ => l
      let r2 : BNode α β :=
        match r with
        | BNode.leaf mc rv => BNode.leaf mc (rv.drop m)
        | BNode.inner rv rc => BNode.inner (rv.drop m) (rc.drop m)
      BNode.inner (pvals.set i newDelim)
        ((pchildren.set i l2).set (i + 1) r2)
    | _, _, _ => BNode.inner pvals pchildren
  | n => n

/-- `btree_node::rebalance_left_to_right(dest, to_move)` (part_005 lines
1821-1864) for `left = children[i]`, `dest = children[i + 1]` of parent
`p`: the delimiter and the last `m - 1` values of the left node move to
the front of `dest`, `left.vals[count - m]` becomes the new delimiter,
and (for internal nodes) the last `m` children of the left node move over. -/
def rebalanceLTRAt (p : BNode α β) (i m : Nat) : BNode α β :=
  match p with
  | BNode.inner pvals pchildren =>
    match pchildren.get? i, pchildren.get? (i + 1), pvals.get? i with
    | some l, some r, some d =>
      let lc := l.count
      let newDelim := ((l.valsOf.get? (lc - m)).getD d)
      let l2 : BNode α β :=
        match l with
        | BNode.leaf mc lv => BNode.leaf mc (lv.take (lc - m))
        | BNode.inner lv lcs => BNode.inner (lv.take (lc - m)) (lcs.take (lc - m + 1))
      let r2 : BNode α β :=
        match l, r with
        | BNode.leaf _ lv, BNode.leaf mc rv =>
          BNode.leaf mc (lv.drop (lc - m + 1) ++ d :: rv)
        | BNode.inner lv lcs, BNode.inner rv rcs =>
          BNode.inner (lv.drop (lc - m + 1) ++ d :: rv) (lcs.drop (lc - m + 1) ++ rcs)
        | _, r => r
      BNode.inner (pvals.set i newDelim)
        ((pchildren.set i l2).set (i + 1) r2)
    | _, _, _ => BNode.inner pvals pchildren
  | n => n

/-- `btree_node::split(dest, insert_position)` (part_005 lines 1866-1905)
performed on `children[i]` of the node at `parentPath`: the last values
(biased by `insert_position`) move to a fresh right sibling, the largest
remaining value is promoted into the parent at position `i`, and the new
sibling becomes `children[i + 1]` (`new_leaf_node`/`new_internal_node`
create the sibling with capacity `kNodeValues = N`).  Returns the updated
tree and the iterator adjustment of `rebalance_or_split` (part_005 lines
946-949). -/
def splitChild (N : Nat) (t : BNode α β) (parentPath : List Nat) (i ipos : Nat) :
    BNode α β × List Nat × Nat :=
  match getNode t parentPath with
  | some (BNode.inner pvals pchildren) =>
    match pchildren.get? i with
    | some node =>
      let cnt := node.count
      let destCount : Nat :=
        if ipos = 0 then cnt - 1
        else if ipos = node.maxCountOf N then 0
        else cnt / 2
      let leftCount := cnt - destCount - 1
      match node.valsOf.get? leftCount with
      | some promoted =>
        let left2 : BNode α β :=
          match node with
          | BNode.leaf mc lv => BNode.leaf mc (lv.take leftCount)
          | BNode.inner lv lcs => BNode.inner (lv.take leftCount) (lcs.take (leftCount + 1))
        let dest : BNode α β :=
          match node with
          | BNode.leaf _ lv => BNode.leaf N (lv.drop (leftCount + 1))
          | BNode.inner lv lcs => BNode.inner (lv.drop (leftCount + 1)) (lcs.drop (leftCount + 1))
        let p2 := BNode.inner (pvals.insertIdx i promoted)
          ((pchildren.set i left2).insertIdx (i + 1) dest)
        let t2 := setNode t parentPath p2
        if ipos > leftCount then (t2, parentPath ++ [i + 1], ipos - leftCount - 1)
        else (t2, parentPath ++ [i], ipos)
      | none => (t, parentPath ++ [i], ipos)
    | none => (t, parentPath ++ [i], ipos)
  | _ => (t, parentPath ++ [i], ipos)

/-- `btree::rebalance_or_split(iter)` (part_005 lines 843-950) on the full
node at `path` with pending insert position `ipos`: try to shift values to
the left or right sibling; otherwise split, first recursively making room
in a full parent, and growing a new root level when the node is the root
(the `parent->set_child(0, parent); parent->swap(root())` dance moves the
old root's contents into a fresh internal node kept as child 0 of the
root object).  Returns the tree and the adjusted iterator, which the C++
code maintains as the new location of the pending insertion (equally, of
the original node's content slot `ipos` — child pointers follow exactly
the same index arithmetic). -/
def rebalanceOrSplit (N : Nat) (t : BNode α β) (path : List Nat) (ipos : Nat) :
    BNode α β × List Nat × Nat :=
  match path with
  | [] =>
    let t2 : BNode α β :=
      match t with
      | BNode.leaf mc vs => BNode.inner [] [BNode.leaf mc vs]
      | BNode.inner vs cs => BNode.inner [] [BNode.inner vs cs]
    splitChild N t2 [] 0 ipos
  | q :: qs =>
    let parentPath := (q :: qs).dropLast
    let i := (q :: qs).getLastD 0
    match getNode t parentPath with
    | some (BNode.inner pvals pchildren) =>
      match pchildren.get? i with
      | some node =>
        let tryLeft : Option (BNode α β × List Nat × Nat) :=
          if 0 < i then
            match pchildren.get? (i - 1) with
            | some left =>
              if left.count < left.maxCountOf N then
                let m := max 1 ((left.maxCountOf N - left.count) /
                  (1 + (if ipos < left.maxCountOf N then 1 else 0)))
                if ipos ≥ m ∨ left.count + m < left.maxCountOf N then
                  let t2 := setNode t parentPath (rebalanceRTLAt
                    (BNode.inner pvals pchildren) (i - 1) m)
                  if ipos ≥ m then some (t2, parentPath ++ [i], ipos - m)
                  else some (t2, parentPath ++ [i - 1], ipos + left.count + 1)
                else none
              else none
            | none => none
          else none
        match tryLeft with
        | some res => res
        | none =>
          let tryRight : Option (BNode α β × List Nat × Nat) :=
            if i < pvals.length then
              match pchildren.get? (i + 1) with
              | some right =>
                if right.count < right.maxCountOf N then
                  let m := max 1 ((right.maxCountOf N - right.count) /
                    (1 + (if 0 < ipos then 1 else 0)))
                  if ipos + m ≤ node.count ∨ right.count + m < right.maxCountOf N then
                    let t2 := setNode t parentPath (rebalanceLTRAt
                      (BNode.inner pvals pchildren) i m)
                    if ipos > node.count - m then
                      some (t2, parentPath ++ [i + 1], ipos - (node.count - m) - 1)
                    else some (t2, parentPath ++ [i], ipos)
                  else none
                else none
              | none => none
            else none
          match tryRight with
          | some res => res
          | none =>
            let step : BNode α β × List Nat × Nat :=
              if pvals.length = N then rebalanceOrSplit N t parentPath i
              else (t, parentPath, i)
            match step with
            | (t2, pp2, rest) =>
              match rest with
              | i2 => splitChild N t2 pp2 i2 ipos
      | none => (t, q :: qs, ipos)
    | _ => (t, q :: qs, ipos)
termination_by path.length
decreasing_by
  simp [List.length_dropLast]
/-- `btree_node::insert_value(i, x)` on the leaf at `path` (part_005
lines 1737-1754; the internal-node child-gap arm is only exercised inside
`split`, which is modelled directly in `splitChild`). -/
def insertValueAt (t : BNode α β) (path : List Nat) (i : Nat) (v : α × β) :
    BNode α β :=
  match getNode t path with
  | some (BNode.leaf mc vs) => setNode t path (BNode.leaf mc (vs.insertIdx i v))
  | _ => t

/-- `--iter; ++iter.position` of `internal_insert` (part_005 lines
1059-1064): from a value of an internal node, descend into
`children[position]` and then right-most (`decrement_slow`, non-leaf arm),
landing *after* the last value of the predecessor leaf. -/
def predecessorLeafEnd (t : BNode α β) (it : Iter) : Iter :=
  match getNode t (it.path ++ [it.pos]) with
  | some c =>
    let r := rightmostFrom c
    ⟨it.path ++ [it.pos] ++ r.1, r.2⟩
  | none => it

/-- `btree::internal_insert(iter, v)` (part_005 lines 1056-1085): redirect
an internal-node iterator to the predecessor leaf's end, then either grow
the small root (`new_leaf_root_node(min(kNodeValues, 2*max_count))` +
`swap` + `delete_leaf_node` of the old root), or `rebalance_or_split` a
full leaf, maintaining `root_fields::size` exactly where the C++ does
(`init_root` seeds it with the old root's count when a first internal
root is created by `rebalance_or_split`). -/
def internalInsert (N : Nat) (tr : BTreeM α β) (it0 : Iter) (v : α × β) :
    BTreeM α β × Iter :=
  match tr.root with
  | none => (tr, it0)
  | some r =>
    let it :=
      match getNode r it0.path with
      | some (BNode.inner _ _) => predecessorLeafEnd r it0
      | _ => it0
    match getNode r it.path with
    | some (BNode.leaf mc vs) =>
      if vs.length = mc then
        if mc < N then
          -- small-root growth: the new, larger leaf root takes the values
          let r2 := BNode.leaf (min N (2 * mc)) (vs.insertIdx it.pos v)
          ({ root := some r2, size := tr.size }, ⟨[], it.pos⟩)
        else
          let s := rebalanceOrSplit N r it.path it.pos
          let size2 := (if r.isLeaf then r.count else tr.size) + 1
          let r3 := insertValueAt s.1 s.2.1 s.2.2 v
          ({ root := some r3, size := size2 }, ⟨s.2.1, s.2.2⟩)
      else
        let size2 := if r.isLeaf then tr.size else tr.size + 1
        let r3 := insertValueAt r it.path it.pos v
        ({ root := some r3, size := size2 }, it)
    | _ => (tr, it)

/-- `btree::insert_unique(key, value)` (part_005 lines 599-620) in the
plain-compare instantiation: `internal_locate` descends by `lower_bound`;
the exact-match test is the `internal_last` fixup followed by
`!compare_keys(key, last.key())`.  Returns the tree, the iterator and the
inserted flag. -/
def insertUnique [LinearOrder α] (N : Nat) (tr : BTreeM α β) (k : α) (d : β) :
    BTreeM α β × Iter × Bool :=
  let tr1 : BTreeM α β :=
    match tr.root with
    | none => { root := some (BNode.leaf 1 []), size := tr.size }
    | some _ => tr
  match tr1.root with
  | none => (tr1, ⟨[], 0⟩, false)
  | some r =>
    let l := locateLoop r k
    let iter : Iter := ⟨l.1, l.2⟩
    match internalLast r iter with
    | some last =>
      match keyAtIter r last with
      | some lk =>
        if ¬ k < lk then (tr1, last, false)
        else
          let res := internalInsert N tr1 iter (k, d)
          (res.1, res.2, true)
      | none =>
        let res := internalInsert N tr1 iter (k, d)
        (res.1, res.2, true)
    | none =>
      let res := internalInsert N tr1 iter (k, d)
      (res.1, res.2, true)

/-- `btree::insert_multi(key, value)` (part_005 lines 655-667):
`internal_upper_bound` then `internal_insert` (null iterator → `end()`). -/
def insertMulti [LinearOrder α] (N : Nat) (tr : BTreeM α β) (k : α) (d : β) :
    BTreeM α β × Iter :=
  let tr1 : BTreeM α β :=
    match tr.root with
    | none => { root := some (BNode.leaf 1 []), size := tr.size }
    | some _ => tr
  match tr1.root with
  | none => (tr1, ⟨[], 0⟩)
  | some r =>
    let iter : Iter :=
      match internalUpperBound r k with
      | some i => i
      | none => endIter tr1
    internalInsert N tr1 iter (k, d)
/-!  ## The erase path (part_005 lines 719-812, 952-1042) -/

/-- Overwrite the value at a node position. -/
def setValAt (t : BNode α β) (p : List Nat) (i : Nat) (v : α × β) : BNode α β :=
  match getNode t p with
  | some (BNode.leaf mc vs) => setNode t p (BNode.leaf mc (vs.set i v))
  | some (BNode.inner vs cs) => setNode t p (BNode.inner (vs.set i v) cs)
  | none => t

/-- `btree_node::value_swap(i, x, j)` between two tree positions. -/
def valueSwapAt (t : BNode α β) (p1 : List Nat) (i1 : Nat) (p2 : List Nat)
    (i2 : Nat) : BNode α β :=
  match valAtIter t ⟨p1, i1⟩, valAtIter t ⟨p2, i2⟩ with
  | some v1, some v2 => setValAt (setValAt t p1 i1 v2) p2 i2 v1
  | _, _ => t

/-- `btree_node::remove_value(i)` on the leaf at `p` (part_005 lines
1756-1772; `erase` always removes from a leaf). -/
def removeValueAt (t : BNode α β) (p : List Nat) (i : Nat) : BNode α β :=
  match getNode t p with
  | some (BNode.leaf mc vs) => setNode t p (BNode.leaf mc (vs.eraseIdx i))
  | _ => t

/-- `--iter` from a value of an internal node (`erase`, part_005 line
725): descend right-most into `children[position]`, landing on the last
value of the predecessor leaf. -/
def predecessorLeafIter (t : BNode α β) (it : Iter) : Iter :=
  let e := predecessorLeafEnd t it
  ⟨e.path, e.pos - 1⟩

/-- In the C++ code the erase result iterator `res` holds a stable *node
pointer* while ancestors are restructured.  In the path embedding the
pointer identity is preserved explicitly: when the subtree containing
`res` is re-rooted (a merge into the left sibling, a rebalance shifting
children, a height shrink), the ancestor prefix `oldPath` of `res.path`
is replaced by `newPath` and the next component is shifted by `delta` (the
number of value/child slots inserted in front of it). -/
def shiftRes (oldPath newPath : List Nat) (delta : Nat) (res : Iter) : Iter :=
  if oldPath.length < res.path.length ∧ res.path.take oldPath.length = oldPath then
    ⟨newPath ++ ((res.path.getD oldPath.length 0) + delta) ::
      res.path.drop (oldPath.length + 1), res.pos⟩
  else res

/-- `btree::try_merge_or_rebalance(iter)` (part_005 lines 965-1015) on the
underfull node `children[i]` (where `ip = parentPath ++ [i]`): prefer a
merge with the left then the right sibling, then rebalance from the right
or left sibling, skipping the rebalance after a front/back deletion on a
non-empty node.  Returns the tree, the node's new child index and
position (the C++ adjusts `iter` in place), the merged flag and the
re-indexed `res`. -/
def tryMergeOrRebalance (N : Nat) (t : BNode α β) (ip : List Nat) (ipos : Nat)
    (res : Iter) : BNode α β × Nat × Nat × Bool × Iter :=
  let parentPath := ip.dropLast
  let i := ip.getLastD 0
  let keep : BNode α β × Nat × Nat × Bool × Iter := (t, i, ipos, false, res)
  match getNode t parentPath with
  | some (BNode.inner pvals pchildren) =>
    match pchildren.get? i with
    | some node =>
      let tryMergeLeft : Option (BNode α β × Nat × Nat × Bool × Iter) :=
        if 0 < i then
          match pchildren.get? (i - 1) with
          | some left =>
            if 1 + left.count + node.count ≤ left.maxCountOf N then
              let t2 := setNode t parentPath
                (mergeAt (BNode.inner pvals pchildren) (i - 1))
              some (t2, i - 1, ipos + 1 + left.count, true,
                shiftRes ip (parentPath ++ [i - 1]) (left.count + 1) res)
            else none
          | none => none
        else none
      match tryMergeLeft with
      | some r => r
      | none =>
        let tryRight : Option (BNode α β × Nat × Nat × Bool × Iter) :=
          if i < pvals.length then
            match pchildren.get? (i + 1) with
            | some right =>
              if 1 + node.count + right.count ≤ right.maxCountOf N then
                let t2 := setNode t parentPath
                  (mergeAt (BNode.inner pvals pchildren) i)
                some (t2, i, ipos, true, res)
              else if right.count > N / 2 ∧ (node.count = 0 ∨ 0 < ipos) then
                let m := min ((right.count - node.count) / 2) (right.count - 1)
                let t2 := setNode t parentPath
                  (rebalanceRTLAt (BNode.inner pvals pchildren) i m)
                some (t2, i, ipos, false, res)
              else none
            | none => none
          else none
        match tryRight with
        | some r => r
        | none =>
          if 0 < i then
            match pchildren.get? (i - 1) with
            | some left =>
              if left.count > N / 2 ∧ (node.count = 0 ∨ ipos < node.count) then
                let m := min ((left.count - node.count) / 2) (left.count - 1)
                let t2 := setNode t parentPath
                  (rebalanceLTRAt (BNode.inner pvals pchildren) (i - 1) m)
                (t2, i, ipos + m, false, shiftRes ip ip m res)
              else keep
            | none => keep
          else keep
    | none => keep
  | _ => keep

/-- `btree::try_shrink()` (part_005 lines 1017-1042): on an emptied root,
drop a leaf root (`none` = tree empty) or promote the single child (for a
leaf child via `make_root`, for an internal child via `swap` into the
retained root object — both collapse to the child's contents becoming the
root). -/
def tryShrink (t : BNode α β) : Option (BNode α β) :=
  if 0 < t.count then some t
  else
    match t with
    | BNode.leaf _ _ => none
    | BNode.inner _ cs =>
      match cs.get? 0 with
      | some c => some c
      | none => some t

/-- The merge/rebalance walk of `btree::erase` (part_005 lines 746-766):
from the erase leaf upward, stop at the root (`try_shrink`) or at a node
with `count ≥ kMinNodeValues`; after each `try_merge_or_rebalance`, if
the (possibly re-targeted) node is a leaf it becomes the result iterator;
on a merge continue from the parent.  Returns `none` when the tree became
empty, plus the re-indexed `res`. -/
def eraseWalk (N : Nat) (t : BNode α β) (ipath : List Nat) (ipos : Nat)
    (res : Iter) : Option (BNode α β) × Iter :=
  match ipath with
  | [] =>
    match tryShrink t with
    | none => (none, res)
    | some t2 =>
      if t.count = 0 ∧ t.isLeaf = false then
        (some t2, ⟨res.path.drop 1, res.pos⟩)
      else (some t2, res)
  | q :: qs =>
    if countAt t (q :: qs) ≥ N / 2 then (some t, res)
    else
      let parentPath := (q :: qs).dropLast
      match tryMergeOrRebalance N t (q :: qs) ipos res with
      | (t2, i2, pos2, merged, res2) =>
        let res3 :=
          if (getNode t2 (parentPath ++ [i2])).elim false (fun n => n.isLeaf)
          then (⟨parentPath ++ [i2], pos2⟩ : Iter) else res2
        if merged then eraseWalk N t2 parentPath pos2 res3
        else (some t2, res3)
termination_by ipath.length
decreasing_by
  simp [List.length_dropLast]

/-- `btree::erase(iter)` (part_005 lines 719-779): swap an internal-node
value into its predecessor leaf, remove from the leaf, walk up with
merge/rebalance and `try_shrink`, then normalize the returned iterator
(advance off a node end; advance once more after an internal-node swap). -/
def eraseIter (N : Nat) (tr : BTreeM α β) (it : Iter) : BTreeM α β × Iter :=
  match tr.root with
  | none => (tr, it)
  | some r =>
    let step : BNode α β × Iter × Nat × Bool :=
      match getNode r it.path with
      | some (BNode.inner _ _) =>
        let pl := predecessorLeafIter r it
        (valueSwapAt r pl.path pl.pos it.path it.pos, pl, tr.size - 1, true)
      | _ =>
        (r, it, if r.isLeaf then tr.size else tr.size - 1, false)
    match step with
    | (r1, leafIt, size1, internalDelete) =>
      let r2 := removeValueAt r1 leafIt.path leafIt.pos
      match eraseWalk N r2 leafIt.path leafIt.pos leafIt with
      | (none, _) => (emptyTree, ⟨[], 0⟩)
      | (some r3, res) =>
        let res2 :=
          if res.pos = countAt r3 res.path then
            increment r3 ⟨res.path, countAt r3 res.path - 1⟩
          else res
        let res3 := if internalDelete then increment r3 res2 else res2
        ({ root := some r3, size := size1 }, res3)

/-- `btree::erase_unique(key)` (part_005 lines 790-799). -/
def eraseUnique [LinearOrder α] (N : Nat) (tr : BTreeM α β) (k : α) :
    BTreeM α β × Nat :=
  match tr.root with
  | none => (tr, 0)
  | some r =>
    match internalFindUnique r k with
    | none => (tr, 0)
    | some it => ((eraseIter N tr it).1, 1)

/-- `std::distance(begin, end)` on the tree's bidirectional iterators:
count the increments needed to reach `b` (with fuel `treeSize + 1`). -/
def distanceIter (t : BNode α β) (a b : Iter) : Nat → Nat
  | 0 => 0
  | f + 1 => if a = b then 0 else 1 + distanceIter t (increment t a) b f

/-- The counted single-erase loop of `btree::erase(begin, end)`
(part_005 lines 781-788). -/
def eraseRange (N : Nat) (tr : BTreeM α β) (b : Iter) : Nat → BTreeM α β
  | 0 => tr
  | n + 1 =>
    let s := eraseIter N tr b
    eraseRange N s.1 s.2 n

/-- `btree::erase_multi(key)` (part_005 lines 801-812). -/
def eraseMulti [LinearOrder α] (N : Nat) (tr : BTreeM α β) (k : α) :
    BTreeM α β × Nat :=
  match tr.root with
  | none => (tr, 0)
  | some r =>
    match internalLowerBound r k with
    | none => (tr, 0)
    | some b =>
      let e :=
        match internalUpperBound r k with
        | some i => i
        | none => endIter tr
      let n := distanceIter r b e (treeSize tr + 1)
      (eraseRange N tr b n, n)

/-!  ## Assignment (part_005 lines 263-270 and 699-717) -/

/-- `btree::clear()`. -/
def clearTree (_ : BTreeM α β) : BTreeM α β := emptyTree

/-- The in-order value sequence of a tree (what iterating a source tree
from `begin()` to `end()` yields; see `internal_dump`). -/
def treeList (tr : BTreeM α β) : List (α × β) :=
  match tr.root with
  | none => []
  | some r => toListNode r

/-- The copy loop of `btree::assign(x)` (part_005 lines 706-716): each
source value is appended with `insert_multi` on an empty tree and
`internal_insert(end(), v)` otherwise. -/
def assignLoop [LinearOrder α] (N : Nat) (dst : BTreeM α β) :
    List (α × β) → BTreeM α β
  | [] => dst
  | v :: vs =>
    let dst2 :=
      if dst.root.isNone then (insertMulti N dst v.1 v.2).1
      else (internalInsert N dst (endIter dst) v).1
    assignLoop N dst2 vs

/-- `btree::assign(x)`: `clear()` then the copy loop over the source's
iteration sequence (the comparator/allocator copies have no observable
effect in this instantiation). -/
def assignTree [LinearOrder α] (N : Nat) (srcVals : List (α × β)) : BTreeM α β :=
  assignLoop N emptyTree srcVals

/-- `btree::operator=(x)` (part_005 lines 263-270): the `&x == this` check
is the `sameObject` flag; when it is set the tree is returned unchanged
without calling `assign`. -/
def operatorAssign [LinearOrder α] (N : Nat) (t src : BTreeM α β)
    (sameObject : Bool) : BTreeM α β :=
  if sameObject then t else assignTree N (treeList src)

/-- What `assign(*this)` would compute if `operator=` did not detect
self-assignment: `clear()` empties the tree first, so the copy loop then
iterates the now-empty source. -/
def selfAssignUnguarded [LinearOrder α] (N : Nat) (t : BTreeM α β) : BTreeM α β :=
  assignTree N (treeList (clearTree t))

/-!  ## Public mutation sequences (for the whole-tree invariants) -/

/-- A public mutation: `insert_unique`, `insert_multi`, `erase_unique` or
`erase_multi`. -/
inductive MutOp (α β : Type) where
  | insU (k : α) (d : β)
  | insM (k : α) (d : β)
  | delU (k : α)
  | delM (k : α)
deriving Repr

/-- Apply one public mutation. -/
def applyOp [LinearOrder α] (N : Nat) (tr : BTreeM α β) : MutOp α β → BTreeM α β
  | MutOp.insU k d => (insertUnique N tr k d).1
  | MutOp.insM k d => (insertMulti N tr k d).1
  | MutOp.delU k => (eraseUnique N tr k).1
  | MutOp.delM k => (eraseMulti N tr k).1

/-- Apply a sequence of public mutations to a tree. -/
def applyOps [LinearOrder α] (N : Nat) (tr : BTreeM α β)
    (ops : List (MutOp α β)) : BTreeM α β :=
  ops.foldl (applyOp N) tr

/-- The visit sequence of `begin()` followed by repeated `++` (one
dereference per stored value). -/
def iterSeqAux (t : BNode α β) (it : Iter) : Nat → List (α × β)
  | 0 => []
  | f + 1 =>
    match valAtIter t it with
    | some v => v :: iterSeqAux t (increment t it) f
    | none => []

/-- Iterating the tree from `begin()` to `end()`. -/
def iterSeq (tr : BTreeM α β) : List (α × β) :=
  match tr.root with
  | none => []
  | some r => iterSeqAux r (beginIter tr) (treeSize tr)

/-!  ## Storage model of the small-root growth path (part_005 lines 1065-1075)

The growth path manipulates node *storage*: `new_leaf_root_node` allocates,
`swap` exchanges contents (values and counts; `max_count` belongs to the
allocation), `delete_leaf_node(root())` frees the old root's region while
`root()` still points to it, and only then is the root pointer redirected.
A minimal heap of leaf cells indexed by allocation ids makes the
release order observable. -/

/-- A leaf allocation: its capacity (fixed at allocation; the deallocation
size is computed from it) and its constructed values. -/
structure LeafCell (α β : Type) where
  maxCount : Nat
  vals : List (α × β)

/-- A heap of leaf cells for a single-leaf tree: live cells, the next
fresh allocation id and the root pointer. -/
structure RootHeap (α β : Type) where
  mem : Nat → Option (LeafCell α β)
  next : Nat
  rootId : Nat

/-- The small-root growth branch of `internal_insert` (part_005 lines
1065-1075) followed by the final `insert_value`: allocate
`new_leaf_root_node(min(kNodeValues, 2*max_count))`, `swap` its contents
with the root, `delete_leaf_node(root())` (the *old* root — the root
pointer is redirected only afterwards), then insert the value into the
new root. -/
def growRootAndInsert (N : Nat) (h : RootHeap α β) (pos : Nat) (v : α × β) :
    RootHeap α β :=
  match h.mem h.rootId with
  | some oldRoot =>
    let newId := h.next
    let grown := min N (2 * oldRoot.maxCount)
    -- iter.node = new_leaf_root_node(min(kNodeValues, 2 * max_count));
    let m1 : Nat → Option (LeafCell α β) :=
      fun i => if i = newId then some ⟨grown, []⟩ else h.mem i
    -- iter.node->swap(root()): values and counts are exchanged,
    -- max_count stays with each allocation
    let m2 : Nat → Option (LeafCell α β) :=
      fun i =>
        if i = newId then some ⟨grown, oldRoot.vals⟩
        else if i = h.rootId then some ⟨oldRoot.maxCount, []⟩
        else m1 i
    -- delete_leaf_node(root()): the old root's storage is released
    let m3 : Nat → Option (LeafCell α β) :=
      fun i => if i = h.rootId then none else m2 i
    -- *mutable_root() = iter.node; iter.node->insert_value(position, v)
    let m4 : Nat → Option (LeafCell α β) :=
      fun i =>
        if i = newId then some ⟨grown, oldRoot.vals.insertIdx pos v⟩ else m3 i
    ⟨m4, newId + 1, newId⟩
  | none => h

/-!  ## Whole-tree invariants -/

/-- The occupancy check claimed for every non-root node:
`kMinNodeValues ≤ count` with `kMinNodeValues = kNodeValues / 2`
(part_005 line 31). -/
def minOccB (N : Nat) (isRoot : Bool) : BNode α β → Bool
  | BNode.leaf _ vs => isRoot || N / 2 ≤ vs.length
  | BNode.inner vs cs =>
    (isRoot || N / 2 ≤ vs.length) && cs.attach.all (fun c => minOccB N false c.1)
termination_by n => sizeOf n
decreasing_by
  have := List.sizeOf_lt_of_mem c.2
  simp only [BNode.inner.sizeOf_spec]
  omega

/-- The unconditional occupancy assertions of `internal_verify` (part_005
lines 1225-1226), checked over every node of a subtree: `0 < count` and
`count ≤ max_count` (internal nodes are always built with capacity
`kNodeValues`, see `init_internal`). -/
def basicOccB (N : Nat) : BNode α β → Bool
  | BNode.leaf mc vs => decide (0 < vs.length) && decide (vs.length ≤ mc)
  | BNode.inner vs cs =>
    (decide (0 < vs.length) && decide (vs.length ≤ N)) &&
      cs.attach.all (fun c => basicOccB N c.1)
termination_by n => sizeOf n
decreasing_by
  have := List.sizeOf_lt_of_mem c.2
  simp only [BNode.inner.sizeOf_spec]
  omega

/-- Structural well-formedness of a node of height `h`: leaves at height 0
with `count ≤ max_count` (non-root leaves have `max_count = kNodeValues`,
the root leaf is the possibly smaller small root); internal nodes with
`count + 1` children, all well-formed one level down (this parameterised
height is the equal-leaf-depth invariant).  Every node holds at least one
value; only counts `≤ kNodeValues` fit the arrays. -/
def NodeWF (N : Nat) : Nat → Bool → BNode α β → Prop
  | 0, isRoot, BNode.leaf mc vs =>
    0 < vs.length ∧ vs.length ≤ mc ∧ (if isRoot then mc ≤ N else mc = N)
  | h + 1, _, BNode.inner vs cs =>
    0 < vs.length ∧ vs.length ≤ N ∧ cs.length = vs.length + 1 ∧
    ∀ c ∈ cs, NodeWF N h false c
  | _, _, _ => False

/-- The keys of the tree in order. -/
def treeKeys (tr : BTreeM α β) : List α := (treeList tr).map Prod.fst

/-- Tree well-formedness: a structurally well-formed root of some height,
non-decreasing keys, and a coherent `size` field. -/
def TreeWF [LinearOrder α] (N : Nat) (tr : BTreeM α β) : Prop :=
  match tr.root with
  | none => True
  | some r =>
    (∃ h, NodeWF N h true r) ∧
    (treeKeys tr).Pairwise (· ≤ ·) ∧
    treeSize tr = (treeList tr).length

/-- Strictly increasing keys (the unique-variant refinement). -/
def TreeUnique [LinearOrder α] (tr : BTreeM α β) : Prop :=
  (treeKeys tr).Pairwise (· < ·)

/-- The in-order index denoted by an iterator `(path, pos)`: positions in
a leaf count directly; a value of an internal node is preceded by its
first `pos + 1` child subtrees; a path component `i` skips `i` subtrees
and `i` delimiting values. -/
def idxOf : BNode α β → List Nat → Nat → Nat
  | BNode.leaf _ _, _, pos => pos
  | BNode.inner _ cs, [], pos =>
    ((cs.take (pos + 1)).map (fun c => (toListNode c).length)).sum + pos
  | BNode.inner _ cs, i :: p, pos =>
    ((cs.take i).map (fun c => (toListNode c).length)).sum + i +
      (match cs.get? i with
       | some c => idxOf c p pos
       | none => 0)

/-- The number of values with key strictly below `k` — in a sorted list,
the lower-bound index. -/
def lbCount [LinearOrder α] (l : List (α × β)) (k : α) : Nat :=
  l.countP (fun v => decide (v.1 < k))

/-- The number of values with key at most `k` — in a sorted list, the
upper-bound index. -/
def ubCount [LinearOrder α] (l : List (α × β)) (k : α) : Nat :=
  l.countP (fun v => decide (v.1 ≤ k))

/-- The in-order index at which the subtree (or leaf value slot) reached
by a path begins: for a leaf, a final component is a value position; for
an internal node, component `i` skips the first `i` subtrees and `i`
delimiting values.  `idxOf t p pos = subtreeStart t (p ++ [pos])` whenever
`p` reaches a leaf. -/
def subtreeStart : BNode α β → List Nat → Nat
  | _, [] => 0
  | BNode.leaf _ _, i :: _ => i
  | BNode.inner _ cs, i :: p =>
    ((cs.take i).map (fun c => (toListNode c).length)).sum + i +
      (match cs.get? i with
       | some c => subtreeStart c p
       | none => 0)

/-- Minimal structural sanity used by the surgery lemmas: every internal
node has exactly `count + 1` children (btree_internal_fields.h).  Unlike
`NodeWF` it tolerates the transiently empty nodes of the erase walk. -/
def ShapeOK : BNode α β → Prop
  | BNode.leaf _ _ => True
  | BNode.inner vs cs => cs.length = vs.length + 1 ∧ ∀ c ∈ cs, ShapeOK c
decreasing_by
  have := List.sizeOf_lt_of_mem (by assumption)
  simp only [BNode.inner.sizeOf_spec]
  omega

/-!  ## Proof interfaces for the insert path

The two predicates below package what `rebalance_or_split` guarantees at
its return, in the form the caller consumes: a leaf slot ready to receive
the pending value (`InsertReady`), or a parent with room whose child is
about to be split, together with the traversal frame around that child
and the behavior of plugging the promoted value and new sibling into the
parent (`SplitReady` — also the interface the recursive call returns). -/

/-- Position `(p2, i2)` of tree `t2` is a leaf slot with room at global
in-order index `start`; inserting any value `w` there inserts it at
`start` in the traversal and yields a well-formed tree of height `h2`. -/
def InsertReady (N : Nat) (t2 : BNode α β) (p2 : List Nat) (i2 : Nat)
    (start : Nat) (h2 : Nat) : Prop :=
  ∃ (mc : Nat) (vs2 : List (α × β)) (preG postG : List (α × β)),
    getNode t2 p2 = some (BNode.leaf mc vs2) ∧ i2 ≤ vs2.length ∧
    vs2.length < mc ∧
    toListNode t2 = preG ++ postG ∧ preG.length = start ∧
    ∀ w, toListNode (insertValueAt t2 p2 i2 w) = preG ++ w :: postG ∧
      NodeWF N h2 true (insertValueAt t2 p2 i2 w) ∧
      getNode (insertValueAt t2 p2 i2 w) p2 =
        some (BNode.leaf mc (vs2.insertIdx i2 w))

/-- The node at `pp` of `t` is internal with room, its child `i` is `X`
(of height `hc`, whose subtree starts at global index `start`), and
replacing that child by `c1` while inserting delimiter `w` and right
sibling `c2` after it (the parent-level effect of `split`) produces the
expected traversal and a well-formed tree of height `h2`. -/
def SplitReady (N : Nat) (t : BNode α β) (pp : List Nat) (i : Nat)
    (X : BNode α β) (start : Nat) (hc h2 : Nat) : Prop :=
  ∃ (pvals : List (α × β)) (pcs : List (BNode α β)) (preG postG : List (α × β)),
    getNode t pp = some (BNode.inner pvals pcs) ∧
    pcs.get? i = some X ∧ i ≤ pvals.length ∧ pvals.length < N ∧
    pcs.length = pvals.length + 1 ∧
    NodeWF N hc false X ∧
    toListNode t = preG ++ toListNode X ++ postG ∧
    preG.length = start ∧
    (∀ w c1 c2, toListNode (setNode t pp (BNode.inner (pvals.insertIdx i w)
          ((pcs.set i c1).insertIdx (i + 1) c2))) =
        preG ++ toListNode c1 ++ w :: toListNode c2 ++ postG) ∧
    (∀ w c1 c2, NodeWF N hc false c1 → NodeWF N hc false c2 →
      NodeWF N h2 true (setNode t pp (BNode.inner (pvals.insertIdx i w)
          ((pcs.set i c1).insertIdx (i + 1) c2))))

/-- Position `p2` of `t2` holds node `T`, whose in-order segment starts at
global index `sT`; replacing `T` by any node rewrites exactly that segment,
and by a well-formed node of the same height keeps the tree well-formed.
This packages `setNode_surgery`/`NodeWF_setNode` for one position. -/
def SlotReady (N : Nat) (t2 : BNode α β) (p2 : List Nat) (T : BNode α β)
    (sT : Nat) (hx h2 : Nat) : Prop :=
  ∃ G1 G2 : List (α × β),
    getNode t2 p2 = some T ∧
    toListNode t2 = G1 ++ toListNode T ++ G2 ∧
    G1.length = sT ∧
    (∀ U, toListNode (setNode t2 p2 U) = G1 ++ toListNode U ++ G2) ∧
    (∀ U, NodeWF N hx false U → NodeWF N h2 true (setNode t2 p2 U))

/-!  ## Correctness of the compare-to searches over a sorted node

The hypotheses below spell out what "the first `count` keys are sorted
non-decreasing under a three-way comparator" presumes of a well-behaved
comparator: transitivity of the induced `≤`/`<` and the sign-flip law.
-/

section CompareToSearch

variable {α : Type} (comp : α → α → Int) (key : Nat → α) (k : α) (count : Nat)

/-- Adjacent sortedness plus transitivity gives monotonicity along the key
array (strictly separated indices). -/
lemma key_le_of_lt
    (hsort : ∀ i, i + 1 < count → comp (key i) (key (i + 1)) ≤ 0)
    (htrans : ∀ a b c, comp a b ≤ 0 → comp b c ≤ 0 → comp a c ≤ 0)
    {i j : Nat} (hij : i < j) (hj : j < count) : comp (key i) (key j) ≤ 0 := by
  induction j with
  | zero => omega
  | succ m ihm =>
    rcases Nat.lt_succ_iff_lt_or_eq.mp hij with hlt | rfl
    · exact htrans _ _ _ (ihm hlt (by omega)) (hsort m hj)
    · exact hsort i hj

/-- The sign of `comp (key i) k` is non-decreasing in `i`: downward closure
of the strictly-less region. -/
lemma sign_mono_lt
    (hsort : ∀ i, i + 1 < count → comp (key i) (key (i + 1)) ≤ 0)
    (htrans : ∀ a b c, comp a b ≤ 0 → comp b c ≤ 0 → comp a c ≤ 0)
    (hlele : ∀ a b c, comp a b ≤ 0 → comp b c < 0 → comp a c < 0)
    {i j : Nat} (hij : i ≤ j) (hj : j < count)
    (h : comp (key j) k < 0) : comp (key i) k < 0 := by
  rcases Nat.lt_or_ge i j with hlt | hge
  · exact hlele _ _ _ (key_le_of_lt comp key count hsort htrans hlt hj) h
  · have : i = j := by omega
    simpa [this] using h

/-- Upward closure of the strictly-greater region. -/
lemma sign_mono_gt
    (hsort : ∀ i, i + 1 < count → comp (key i) (key (i + 1)) ≤ 0)
    (htrans : ∀ a b c, comp a b ≤ 0 → comp b c ≤ 0 → comp a c ≤ 0)
    (hlelt : ∀ a b c, comp a b < 0 → comp b c ≤ 0 → comp a c < 0)
    (hflip : ∀ a b, comp a b < 0 ↔ 0 < comp b a)
    {i j : Nat} (hij : i ≤ j) (hj : j < count)
    (h : 0 < comp (key i) k) : 0 < comp (key j) k := by
  rcases Nat.lt_or_ge i j with hlt | hge
  · have h1 : comp k (key i) < 0 := (hflip k (key i)).mpr h
    have h2 : comp k (key j) < 0 :=
      hlelt _ _ _ h1 (key_le_of_lt comp key count hsort htrans hlt hj)
    exact (hflip k (key j)).mp h2
  · have : i = j := by omega
    simpa [this] using h

/-- `linear_search_compare_to` meets the lower-bound-with-exact-match
specification on `[s, e)`: `p` is the first position in `[s, e)` whose key
is not less than `k` (or `e` if there is none). -/
lemma linearSearchCompareTo_spec (p : Nat) :
    ∀ n s e, e - s ≤ n → s ≤ e → e ≤ count → s ≤ p → p ≤ e →
    (∀ i, s ≤ i → i < p → comp (key i) k < 0) →
    (p < e → 0 ≤ comp (key p) k) →
    linearSearchCompareTo comp key k s e =
      if p < e ∧ comp (key p) k = 0 then p ||| kExactMatch else p := by
  intro n
  induction n with
  | zero =>
    intro s e hfuel hse hec hsp hpe hleft hright
    have hse2 : s = e := by omega
    rw [linearSearchCompareTo]
    simp only [if_neg (by omega : ¬ s < e)]
    have hps : p = s := by omega
    simp [hps, hse2, Nat.lt_irrefl]
  | succ n ih =>
    intro s e hfuel hse hec hsp hpe hleft hright
    rw [linearSearchCompareTo]
    rcases Nat.lt_or_ge s e with hlt | hge
    · simp only [if_pos hlt]
      rcases Nat.lt_or_ge s p with hsplt | hspge
      · have hcs : comp (key s) k < 0 := hleft s (Nat.le_refl s) hsplt
        simp only [if_neg (by omega : ¬ comp (key s) k = 0),
          if_neg (by omega : ¬ comp (key s) k > 0)]
        exact ih (s + 1) e (by omega) (by omega) hec (by omega) hpe
          (fun i hi1 hi2 => hleft i (by omega) hi2) hright
      · have hps : p = s := by omega
        subst hps
        have hc : 0 ≤ comp (key p) k := hright hlt
        rcases Int.le_iff_lt_or_eq.mp hc with hpos | heq
        · simp only [if_neg (by omega : ¬ comp (key p) k = 0),
            if_pos (by omega : comp (key p) k > 0)]
          simp only [if_neg (by omega :
            ¬ (p < e ∧ comp (key p) k = 0))]
        · simp only [if_pos heq.symm]
          simp only [if_pos (And.intro hlt heq.symm)]
    · have hse2 : s = e := by omega
      simp only [if_neg (by omega : ¬ s < e)]
      have hps : p = s := by omega
      simp [hps, hse2, Nat.lt_irrefl]

/-- `binary_search_compare_to` meets the same specification on `[s, e)`:
it locates the first not-less position, recursing left on an equal
midpoint, and tags the result exactly when the key there compares equal. -/
lemma binarySearchCompareTo_spec
    (hmLT : ∀ i j, i ≤ j → j < count → comp (key j) k < 0 → comp (key i) k < 0)
    (hmGT : ∀ i j, i ≤ j → j < count → 0 < comp (key i) k → 0 < comp (key j) k)
    (p : Nat) :
    ∀ n s e, e - s ≤ n → s ≤ e → e ≤ count → s ≤ p → p ≤ e →
    (∀ i, s ≤ i → i < p → comp (key i) k < 0) →
    (p < e → 0 ≤ comp (key p) k) →
    binarySearchCompareTo comp key k s e =
      if p < e ∧ comp (key p) k = 0 then p ||| kExactMatch else p := by
  intro n
  induction n with
  | zero =>
    intro s e hfuel hse hec hsp hpe hleft hright
    have hse2 : s = e := by omega
    rw [binarySearchCompareTo]
    simp only [if_neg (by omega : ¬ s < e)]
    have hps : p = s := by omega
    simp [hps, hse2, Nat.lt_irrefl]
  | succ n ih =>
    intro s e hfuel hse hec hsp hpe hleft hright
    rw [binarySearchCompareTo]
    rcases Nat.lt_or_ge s e with hlt | hge
    · simp only [if_pos hlt]
      have hmid1 : s ≤ (s + e) / 2 := by omega
      have hmid2 : (s + e) / 2 < e := by omega
      have hmidc : (s + e) / 2 < count := by omega
      rcases lt_trichotomy (comp (key ((s + e) / 2)) k) 0 with hneg | heq0 | hpos
      · simp only [if_pos hneg]
        have hpgt : (s + e) / 2 + 1 ≤ p := by
          by_contra hcon
          have hple : p ≤ (s + e) / 2 := by omega
          have h1 := hright (by omega)
          have h2 := hmLT p ((s + e) / 2) hple hmidc hneg
          omega
        exact ih ((s + e) / 2 + 1) e (by omega) (by omega) hec hpgt hpe
          (fun i hi1 hi2 => hleft i (by omega) hi2) hright
      · simp only [if_neg (by omega : ¬ comp (key ((s + e) / 2)) k < 0),
          if_neg (by omega : ¬ comp (key ((s + e) / 2)) k > 0)]
        have hple : p ≤ (s + e) / 2 := by
          by_contra hcon
          have := hleft ((s + e) / 2) hmid1 (by omega)
          omega
        have heqp : comp (key p) k = 0 := by
          rcases Int.le_iff_lt_or_eq.mp (hright (by omega)) with hpos2 | heq2
          · have := hmGT p ((s + e) / 2) hple hmidc hpos2
            omega
          · omega
        have hrec := ih s ((s + e) / 2) (by omega) hmid1 (by omega) hsp hple
          hleft (fun h => hright (by omega))
        rw [hrec]
        simp only [if_pos (And.intro (by omega : p < e) heqp)]
        rcases Nat.lt_or_ge p ((s + e) / 2) with hpm | hpm
        · simp only [if_pos (And.intro hpm heqp), Nat.lor_assoc, Nat.or_self]
        · simp only [if_neg (by omega : ¬ (p < (s + e) / 2 ∧ comp (key p) k = 0))]
      · simp only [if_neg (by omega : ¬ comp (key ((s + e) / 2)) k < 0),
          if_pos (by omega : comp (key ((s + e) / 2)) k > 0)]
        have hple : p ≤ (s + e) / 2 := by
          by_contra hcon
          have := hleft ((s + e) / 2) hmid1 (by omega)
          omega
        have hrec := ih s ((s + e) / 2) (by omega) hmid1 (by omega) hsp hple
          hleft (fun h => hright (by omega))
        rw [hrec]
        by_cases heq : comp (key p) k = 0
        · have hpm : p < (s + e) / 2 := by
            rcases Nat.lt_or_ge p ((s + e) / 2) with h | h
            · exact h
            · have hpe2 : p = (s + e) / 2 := by omega
              rw [hpe2] at heq
              omega
          simp only [if_pos (And.intro hpm heq),
            if_pos (And.intro (by omega : p < e) heq)]
        · simp only [if_neg (by simp [heq] : ¬ (p < (s + e) / 2 ∧ comp (key p) k = 0)),
            if_neg (by simp [heq] : ¬ (p < e ∧ comp (key p) k = 0))]
    · have hse2 : s = e := by omega
      simp only [if_neg (by omega : ¬ s < e)]
      have hps : p = s := by omega
      simp [hps, hse2, Nat.lt_irrefl]

end CompareToSearch
/-!  ## Claim theorems for the node-level searches and capacity arithmetic -/

/-- Claim C6: over a node whose first `count` keys are sorted non-decreasing
under a well-behaved three-way comparator (transitivity and sign-flip laws
as hypotheses), `linear_search_compare_to` and `binary_search_compare_to`
on `[0, count)` return `p ||| kExactMatch` for the smallest index `p` whose
key compares equal to `k` when one exists, and otherwise return the index
of the first key not less than `k` with the `kExactMatch` bit clear. -/
theorem compare_to_searches_exact_match_spec
    {α : Type} (comp : α → α → Int) (key : Nat → α) (k : α) (count : Nat)
    (hsort : ∀ i, i + 1 < count → comp (key i) (key (i + 1)) ≤ 0)
    (htrans : ∀ a b c, comp a b ≤ 0 → comp b c ≤ 0 → comp a c ≤ 0)
    (hlele : ∀ a b c, comp a b ≤ 0 → comp b c < 0 → comp a c < 0)
    (hlelt : ∀ a b c, comp a b < 0 → comp b c ≤ 0 → comp a c < 0)
    (hflip : ∀ a b, comp a b < 0 ↔ 0 < comp b a)
    (hcount : count < 2 ^ 30) :
    (∀ p, p < count → comp (key p) k = 0 → (∀ j, j < p → comp (key j) k ≠ 0) →
      linearSearchCompareTo comp key k 0 count = p ||| kExactMatch ∧
      binarySearchCompareTo comp key k 0 count = p ||| kExactMatch) ∧
    ((∀ i, i < count → comp (key i) k ≠ 0) → ∀ p, p ≤ count →
      (∀ j, j < p → comp (key j) k < 0) → (p < count → 0 ≤ comp (key p) k) →
      linearSearchCompareTo comp key k 0 count = p ∧
      binarySearchCompareTo comp key k 0 count = p ∧
      p &&& kExactMatch = 0) := by
  have hmLT : ∀ i j, i ≤ j → j < count → comp (key j) k < 0 →
      comp (key i) k < 0 :=
    fun i j hij hj h => sign_mono_lt comp key k count hsort htrans hlele hij hj h
  have hmGT : ∀ i j, i ≤ j → j < count → 0 < comp (key i) k →
      0 < comp (key j) k :=
    fun i j hij hj h => sign_mono_gt comp key k count hsort htrans hlelt hflip hij hj h
  constructor
  · intro p hp heq hne
    have hleft : ∀ i, 0 ≤ i → i < p → comp (key i) k < 0 := by
      intro i _ hip
      rcases lt_trichotomy (comp (key i) k) 0 with h | h | h
      · exact h
      · exact absurd h (hne i hip)
      · have := hmGT i p (by omega) hp h
        omega
    have hright : p < count → 0 ≤ comp (key p) k := fun _ => by omega
    constructor
    · have := linearSearchCompareTo_spec comp key k count p count 0 count
        (by omega) (by omega) (by omega) (by omega) (by omega) hleft hright
      rw [this, if_pos (And.intro hp heq)]
    · have := binarySearchCompareTo_spec comp key k count hmLT hmGT p count 0
        count (by omega) (by omega) (by omega) (by omega) (by omega) hleft hright
      rw [this, if_pos (And.intro hp heq)]
  · intro hnone p hpc hleft0 hright0
    have hleft : ∀ i, 0 ≤ i → i < p → comp (key i) k < 0 :=
      fun i _ hip => hleft0 i hip
    have hcond : ¬ (p < count ∧ comp (key p) k = 0) := by
      rintro ⟨h1, h2⟩
      exact hnone p h1 h2
    refine ⟨?_, ?_, ?_⟩
    · have := linearSearchCompareTo_spec comp key k count p count 0 count
        (by omega) (by omega) (by omega) (by omega) (by omega) hleft hright0
      rw [this, if_neg hcond]
    · have := binarySearchCompareTo_spec comp key k count hmLT hmGT p count 0
        count (by omega) (by omega) (by omega) (by omega) (by omega) hleft hright0
      rw [this, if_neg hcond]
    · have hplt : p < 2 ^ 30 := by omega
      rw [kExactMatch, Nat.and_two_pow, Nat.testBit_eq_false_of_lt hplt]
      simp

/-- Witness for C6 at a concrete node: keys `0,1,2,3`, query `2`, comparator
`a - b`; the searches return `2 ||| kExactMatch`. -/
theorem compare_to_searches_exact_match_spec_witness :
    linearSearchCompareTo (fun a b : Int => a - b) (fun i => (i : Int)) 2 0 4 =
      2 ||| kExactMatch ∧
    binarySearchCompareTo (fun a b : Int => a - b) (fun i => (i : Int)) 2 0 4 =
      2 ||| kExactMatch := by
  have h := compare_to_searches_exact_match_spec
    (fun a b : Int => a - b) (fun i => (i : Int)) 2 4
    (by intro i hi; dsimp only; push_cast; omega)
    (by intro a b c h1 h2; dsimp only at h1 h2 ⊢; omega)
    (by intro a b c h1 h2; dsimp only at h1 h2 ⊢; omega)
    (by intro a b c h1 h2; dsimp only at h1 h2 ⊢; omega)
    (by intro a b; dsimp only; omega)
    (by norm_num)
  exact h.1 2 (by norm_num) (by norm_num)
    (by intro j hj; interval_cases j <;> norm_num)

/-- Claim C8: `kNodeValues` equals
`(kTargetNodeSize - sizeof(base fields)) / kValueSize` when that quotient is
at least 3 and equals 3 otherwise; for `btree_map<int32, int32>` with
`TargetNodeSize = 256` (LP64 layout: 16-byte base fields) it is 30 ≥ 28. -/
theorem kNodeValues_formula_and_int32_map_bound :
    (∀ t b v : Int, kNodeValues t b v =
      if Int.tdiv (t - b) v ≥ 3 then Int.tdiv (t - b) v else 3) ∧
    sizeofBaseFields (nodeCountTypeBytes 256 8) = 16 ∧
    kNodeValuesMapInt32 256 = 30 ∧
    28 ≤ kNodeValuesMapInt32 256 := by
  refine ⟨fun t b v => rfl, by decide, by decide, by decide⟩

/-- Claim C9: `btree_binary_search_compare_to::lower_bound` invokes
`binary_search_compare_to` with a default-constructed `CompareTo()` instead
of the supplied comparator instance, so its result is identical for any two
comparator instances of the same type that differ only in internal state
(`btree_node::search_type` selects this dispatch for non-arithmetic keys
with a compare-to comparator). -/
theorem binary_compare_to_lower_bound_ignores_comparator_state :
    ∀ (σ α : Type) (ev : σ → α → α → Int) (dflt : σ) (key : Nat → α)
      (count : Nat) (k : α) (c1 c2 : σ),
      binarySearchCompareToLowerBound ev dflt key count k c1 =
        binarySearchCompareToLowerBound ev dflt key count k c2 ∧
      binarySearchCompareToLowerBound ev dflt key count k c1 =
        binarySearchCompareTo (ev dflt) key k 0 count := by
  intro σ α ev dflt key count k c1 c2
  exact ⟨rfl, rfl⟩
/-- Claim C10: `operator=` detects self-assignment (`&x == this`) and
returns without calling `assign`; self-assignment therefore leaves the
tree unchanged, while `assign` on the aliased source would clear the tree
first and then copy from the now-empty source, yielding the empty tree. -/
theorem operator_assign_self_check {α β : Type} [LinearOrder α] (N : Nat) :
    (∀ t : BTreeM α β, operatorAssign N t t true = t) ∧
    (∀ t : BTreeM α β, selfAssignUnguarded N t = emptyTree) ∧
    (∀ t : BTreeM α β, t.root.isSome = true → selfAssignUnguarded N t ≠ t) := by
  refine ⟨fun t => rfl, fun t => rfl, fun t h heq => ?_⟩
  have h2 : (emptyTree : BTreeM α β).root.isSome = true := by
    rw [show (emptyTree : BTreeM α β) = selfAssignUnguarded N t from rfl, heq, h]
  simp [emptyTree] at h2

/-- Witness for C10 at a concrete one-element tree. -/
theorem operator_assign_self_check_witness :
    selfAssignUnguarded (α := Int) (β := Nat) 3 ⟨some (BNode.leaf 1 [(1, 0)]), 0⟩ ≠
      ⟨some (BNode.leaf 1 [(1, 0)]), 0⟩ :=
  (operator_assign_self_check 3).2.2 ⟨some (BNode.leaf 1 [(1, 0)]), 0⟩ rfl

/-- Claim C7: inserting into a tree whose root is the only node, a full
leaf with `max_count < kNodeValues`: a new leaf root of capacity
`min(kNodeValues, 2 * max_count)` is installed with all previously stored
values, the *old* root's storage is released (`delete_leaf_node(root())`
runs before the root pointer is redirected), and the new value is then
inserted, so the tree holds every old value plus the new one. -/
theorem small_root_growth {α β : Type} (N : Nat) (h : RootHeap α β) (mc : Nat)
    (vals : List (α × β)) (pos : Nat) (v : α × β)
    (hroot : h.mem h.rootId = some ⟨mc, vals⟩)
    (hfresh : h.rootId < h.next)
    (tr : BTreeM α β) (hr : tr.root = some (BNode.leaf mc vals))
    (hfull : vals.length = mc) (hsmall : mc < N) (hpos : pos ≤ vals.length) :
    ((growRootAndInsert N h pos v).mem h.rootId = none ∧
     (growRootAndInsert N h pos v).rootId = h.next ∧
     (growRootAndInsert N h pos v).mem h.next =
       some ⟨min N (2 * mc), vals.insertIdx pos v⟩) ∧
    ((internalInsert N tr ⟨[], pos⟩ v).1.root =
       some (BNode.leaf (min N (2 * mc)) (vals.insertIdx pos v)) ∧
     (∀ x, x ∈ vals → x ∈ vals.insertIdx pos v) ∧ v ∈ vals.insertIdx pos v) := by
  have hne : h.rootId ≠ h.next := by omega
  constructor
  · refine ⟨?_, ?_, ?_⟩
    · simp only [growRootAndInsert, hroot]
      simp [hne]
    · simp only [growRootAndInsert, hroot]
    · simp only [growRootAndInsert, hroot]
      simp
  · refine ⟨?_, ?_, ?_⟩
    · simp only [internalInsert, hr, getNode, hfull, hsmall, if_pos rfl]
      simp [hsmall]
    · intro x hx
      exact (List.mem_insertIdx hpos).mpr (Or.inr hx)
    · exact (List.mem_insertIdx hpos).mpr (Or.inl rfl)

/-- Witness for C7: a full small root of capacity 2 grows to capacity 4
(with `kNodeValues = 7`, `min(7, 4) = 4`), releasing cell 0. -/
theorem small_root_growth_witness :
    ((growRootAndInsert 7 ⟨fun i => if i = 0 then some ⟨2, [((1 : Int), (5 : Nat)), (3, 6)]⟩ else none,
        1, 0⟩ 1 (2, 9)).mem 0 = none ∧
     (growRootAndInsert 7 ⟨fun i => if i = 0 then some ⟨2, [((1 : Int), (5 : Nat)), (3, 6)]⟩ else none,
        1, 0⟩ 1 (2, 9)).rootId = 1 ∧
     (growRootAndInsert 7 ⟨fun i => if i = 0 then some ⟨2, [((1 : Int), (5 : Nat)), (3, 6)]⟩ else none,
        1, 0⟩ 1 (2, 9)).mem 1 = some ⟨min 7 (2 * 2), [(1, 5), (2, 9), (3, 6)]⟩) ∧
    ((internalInsert 7 ⟨some (BNode.leaf 2 [((1 : Int), (5 : Nat)), (3, 6)]), 0⟩
        ⟨[], 1⟩ (2, 9)).1.root =
       some (BNode.leaf (min 7 (2 * 2)) [(1, 5), (2, 9), (3, 6)]) ∧
     (∀ x, x ∈ [((1 : Int), (5 : Nat)), (3, 6)] →
        x ∈ [((1 : Int), (5 : Nat)), (3, 6)].insertIdx 1 (2, 9)) ∧
     ((2 : Int), (9 : Nat)) ∈ [((1 : Int), (5 : Nat)), (3, 6)].insertIdx 1 (2, 9)) := by
  have h := small_root_growth 7
    ⟨fun i => if i = 0 then some ⟨2, [((1 : Int), (5 : Nat)), (3, 6)]⟩ else none, 1, 0⟩
    2 [((1 : Int), (5 : Nat)), (3, 6)] 1 (2, 9) (by simp) (by decide)
    ⟨some (BNode.leaf 2 [((1 : Int), (5 : Nat)), (3, 6)]), 0⟩ rfl rfl (by decide)
    (by simp)
  simpa using h

/-- Evaluation step 1 of the C2 counterexample sequence. -/
lemma c2Step1 :
    applyOp 4 ((emptyTree : BTreeM Int Nat) : BTreeM Int Nat) (MutOp.insU 1 0) = (⟨some (BNode.leaf 1 [((1:Int), (0:Nat))]), 0⟩ : BTreeM Int Nat) := by
  simp +decide [applyOp, insertUnique, insertMulti, eraseUnique, eraseMulti, locateLoop, upperLoop, nodeLowerBound, nodeUpperBound, linearSearchPlainCompare, internalLast, internalLowerBound, internalUpperBound, internalFindUnique, countAt, getNode, keyAtIter, valAtIter, internalInsert, insertValueAt, setNode, emptyTree, BNode.count, BNode.valsOf, BNode.isLeaf, BNode.maxCountOf, BNode.childrenOf, treeSize, rebalanceOrSplit, splitChild, rebalanceRTLAt, rebalanceLTRAt, mergeAt, joinNodes, eraseIter, eraseWalk, tryMergeOrRebalance, tryShrink, removeValueAt, setValAt, valueSwapAt, predecessorLeafIter, predecessorLeafEnd, rightmostFrom, leftmostFrom, increment, incrementSlow, upWalk, shiftRes, endIter, beginIter]

/-- Evaluation step 2 of the C2 counterexample sequence. -/
lemma c2Step2 :
    applyOp 4 (⟨some (BNode.leaf 1 [((1:Int), (0:Nat))]), 0⟩ : BTreeM Int Nat) (MutOp.insU 2 0) = (⟨some (BNode.leaf 2 [((1:Int), (0:Nat)), (2, 0)]), 0⟩ : BTreeM Int Nat) := by
  simp +decide [applyOp, insertUnique, insertMulti, eraseUnique, eraseMulti, locateLoop, upperLoop, nodeLowerBound, nodeUpperBound, linearSearchPlainCompare, internalLast, internalLowerBound, internalUpperBound, internalFindUnique, countAt, getNode, keyAtIter, valAtIter, internalInsert, insertValueAt, setNode, emptyTree, BNode.count, BNode.valsOf, BNode.isLeaf, BNode.maxCountOf, BNode.childrenOf, treeSize, rebalanceOrSplit, splitChild, rebalanceRTLAt, rebalanceLTRAt, mergeAt, joinNodes, eraseIter, eraseWalk, tryMergeOrRebalance, tryShrink, removeValueAt, setValAt, valueSwapAt, predecessorLeafIter, predecessorLeafEnd, rightmostFrom, leftmostFrom, increment, incrementSlow, upWalk, shiftRes, endIter, beginIter]

/-- Evaluation step 3 of the C2 counterexample sequence. -/
lemma c2Step3 :
    applyOp 4 (⟨some (BNode.leaf 2 [((1:Int), (0:Nat)), (2, 0)]), 0⟩ : BTreeM Int Nat) (MutOp.insU 3 0) = (⟨some (BNode.leaf 4 [((1:Int), (0:Nat)), (2, 0), (3, 0)]), 0⟩ : BTreeM Int Nat) := by
  simp +decide [applyOp, insertUnique, insertMulti, eraseUnique, eraseMulti, locateLoop, upperLoop, nodeLowerBound, nodeUpperBound, linearSearchPlainCompare, internalLast, internalLowerBound, internalUpperBound, internalFindUnique, countAt, getNode, keyAtIter, valAtIter, internalInsert, insertValueAt, setNode, emptyTree, BNode.count, BNode.valsOf, BNode.isLeaf, BNode.maxCountOf, BNode.childrenOf, treeSize, rebalanceOrSplit, splitChild, rebalanceRTLAt, rebalanceLTRAt, mergeAt, joinNodes, eraseIter, eraseWalk, tryMergeOrRebalance, tryShrink, removeValueAt, setValAt, valueSwapAt, predecessorLeafIter, predecessorLeafEnd, rightmostFrom, leftmostFrom, increment, incrementSlow, upWalk, shiftRes, endIter, beginIter]

/-- Evaluation step 4 of the C2 counterexample sequence. -/
lemma c2Step4 :
    applyOp 4 (⟨some (BNode.leaf 4 [((1:Int), (0:Nat)), (2, 0), (3, 0)]), 0⟩ : BTreeM Int Nat) (MutOp.insU 4 0) = (⟨some (BNode.leaf 4 [((1:Int), (0:Nat)), (2, 0), (3, 0), (4, 0)]), 0⟩ : BTreeM Int Nat) := by
  simp +decide [applyOp, insertUnique, insertMulti, eraseUnique, eraseMulti, locateLoop, upperLoop, nodeLowerBound, nodeUpperBound, linearSearchPlainCompare, internalLast, internalLowerBound, internalUpperBound, internalFindUnique, countAt, getNode, keyAtIter, valAtIter, internalInsert, insertValueAt, setNode, emptyTree, BNode.count, BNode.valsOf, BNode.isLeaf, BNode.maxCountOf, BNode.childrenOf, treeSize, rebalanceOrSplit, splitChild, rebalanceRTLAt, rebalanceLTRAt, mergeAt, joinNodes, eraseIter, eraseWalk, tryMergeOrRebalance, tryShrink, removeValueAt, setValAt, valueSwapAt, predecessorLeafIter, predecessorLeafEnd, rightmostFrom, leftmostFrom, increment, incrementSlow, upWalk, shiftRes, endIter, beginIter]

/-- Evaluation step 5 of the C2 counterexample sequence. -/
lemma c2Step5 :
    applyOp 4 (⟨some (BNode.leaf 4 [((1:Int), (0:Nat)), (2, 0), (3, 0), (4, 0)]), 0⟩ : BTreeM Int Nat) (MutOp.insU 5 0) = (⟨some (BNode.inner [((4:Int), (0:Nat))] [BNode.leaf 4 [(1, 0), (2, 0), (3, 0)], BNode.leaf 4 [(5, 0)]]), 5⟩ : BTreeM Int Nat) := by
  simp +decide [applyOp, insertUnique, insertMulti, eraseUnique, eraseMulti, locateLoop, upperLoop, nodeLowerBound, nodeUpperBound, linearSearchPlainCompare, internalLast, internalLowerBound, internalUpperBound, internalFindUnique, countAt, getNode, keyAtIter, valAtIter, internalInsert, insertValueAt, setNode, emptyTree, BNode.count, BNode.valsOf, BNode.isLeaf, BNode.maxCountOf, BNode.childrenOf, treeSize, rebalanceOrSplit, splitChild, rebalanceRTLAt, rebalanceLTRAt, mergeAt, joinNodes, eraseIter, eraseWalk, tryMergeOrRebalance, tryShrink, removeValueAt, setValAt, valueSwapAt, predecessorLeafIter, predecessorLeafEnd, rightmostFrom, leftmostFrom, increment, incrementSlow, upWalk, shiftRes, endIter, beginIter]

/-- Evaluation step 6 of the C2 counterexample sequence. -/
lemma c2Step6 :
    applyOp 4 (⟨some (BNode.inner [((4:Int), (0:Nat))] [BNode.leaf 4 [(1, 0), (2, 0), (3, 0)], BNode.leaf 4 [(5, 0)]]), 5⟩ : BTreeM Int Nat) (MutOp.insU 6 0) = (⟨some (BNode.inner [((4:Int), (0:Nat))] [BNode.leaf 4 [(1, 0), (2, 0), (3, 0)], BNode.leaf 4 [(5, 0), (6, 0)]]), 6⟩ : BTreeM Int Nat) := by
  simp +decide [applyOp, insertUnique, insertMulti, eraseUnique, eraseMulti, locateLoop, upperLoop, nodeLowerBound, nodeUpperBound, linearSearchPlainCompare, internalLast, internalLowerBound, internalUpperBound, internalFindUnique, countAt, getNode, keyAtIter, valAtIter, internalInsert, insertValueAt, setNode, emptyTree, BNode.count, BNode.valsOf, BNode.isLeaf, BNode.maxCountOf, BNode.childrenOf, treeSize, rebalanceOrSplit, splitChild, rebalanceRTLAt, rebalanceLTRAt, mergeAt, joinNodes, eraseIter, eraseWalk, tryMergeOrRebalance, tryShrink, removeValueAt, setValAt, valueSwapAt, predecessorLeafIter, predecessorLeafEnd, rightmostFrom, leftmostFrom, increment, incrementSlow, upWalk, shiftRes, endIter, beginIter]

/-- Evaluation step 7 of the C2 counterexample sequence. -/
lemma c2Step7 :
    applyOp 4 (⟨some (BNode.inner [((4:Int), (0:Nat))] [BNode.leaf 4 [(1, 0), (2, 0), (3, 0)], BNode.leaf 4 [(5, 0), (6, 0)]]), 6⟩ : BTreeM Int Nat) (MutOp.insU 7 0) = (⟨some (BNode.inner [((4:Int), (0:Nat))] [BNode.leaf 4 [(1, 0), (2, 0), (3, 0)], BNode.leaf 4 [(5, 0), (6, 0), (7, 0)]]), 7⟩ : BTreeM Int Nat) := by
  simp +decide [applyOp, insertUnique, insertMulti, eraseUnique, eraseMulti, locateLoop, upperLoop, nodeLowerBound, nodeUpperBound, linearSearchPlainCompare, internalLast, internalLowerBound, internalUpperBound, internalFindUnique, countAt, getNode, keyAtIter, valAtIter, internalInsert, insertValueAt, setNode, emptyTree, BNode.count, BNode.valsOf, BNode.isLeaf, BNode.maxCountOf, BNode.childrenOf, treeSize, rebalanceOrSplit, splitChild, rebalanceRTLAt, rebalanceLTRAt, mergeAt, joinNodes, eraseIter, eraseWalk, tryMergeOrRebalance, tryShrink, removeValueAt, setValAt, valueSwapAt, predecessorLeafIter, predecessorLeafEnd, rightmostFrom, leftmostFrom, increment, incrementSlow, upWalk, shiftRes, endIter, beginIter]

/-- Evaluation step 8 of the C2 counterexample sequence. -/
lemma c2Step8 :
    applyOp 4 (⟨some (BNode.inner [((4:Int), (0:Nat))] [BNode.leaf 4 [(1, 0), (2, 0), (3, 0)], BNode.leaf 4 [(5, 0), (6, 0), (7, 0)]]), 7⟩ : BTreeM Int Nat) (MutOp.delU 1) = (⟨some (BNode.inner [((4:Int), (0:Nat))] [BNode.leaf 4 [(2, 0), (3, 0)], BNode.leaf 4 [(5, 0), (6, 0), (7, 0)]]), 6⟩ : BTreeM Int Nat) := by
  simp +decide [applyOp, insertUnique, insertMulti, eraseUnique, eraseMulti, locateLoop, upperLoop, nodeLowerBound, nodeUpperBound, linearSearchPlainCompare, internalLast, internalLowerBound, internalUpperBound, internalFindUnique, countAt, getNode, keyAtIter, valAtIter, internalInsert, insertValueAt, setNode, emptyTree, BNode.count, BNode.valsOf, BNode.isLeaf, BNode.maxCountOf, BNode.childrenOf, treeSize, rebalanceOrSplit, splitChild, rebalanceRTLAt, rebalanceLTRAt, mergeAt, joinNodes, eraseIter, eraseWalk, tryMergeOrRebalance, tryShrink, removeValueAt, setValAt, valueSwapAt, predecessorLeafIter, predecessorLeafEnd, rightmostFrom, leftmostFrom, increment, incrementSlow, upWalk, shiftRes, endIter, beginIter]

/-- Evaluation step 9 of the C2 counterexample sequence. -/
lemma c2Step9 :
    applyOp 4 (⟨some (BNode.inner [((4:Int), (0:Nat))] [BNode.leaf 4 [(2, 0), (3, 0)], BNode.leaf 4 [(5, 0), (6, 0), (7, 0)]]), 6⟩ : BTreeM Int Nat) (MutOp.delU 2) = (⟨some (BNode.inner [((4:Int), (0:Nat))] [BNode.leaf 4 [(3, 0)], BNode.leaf 4 [(5, 0), (6, 0), (7, 0)]]), 5⟩ : BTreeM Int Nat) := by
  simp +decide [applyOp, insertUnique, insertMulti, eraseUnique, eraseMulti, locateLoop, upperLoop, nodeLowerBound, nodeUpperBound, linearSearchPlainCompare, internalLast, internalLowerBound, internalUpperBound, internalFindUnique, countAt, getNode, keyAtIter, valAtIter, internalInsert, insertValueAt, setNode, emptyTree, BNode.count, BNode.valsOf, BNode.isLeaf, BNode.maxCountOf, BNode.childrenOf, treeSize, rebalanceOrSplit, splitChild, rebalanceRTLAt, rebalanceLTRAt, mergeAt, joinNodes, eraseIter, eraseWalk, tryMergeOrRebalance, tryShrink, removeValueAt, setValAt, valueSwapAt, predecessorLeafIter, predecessorLeafEnd, rightmostFrom, leftmostFrom, increment, incrementSlow, upWalk, shiftRes, endIter, beginIter]

/-- Counterexample to C2 (`kNodeValues = 4`, so `kMinNodeValues = 2`):
after the public mutations `insert_unique 1..7; erase_unique 1;
erase_unique 2`, the non-root leaf `children[0]` holds a single value —
`try_merge_or_rebalance` skipped the rebalance because the erase removed
the first element of a non-empty node (part_005 lines 985-996) and the
siblings were too full to merge. -/
theorem erase_below_min_occupancy_counterexample :
    (applyOps 4 emptyTree
        [MutOp.insU (1 : Int) (0 : Nat), MutOp.insU 2 0, MutOp.insU 3 0,
         MutOp.insU 4 0, MutOp.insU 5 0, MutOp.insU 6 0, MutOp.insU 7 0,
         MutOp.delU 1, MutOp.delU 2]).root =
      some (BNode.inner [((4 : Int), (0 : Nat))]
        [BNode.leaf 4 [(3, 0)], BNode.leaf 4 [(5, 0), (6, 0), (7, 0)]]) ∧
    minOccB 4 true
      ((applyOps 4 emptyTree
        [MutOp.insU (1 : Int) (0 : Nat), MutOp.insU 2 0, MutOp.insU 3 0,
         MutOp.insU 4 0, MutOp.insU 5 0, MutOp.insU 6 0, MutOp.insU 7 0,
         MutOp.delU 1, MutOp.delU 2]).root.getD (BNode.leaf 0 [])) = false ∧
    (1 : Nat) < 4 / 2 := by
  have hev : applyOps 4 emptyTree
      [MutOp.insU (1 : Int) (0 : Nat), MutOp.insU 2 0, MutOp.insU 3 0,
       MutOp.insU 4 0, MutOp.insU 5 0, MutOp.insU 6 0, MutOp.insU 7 0,
       MutOp.delU 1, MutOp.delU 2] =
      ⟨some (BNode.inner [((4:Int), (0:Nat))]
        [BNode.leaf 4 [(3, 0)], BNode.leaf 4 [(5, 0), (6, 0), (7, 0)]]), 5⟩ := by
    simp only [applyOps, List.foldl_cons, List.foldl_nil]
    rw [c2Step1, c2Step2, c2Step3, c2Step4, c2Step5, c2Step6, c2Step7, c2Step8, c2Step9]
  rw [hev]
  refine ⟨rfl, ?_, by norm_num⟩
  simp only [Option.getD_some]
  simp [minOccB]

/-- C2 (amended): the occupancy bound that actually holds after the
mutation sequence of the counterexample — and the one `internal_verify`
asserts on every node — is `0 < count ≤ max_count`; the claimed stronger
lower bound `kMinNodeValues ≤ count` fails there for the non-root leaf
`children[0]` (count `1 < 4 / 2`). -/
theorem erase_keeps_internal_verify_occupancy :
    basicOccB 4
      ((applyOps 4 emptyTree
        [MutOp.insU (1 : Int) (0 : Nat), MutOp.insU 2 0, MutOp.insU 3 0,
         MutOp.insU 4 0, MutOp.insU 5 0, MutOp.insU 6 0, MutOp.insU 7 0,
         MutOp.delU 1, MutOp.delU 2]).root.getD (BNode.leaf 0 [])) = true ∧
    minOccB 4 true
      ((applyOps 4 emptyTree
        [MutOp.insU (1 : Int) (0 : Nat), MutOp.insU 2 0, MutOp.insU 3 0,
         MutOp.insU 4 0, MutOp.insU 5 0, MutOp.insU 6 0, MutOp.insU 7 0,
         MutOp.delU 1, MutOp.delU 2]).root.getD (BNode.leaf 0 [])) = false := by
  have hev : applyOps 4 emptyTree
      [MutOp.insU (1 : Int) (0 : Nat), MutOp.insU 2 0, MutOp.insU 3 0,
       MutOp.insU 4 0, MutOp.insU 5 0, MutOp.insU 6 0, MutOp.insU 7 0,
       MutOp.delU 1, MutOp.delU 2] =
      ⟨some (BNode.inner [((4:Int), (0:Nat))]
        [BNode.leaf 4 [(3, 0)], BNode.leaf 4 [(5, 0), (6, 0), (7, 0)]]), 5⟩ := by
    simp only [applyOps, List.foldl_cons, List.foldl_nil]
    rw [c2Step1, c2Step2, c2Step3, c2Step4, c2Step5, c2Step6, c2Step7, c2Step8, c2Step9]
  rw [hev]
  simp only [Option.getD_some]
  constructor
  · simp [basicOccB]
  · simp [minOccB]
/-!  ## Node search characterization -/

/-- The linear plain-compare search returns the first index in `[s, e)`
whose key fails the comparison (or `e`). -/
lemma linearSearchPlainCompare_spec {α : Type} (lt : α → α → Bool)
    (key : Nat → α) (k : α) :
    ∀ n s e, e - s ≤ n → s ≤ e →
    s ≤ linearSearchPlainCompare lt key k s e ∧
    linearSearchPlainCompare lt key k s e ≤ e ∧
    (∀ i, s ≤ i → i < linearSearchPlainCompare lt key k s e →
      lt (key i) k = true) ∧
    (linearSearchPlainCompare lt key k s e < e →
      lt (key (linearSearchPlainCompare lt key k s e)) k = false) := by
  intro n
  induction n with
  | zero =>
    intro s e hfuel hse
    have hse2 : s = e := by omega
    have hre : linearSearchPlainCompare lt key k s e = s := by
      rw [linearSearchPlainCompare]
      simp [hse2]
    rw [hre]
    exact ⟨Nat.le_refl s, hse2.le, fun i h1 h2 => by omega, fun h => by omega⟩
  | succ n ih =>
    intro s e hfuel hse
    by_cases hlt : s < e
    · cases hkey : lt (key s) k with
      | false =>
        have hre : linearSearchPlainCompare lt key k s e = s := by
          rw [linearSearchPlainCompare]
          simp [hlt, hkey]
        rw [hre]
        exact ⟨Nat.le_refl s, Nat.le_of_lt hlt, fun i h1 h2 => by omega,
          fun _ => hkey⟩
      | true =>
        have hre : linearSearchPlainCompare lt key k s e =
            linearSearchPlainCompare lt key k (s + 1) e := by
          rw [linearSearchPlainCompare]
          simp [hlt, hkey]
        rw [hre]
        obtain ⟨ih1, ih2, ih3, ih4⟩ := ih (s + 1) e (by omega) (by omega)
        refine ⟨by omega, ih2, ?_, ih4⟩
        intro i h1 h2
        rcases Nat.eq_or_lt_of_le h1 with rfl | h
        · exact hkey
        · exact ih3 i (by omega) h2
    · have hse2 : s = e := by omega
      have hre : linearSearchPlainCompare lt key k s e = s := by
        rw [linearSearchPlainCompare]
        simp [hlt]
      rw [hre]
      exact ⟨Nat.le_refl s, hse2.le, fun i h1 h2 => by omega, fun h => by omega⟩

/-- `nodeLowerBound` finds the first position whose key is not less than
`k`. -/
lemma nodeLowerBound_spec {α β : Type} [LinearOrder α] (vals : List (α × β))
    (k : α) :
    nodeLowerBound vals k ≤ vals.length ∧
    (∀ i v, i < nodeLowerBound vals k → vals.get? i = some v → v.1 < k) ∧
    (∀ v, vals.get? (nodeLowerBound vals k) = some v → ¬ v.1 < k) := by
  obtain ⟨h1, h2, h3, h4⟩ := linearSearchPlainCompare_spec
    (fun a b => decide (a < b)) (fun i => ((vals.get? i).map Prod.fst).getD k)
    k vals.length 0 vals.length (by omega) (by omega)
  rw [nodeLowerBound]
  refine ⟨h2, ?_, ?_⟩
  · intro i v hi hv
    have := h3 i (by omega) hi
    rw [hv] at this
    simpa using this
  · intro v hv
    have hlt : linearSearchPlainCompare (fun a b => decide (a < b))
        (fun i => ((vals.get? i).map Prod.fst).getD k) k 0 vals.length <
        vals.length := by
      by_contra hcon
      rw [List.get?_eq_none.mpr (by omega)] at hv
      cases hv
    have h5 := h4 hlt
    rw [hv] at h5
    simpa using h5

/-- `nodeUpperBound` finds the first position whose key is greater than
`k`. -/
lemma nodeUpperBound_spec {α β : Type} [LinearOrder α] (vals : List (α × β))
    (k : α) :
    nodeUpperBound vals k ≤ vals.length ∧
    (∀ i v, i < nodeUpperBound vals k → vals.get? i = some v → v.1 ≤ k) ∧
    (∀ v, vals.get? (nodeUpperBound vals k) = some v → k < v.1) := by
  obtain ⟨h1, h2, h3, h4⟩ := linearSearchPlainCompare_spec
    (fun a b => !decide (b < a)) (fun i => ((vals.get? i).map Prod.fst).getD k)
    k vals.length 0 vals.length (by omega) (by omega)
  rw [nodeUpperBound]
  refine ⟨h2, ?_, ?_⟩
  · intro i v hi hv
    have := h3 i (by omega) hi
    rw [hv] at this
    simpa using this
  · intro v hv
    have hlt : linearSearchPlainCompare (fun a b => !decide (b < a))
        (fun i => ((vals.get? i).map Prod.fst).getD k) k 0 vals.length <
        vals.length := by
      by_contra hcon
      rw [List.get?_eq_none.mpr (by omega)] at hv
      cases hv
    have h5 := h4 hlt
    rw [hv] at h5
    simpa using h5
/-!  ## In-order traversal surgery -/

lemma toListNode_inner {α β : Type} (vs : List (α × β)) (cs : List (BNode α β)) :
    toListNode (BNode.inner vs cs) = toListNode.toListChildren cs vs := rfl

@[simp] lemma tlc_nil {α β : Type} (vs : List (α × β)) :
    toListNode.toListChildren ([] : List (BNode α β)) vs = [] := rfl

@[simp] lemma tlc_cons_nil {α β : Type} (c : BNode α β) (cs : List (BNode α β)) :
    toListNode.toListChildren (c :: cs) ([] : List (α × β)) = toListNode c := rfl

@[simp] lemma tlc_cons_cons {α β : Type} (c : BNode α β) (cs : List (BNode α β))
    (v : α × β) (vs : List (α × β)) :
    toListNode.toListChildren (c :: cs) (v :: vs) =
      toListNode c ++ v :: toListNode.toListChildren cs vs := rfl

/-- Splitting an interleaved child/value sequence at a delimiter. -/
lemma tlc_append {α β : Type} :
    ∀ (lc : List (BNode α β)) (lv : List (α × β)) (rc : List (BNode α β))
      (rv : List (α × β)) (d : α × β), lc.length = lv.length + 1 →
    toListNode.toListChildren (lc ++ rc) (lv ++ d :: rv) =
      toListNode.toListChildren lc lv ++ d ::
        toListNode.toListChildren rc rv := by
  intro lc
  induction lc with
  | nil =>
    intro lv rc rv d hlen
    exact absurd hlen (by simp)
  | cons c lc ih =>
    intro lv rc rv d hlen
    cases lv with
    | nil =>
      have hlc : lc = [] := by
        have h2 := hlen
        simpa using h2
      subst hlc
      simp
    | cons v lv =>
      simp only [List.cons_append, tlc_cons_cons]
      rw [ih lv rc rv d (by simpa using hlen)]
      simp

/-- Master decomposition at a single child slot `i`: the interleaving is
`pre ++ toListNode cs[i] ++ post`, replacing the child rewrites the
segment, and inserting a delimiter-and-right-sibling after it (the effect
of `split` on the parent) splices into the same frame. -/
lemma tlc_at {α β : Type} :
    ∀ (i : Nat) (cs : List (BNode α β)) (vs : List (α × β)) (c0 : BNode α β),
      cs.length = vs.length + 1 → cs.get? i = some c0 →
      ∃ pre post : List (α × β),
        pre.length = ((cs.take i).map (fun c => (toListNode c).length)).sum + i ∧
        toListNode.toListChildren cs vs = pre ++ toListNode c0 ++ post ∧
        (∀ c1, toListNode.toListChildren (cs.set i c1) vs =
          pre ++ toListNode c1 ++ post) ∧
        (∀ c1 d c2, toListNode.toListChildren ((cs.set i c1).insertIdx (i + 1) c2)
            (vs.insertIdx i d) = pre ++ toListNode c1 ++ d :: toListNode c2 ++ post) := by
  intro i
  induction i with
  | zero =>
    intro cs vs c0 hlen hget
    cases cs with
    | nil => cases hget
    | cons c cs =>
      have hc : c = c0 := by simpa using hget
      subst hc
      cases vs with
      | nil =>
        have : cs = [] := List.length_eq_zero.mp (by simpa using hlen)
        subst this
        exact ⟨[], [], by simp, by simp, fun c1 => by simp,
          fun c1 d c2 => by simp⟩
      | cons v vs =>
        refine ⟨[], v :: toListNode.toListChildren cs vs, by simp, by simp,
          fun c1 => by simp, fun c1 d c2 => by simp⟩
  | succ i ih =>
    intro cs vs c0 hlen hget
    cases cs with
    | nil => cases hget
    | cons c cs =>
      cases vs with
      | nil =>
        have : cs = [] := List.length_eq_zero.mp (by simpa using hlen)
        subst this
        simp at hget
      | cons v vs =>
        obtain ⟨pre, post, hplen, heq, hset, hins⟩ :=
          ih cs vs c0 (by simpa using hlen) (by simpa using hget)
        refine ⟨toListNode c ++ v :: pre, post, ?_, ?_, ?_, ?_⟩
        · simp [hplen]
          omega
        · simp [heq]
        · intro c1
          simp [hset c1]
        · intro c1 d c2
          simp only [List.set_cons_succ, List.insertIdx_succ_cons, tlc_cons_cons,
            hins c1 d c2]
          simp

/-- Master decomposition at two adjacent child slots `i, i + 1` with the
delimiter between them: replacing both children and the delimiter (a
rebalance) or fusing them (a merge) rewrites the same frame. -/
lemma tlc_at2 {α β : Type} :
    ∀ (i : Nat) (cs : List (BNode α β)) (vs : List (α × β)) (c0 c0r : BNode α β)
      (d0 : α × β),
      cs.length = vs.length + 1 → cs.get? i = some c0 →
      cs.get? (i + 1) = some c0r → vs.get? i = some d0 →
      ∃ pre post : List (α × β),
        pre.length = ((cs.take i).map (fun c => (toListNode c).length)).sum + i ∧
        toListNode.toListChildren cs vs =
          pre ++ toListNode c0 ++ d0 :: toListNode c0r ++ post ∧
        (∀ c1 d c2, toListNode.toListChildren ((cs.set i c1).set (i + 1) c2)
            (vs.set i d) = pre ++ toListNode c1 ++ d :: toListNode c2 ++ post) ∧
        (∀ cm, toListNode.toListChildren ((cs.set i cm).eraseIdx (i + 1))
            (vs.eraseIdx i) = pre ++ toListNode cm ++ post) := by
  intro i
  induction i with
  | zero =>
    intro cs vs c0 c0r d0 hlen hget hgetr hgetd
    cases cs with
    | nil => cases hget
    | cons c cs =>
      cases cs with
      | nil => cases hgetr
      | cons cr cs =>
        cases vs with
        | nil => cases hgetd
        | cons v vs =>
          have hc : c = c0 := by simpa using hget
          have hcr : cr = c0r := by simpa using hgetr
          have hv : v = d0 := by simpa using hgetd
          subst hc; subst hcr; subst hv
          cases vs with
          | nil =>
            have : cs = [] := List.length_eq_zero.mp (by simpa using hlen)
            subst this
            exact ⟨[], [], by simp, by simp, fun c1 d c2 => by simp,
              fun cm => by simp⟩
          | cons v2 vs =>
            refine ⟨[], v2 :: toListNode.toListChildren cs vs, by simp,
              by simp, fun c1 d c2 => by simp, fun cm => by simp⟩
  | succ i ih =>
    intro cs vs c0 c0r d0 hlen hget hgetr hgetd
    cases cs with
    | nil => cases hget
    | cons c cs =>
      cases vs with
      | nil =>
        have : cs = [] := List.length_eq_zero.mp (by simpa using hlen)
        subst this
        simp at hget
      | cons v vs =>
        obtain ⟨pre, post, hplen, heq, hset, hmerge⟩ :=
          ih cs vs c0 c0r d0 (by simpa using hlen) (by simpa using hget)
            (by simpa using hgetr) (by simpa using hgetd)
        refine ⟨toListNode c ++ v :: pre, post, ?_, ?_, ?_, ?_⟩
        · simp [hplen]
          omega
        · simp [heq]
        · intro c1 d c2
          simp only [List.set_cons_succ, tlc_cons_cons, hset c1 d c2]
          simp
        · intro cm
          simp only [List.set_cons_succ, List.eraseIdx_cons_succ, tlc_cons_cons,
            hmerge cm]
          simp
/-!  ## Path navigation and subtree surgery -/

@[simp] lemma getNode_nil {α β : Type} (t : BNode α β) : getNode t [] = some t := by
  cases t <;> rfl

@[simp] lemma getNode_leaf_cons {α β : Type} (mc : Nat) (vs : List (α × β))
    (i : Nat) (p : List Nat) :
    getNode (BNode.leaf mc vs) (i :: p) = none := rfl

@[simp] lemma getNode_inner_cons {α β : Type} (vs : List (α × β))
    (cs : List (BNode α β)) (i : Nat) (p : List Nat) :
    getNode (BNode.inner vs cs) (i :: p) =
      (cs.get? i).bind (fun c => getNode c p) := by
  simp only [getNode]
  cases cs.get? i <;> simp

@[simp] lemma subtreeStart_nil {α β : Type} (t : BNode α β) :
    subtreeStart t [] = 0 := by
  cases t <;> rfl

lemma subtreeStart_inner_cons {α β : Type} (vs : List (α × β))
    (cs : List (BNode α β)) (i : Nat) (p : List Nat) :
    subtreeStart (BNode.inner vs cs) (i :: p) =
      ((cs.take i).map (fun c => (toListNode c).length)).sum + i +
        ((cs.get? i).elim 0 (fun c => subtreeStart c p)) := by
  simp only [subtreeStart]
  cases cs.get? i <;> simp

lemma setNode_inner_cons {α β : Type} (vs : List (α × β))
    (cs : List (BNode α β)) (i : Nat) (p : List Nat) (m : BNode α β) :
    setNode (BNode.inner vs cs) (i :: p) m =
      BNode.inner vs ((cs.get? i).elim cs (fun c => cs.set i (setNode c p m))) := by
  simp only [setNode]
  cases cs.get? i <;> simp

lemma getNode_append {α β : Type} :
    ∀ (p q : List Nat) (t : BNode α β),
      getNode t (p ++ q) = (getNode t p).bind (fun n => getNode n q) := by
  intro p
  induction p with
  | nil => intro q t; simp
  | cons i p ih =>
    intro q t
    cases t with
    | leaf mc vs => simp
    | inner vs cs =>
      simp only [List.cons_append, getNode_inner_cons]
      cases cs.get? i with
      | none => simp
      | some c => simp [ih q c]

lemma subtreeStart_append {α β : Type} :
    ∀ (p q : List Nat) (t n : BNode α β), getNode t p = some n →
      subtreeStart t (p ++ q) = subtreeStart t p + subtreeStart n q := by
  intro p
  induction p with
  | nil =>
    intro q t n hget
    rw [getNode_nil] at hget
    obtain rfl : t = n := by simpa using hget
    simp
  | cons i p ih =>
    intro q t n hget
    cases t with
    | leaf mc vs => simp at hget
    | inner vs cs =>
      rw [getNode_inner_cons] at hget
      cases hc : cs.get? i with
      | none => rw [hc] at hget; simp at hget
      | some c =>
        rw [hc] at hget
        simp only [Option.some_bind] at hget
        simp only [List.cons_append, subtreeStart_inner_cons, hc, Option.elim_some]
        rw [ih q c n hget]
        omega

lemma setNode_shape {α β : Type} :
    ∀ (p : List Nat) (t n0 m : BNode α β), ShapeOK t → getNode t p = some n0 →
      ShapeOK m → ShapeOK (setNode t p m) := by
  intro p
  induction p with
  | nil =>
    intro t n0 m ht hget hm
    cases t <;> simpa [setNode] using hm
  | cons i p ih =>
    intro t n0 m ht hget hm
    cases t with
    | leaf mc vs => simp at hget
    | inner vs cs =>
      rw [getNode_inner_cons] at hget
      cases hc : cs.get? i with
      | none => rw [hc] at hget; simp at hget
      | some c =>
        rw [hc] at hget
        simp only [Option.some_bind] at hget
        rw [ShapeOK] at ht
        rw [setNode_inner_cons, hc, Option.elim_some, ShapeOK]
        refine ⟨by simpa using ht.1, ?_⟩
        intro c2 hc2
        rcases List.mem_or_eq_of_mem_set hc2 with h | h
        · exact ht.2 c2 h
        · subst h
          exact ih c n0 m (ht.2 c (List.get?_mem hc)) hget hm

lemma getNode_setNode_through {α β : Type} :
    ∀ (p q : List Nat) (t n0 m : BNode α β), getNode t p = some n0 →
      getNode (setNode t p m) (p ++ q) = getNode m q := by
  intro p
  induction p with
  | nil =>
    intro q t n0 m hget
    cases t <;> simp [setNode]
  | cons i p ih =>
    intro q t n0 m hget
    cases t with
    | leaf mc vs => simp at hget
    | inner vs cs =>
      rw [getNode_inner_cons] at hget
      cases hc : cs.get? i with
      | none => rw [hc] at hget; simp at hget
      | some c =>
        rw [hc] at hget
        simp only [Option.some_bind] at hget
        have hilt : i < cs.length := by
          by_contra hcon
          rw [List.get?_eq_none.mpr (by omega)] at hc
          cases hc
        rw [setNode_inner_cons, hc, Option.elim_some]
        simp only [List.cons_append, getNode_inner_cons]
        rw [List.get?_eq_getElem?, List.getElem?_set]
        simp only [if_pos hilt, if_pos rfl]
        exact ih q c n0 m hget

lemma getNode_setNode_self {α β : Type} (p : List Nat) (t n0 m : BNode α β)
    (hget : getNode t p = some n0) : getNode (setNode t p m) p = some m := by
  have := getNode_setNode_through p [] t n0 m hget
  simpa using this

/-- Subtree surgery: the traversal decomposes around the subtree at `p`,
and replacing that subtree rewrites only its segment. -/
lemma setNode_surgery {α β : Type} :
    ∀ (p : List Nat) (t n0 : BNode α β), ShapeOK t → getNode t p = some n0 →
      ∃ pre post : List (α × β),
        pre.length = subtreeStart t p ∧
        toListNode t = pre ++ toListNode n0 ++ post ∧
        ∀ m, toListNode (setNode t p m) = pre ++ toListNode m ++ post := by
  intro p
  induction p with
  | nil =>
    intro t n0 ht hget
    rw [getNode_nil] at hget
    obtain rfl : t = n0 := by simpa using hget
    exact ⟨[], [], by simp, by simp, fun m => by cases t <;> simp [setNode]⟩
  | cons i p ih =>
    intro t n0 ht hget
    cases t with
    | leaf mc vs => simp at hget
    | inner vs cs =>
      rw [getNode_inner_cons] at hget
      cases hc : cs.get? i with
      | none => rw [hc] at hget; simp at hget
      | some c =>
        rw [hc] at hget
        simp only [Option.some_bind] at hget
        rw [ShapeOK] at ht
        obtain ⟨pre1, post1, hp1, heq1, hset1, _⟩ :=
          tlc_at i cs vs c ht.1 hc
        obtain ⟨pre2, post2, hp2, heq2, hset2⟩ :=
          ih c n0 (ht.2 c (List.get?_mem hc)) hget
        refine ⟨pre1 ++ pre2, post2 ++ post1, ?_, ?_, ?_⟩
        · simp only [List.length_append, hp1, hp2,
            subtreeStart_inner_cons, hc, Option.elim_some]
        · rw [toListNode_inner, heq1, heq2]
          simp
        · intro m
          rw [setNode_inner_cons, hc, Option.elim_some, toListNode_inner,
            hset1 (setNode c p m), hset2 m]
          simp
/-!  ## List utilities -/

lemma list_decomp_at {γ : Type} (l : List γ) (n : Nat) (a : γ)
    (h : l.get? n = some a) : l = l.take n ++ a :: l.drop (n + 1) := by
  have hn : n < l.length := by
    by_contra hcon
    rw [List.get?_eq_none.mpr (by omega)] at h
    cases h
  have ha : l[n] = a := by
    rw [List.get?_eq_getElem? ] at h
    rw [List.getElem?_eq_getElem hn] at h
    simpa using h
  conv_lhs => rw [← List.take_append_drop n l]
  rw [List.drop_eq_getElem_cons hn, ha]

lemma insertIdx_append_left {γ : Type} (pre rest : List γ) (j : Nat) (w : γ) :
    (pre ++ rest).insertIdx (pre.length + j) w = pre ++ rest.insertIdx j w := by
  induction pre with
  | nil => simp
  | cons a pre ih => simp [List.insertIdx_succ_cons, Nat.succ_add, ih]

lemma eraseIdx_append_left {γ : Type} (pre rest : List γ) (j : Nat) :
    (pre ++ rest).eraseIdx (pre.length + j) = pre ++ rest.eraseIdx j := by
  induction pre with
  | nil => simp
  | cons a pre ih => simp [Nat.succ_add, ih]
/-- Splitting an interleaving at delimiter index `L` into the first
`L + 1` children / `L` values and the rest. -/
lemma tlc_split {α β : Type} (cs : List (BNode α β)) (vs : List (α × β))
    (L : Nat) (d : α × β) (hlen : cs.length = vs.length + 1)
    (hd : vs.get? L = some d) :
    toListNode.toListChildren cs vs =
      toListNode.toListChildren (cs.take (L + 1)) (vs.take L) ++ d ::
        toListNode.toListChildren (cs.drop (L + 1)) (vs.drop (L + 1)) := by
  have hL : L < vs.length := by
    by_contra hcon
    rw [List.get?_eq_none.mpr (by omega)] at hd
    cases hd
  conv_lhs =>
    rw [← List.take_append_drop (L + 1) cs, list_decomp_at vs L d hd]
  rw [tlc_append]
  simp [List.length_take]
  omega

/-!  ## NodeWF basics -/

@[simp] lemma NodeWF_zero_inner {α β : Type} (N : Nat) (b : Bool)
    (vs : List (α × β)) (cs : List (BNode α β)) :
    ¬ NodeWF N 0 b (BNode.inner vs cs) := fun h => h

@[simp] lemma NodeWF_succ_leaf {α β : Type} (N h : Nat) (b : Bool) (mc : Nat)
    (vs : List (α × β)) : ¬ NodeWF N (h + 1) b (BNode.leaf mc vs) := fun h => h

lemma NodeWF_zero_leaf {α β : Type} (N : Nat) (b : Bool) (mc : Nat)
    (vs : List (α × β)) :
    NodeWF N 0 b (BNode.leaf mc vs) ↔
      0 < vs.length ∧ vs.length ≤ mc ∧ (if b then mc ≤ N else mc = N) := Iff.rfl

lemma NodeWF_succ_inner {α β : Type} (N h : Nat) (b : Bool)
    (vs : List (α × β)) (cs : List (BNode α β)) :
    NodeWF N (h + 1) b (BNode.inner vs cs) ↔
      0 < vs.length ∧ vs.length ≤ N ∧ cs.length = vs.length + 1 ∧
        ∀ c ∈ cs, NodeWF N h false c := Iff.rfl

lemma NodeWF_false_true {α β : Type} (N : Nat) :
    ∀ (h : Nat) (t : BNode α β), NodeWF N h false t → NodeWF N h true t := by
  intro h t hwf
  match h, t with
  | 0, BNode.leaf mc vs =>
    rw [NodeWF_zero_leaf] at hwf ⊢
    refine ⟨hwf.1, hwf.2.1, ?_⟩
    have h3 := hwf.2.2
    simp only [if_neg (by simp : ¬ false = true)] at h3
    simp [h3]
  | h + 1, BNode.inner vs cs =>
    rw [NodeWF_succ_inner] at hwf ⊢
    exact hwf
  | 0, BNode.inner vs cs => exact absurd hwf (NodeWF_zero_inner N false vs cs)
  | h + 1, BNode.leaf mc vs => exact absurd hwf (NodeWF_succ_leaf N h false mc vs)

lemma NodeWF_shape {α β : Type} (N : Nat) :
    ∀ (h : Nat) (b : Bool) (t : BNode α β), NodeWF N h b t → ShapeOK t := by
  intro h
  induction h with
  | zero =>
    intro b t hwf
    match t with
    | BNode.leaf mc vs => rw [ShapeOK]; trivial
    | BNode.inner vs cs => exact absurd hwf (NodeWF_zero_inner N b vs cs)
  | succ h ih =>
    intro b t hwf
    match t with
    | BNode.leaf mc vs => rw [ShapeOK]; trivial
    | BNode.inner vs cs =>
      rw [NodeWF_succ_inner] at hwf
      rw [ShapeOK]
      exact ⟨hwf.2.2.1, fun c hc => ih false c (hwf.2.2.2 c hc)⟩

lemma NodeWF_getNode {α β : Type} (N : Nat) :
    ∀ (p : List Nat) (t n : BNode α β) (h : Nat) (b : Bool),
      NodeWF N h b t → getNode t p = some n → p ≠ [] →
      p.length ≤ h ∧ NodeWF N (h - p.length) false n := by
  intro p
  induction p with
  | nil => intro t n h b hwf hget hne; exact absurd rfl hne
  | cons i p ih =>
    intro t n h b hwf hget hne
    cases t with
    | leaf mc vs => simp at hget
    | inner vs cs =>
      match h with
      | 0 => exact absurd hwf (NodeWF_zero_inner N b vs cs)
      | h + 1 =>
        rw [NodeWF_succ_inner] at hwf
        rw [getNode_inner_cons] at hget
        cases hc : cs.get? i with
        | none => rw [hc] at hget; simp at hget
        | some c =>
          rw [hc] at hget
          simp only [Option.some_bind] at hget
          have hcwf := hwf.2.2.2 c (List.get?_mem hc)
          by_cases hp : p = []
          · subst hp
            rw [getNode_nil] at hget
            obtain rfl : c = n := by simpa using hget
            exact ⟨by simp only [List.length_cons, List.length_nil]; omega, by simpa using hcwf⟩
          · obtain ⟨h1, h2⟩ := ih c n h false hcwf hget hp
            refine ⟨by simp only [List.length_cons]; omega, ?_⟩
            have : h + 1 - (i :: p).length = h - p.length := by simp only [List.length_cons]; omega
            rw [this]
            exact h2

lemma NodeWF_setNode {α β : Type} (N : Nat) :
    ∀ (p : List Nat) (t n0 m : BNode α β) (h : Nat) (b : Bool),
      NodeWF N h b t → getNode t p = some n0 → p ≠ [] →
      NodeWF N (h - p.length) false m → NodeWF N h b (setNode t p m) := by
  intro p
  induction p with
  | nil => intro t n0 m h b hwf hget hne; exact absurd rfl hne
  | cons i p ih =>
    intro t n0 m h b hwf hget hne
    intro hm
    cases t with
    | leaf mc vs => simp at hget
    | inner vs cs =>
      match h with
      | 0 => exact absurd hwf (NodeWF_zero_inner N b vs cs)
      | h + 1 =>
        rw [NodeWF_succ_inner] at hwf
        rw [getNode_inner_cons] at hget
        cases hc : cs.get? i with
        | none => rw [hc] at hget; simp at hget
        | some c =>
          rw [hc] at hget
          simp only [Option.some_bind] at hget
          rw [setNode_inner_cons, hc, Option.elim_some, NodeWF_succ_inner]
          refine ⟨hwf.1, hwf.2.1, by simpa using hwf.2.2.1, ?_⟩
          intro c2 hc2
          rcases List.mem_or_eq_of_mem_set hc2 with hmem | hmem
          · exact hwf.2.2.2 c2 hmem
          · subst hmem
            by_cases hp : p = []
            · subst hp
              have : setNode c [] m = m := by cases c <;> rfl
              rw [this]
              have harith : h + 1 - ([i] : List Nat).length = h := by simp
              rw [harith] at hm
              exact hm
            · refine ih c n0 m h false (hwf.2.2.2 c (List.get?_mem hc)) hget hp ?_
              have : h + 1 - (i :: p).length = h - p.length := by simp only [List.length_cons]; omega
              rw [this] at hm
              exact hm

/-!  ## Further list and surgery support for the insert path -/

@[simp] lemma setNode_nil {α β : Type} (t m : BNode α β) :
    setNode t [] m = m := by
  cases t <;> rfl

/-- Surgery composition: rewriting below an already rewritten subtree. -/
lemma setNode_setNode {α β : Type} :
    ∀ (p q : List Nat) (t n0 P m : BNode α β), getNode t p = some n0 →
      setNode (setNode t p P) (p ++ q) m = setNode t p (setNode P q m) := by
  intro p
  induction p with
  | nil => intro q t n0 P m hget; simp
  | cons i p ih =>
    intro q t n0 P m hget
    cases t with
    | leaf mc vs => simp at hget
    | inner vs cs =>
      rw [getNode_inner_cons] at hget
      cases hc : cs.get? i with
      | none => rw [hc] at hget; simp at hget
      | some c =>
        rw [hc] at hget
        simp only [Option.some_bind] at hget
        have hilt : i < cs.length := by
          by_contra hcon
          rw [List.get?_eq_none.mpr (by omega)] at hc
          cases hc
        rw [setNode_inner_cons, hc, Option.elim_some, List.cons_append,
          setNode_inner_cons]
        have hget2 : (cs.set i (setNode c p P)).get? i = some (setNode c p P) := by
          rw [List.get?_eq_getElem?, List.getElem?_set, if_pos hilt, if_pos rfl]
        rw [hget2, Option.elim_some, List.set_set, ih q c n0 P m hget,
          setNode_inner_cons, hc, Option.elim_some]

/-- Length of an interleaved child/value sequence. -/
lemma tlc_length {α β : Type} :
    ∀ (cs : List (BNode α β)) (vs : List (α × β)), cs.length = vs.length + 1 →
      (toListNode.toListChildren cs vs).length =
        (cs.map (fun c => (toListNode c).length)).sum + vs.length := by
  intro cs
  induction cs with
  | nil => intro vs h; simp at h
  | cons c cs ih =>
    intro vs h
    cases vs with
    | nil =>
      have : cs = [] := List.length_eq_zero.mp (by simpa using h)
      subst this
      simp
    | cons v vs =>
      simp only [tlc_cons_cons, List.length_append, List.length_cons,
        List.map_cons, List.sum_cons]
      rw [ih vs (by simpa using h)]
      omega

lemma insertIdx_eq_take_drop {γ : Type} :
    ∀ (l : List γ) (n : Nat) (a : γ), n ≤ l.length →
      l.insertIdx n a = l.take n ++ a :: l.drop n := by
  intro l
  induction l with
  | nil =>
    intro n a h
    have : n = 0 := by simpa using h
    subst this
    simp
  | cons x l ih =>
    intro n a h
    cases n with
    | zero => simp
    | succ n =>
      simp only [List.insertIdx_succ_cons, List.take_succ_cons,
        List.drop_succ_cons, List.cons_append, List.cons.injEq, true_and]
      exact ih n a (by simpa using h)

lemma set_insertIdx_lt {γ : Type} :
    ∀ (l : List γ) (i j : Nat) (a b : γ), i < j →
      (l.insertIdx j b).set i a = (l.set i a).insertIdx j b := by
  intro l
  induction l with
  | nil =>
    intro i j a b hij
    match j with
    | j + 1 => simp [List.insertIdx_succ_nil]
  | cons x l ih =>
    intro i j a b hij
    match j, i with
    | j + 1, 0 => simp [List.insertIdx_succ_cons]
    | j + 1, i + 1 =>
      simp only [List.insertIdx_succ_cons, List.set_cons_succ]
      rw [ih i j a b (by omega)]

lemma set_insertIdx_self {γ : Type} :
    ∀ (l : List γ) (n : Nat) (b c : γ), n ≤ l.length →
      (l.insertIdx n b).set n c = l.insertIdx n c := by
  intro l
  induction l with
  | nil =>
    intro n b c h
    have : n = 0 := by simpa using h
    subst this
    simp
  | cons x l ih =>
    intro n b c h
    cases n with
    | zero => simp
    | succ n =>
      simp only [List.insertIdx_succ_cons, List.set_cons_succ]
      rw [ih n b c (by simpa using h)]

lemma get?_insertIdx_lt {γ : Type} :
    ∀ (l : List γ) (i j : Nat) (b : γ), i < j →
      (l.insertIdx j b).get? i = l.get? i := by
  intro l
  induction l with
  | nil =>
    intro i j b hij
    match j with
    | j + 1 => simp [List.insertIdx_succ_nil]
  | cons x l ih =>
    intro i j b hij
    match j, i with
    | j + 1, 0 => simp [List.insertIdx_succ_cons]
    | j + 1, i + 1 =>
      simp only [List.insertIdx_succ_cons, List.get?_cons_succ]
      exact ih i j b (by omega)

lemma get?_insertIdx_self {γ : Type} :
    ∀ (l : List γ) (n : Nat) (b : γ), n ≤ l.length →
      (l.insertIdx n b).get? n = some b := by
  intro l
  induction l with
  | nil =>
    intro n b h
    have : n = 0 := by simpa using h
    subst this
    simp
  | cons x l ih =>
    intro n b h
    cases n with
    | zero => simp
    | succ n =>
      simp only [List.insertIdx_succ_cons, List.get?_cons_succ]
      exact ih n b (by simpa using h)

/-- `split` on a full leaf child with room in the parent: the returned
position is a leaf slot with room at the same global in-order index. -/
lemma splitChild_ready_leaf {α β : Type} (N : Nat) (hN : 3 ≤ N)
    (t : BNode α β) (pp : List Nat) (i ipos : Nat) (mcX : Nat)
    (xvs : List (α × β)) (start hc h2 : Nat)
    (hsr : SplitReady N t pp i (BNode.leaf mcX xvs) start hc h2)
    (hfull : xvs.length = N) (hmax : mcX = N) (hipos : ipos ≤ N) :
    InsertReady N (splitChild N t pp i ipos).1
      (splitChild N t pp i ipos).2.1 (splitChild N t pp i ipos).2.2
      (start + ipos) h2 := by
  subst hmax
  subst hfull
  obtain ⟨pvals, pcs, preG, postG, hpar, hX, hi, hroom, hplen, hXwf, hframe,
    hstart, hplugL, hplugW⟩ := hsr
  have hilt : i < pcs.length := by
    by_contra hcon
    rw [List.get?_eq_none.mpr (by omega)] at hX
    cases hX
  -- the leaf is at height 0
  obtain rfl : hc = 0 := by
    match hc, hXwf with
    | 0, _ => rfl
  have hXwf0 := (NodeWF_zero_leaf _ false _ _).mp hXwf
  simp only [splitChild, hpar, hX, BNode.count, BNode.valsOf, BNode.maxCountOf]
  set dc := (if ipos = 0 then xvs.length - 1 else
    if ipos = xvs.length then 0 else xvs.length / 2) with hdcdef
  have hdclt : dc < xvs.length := by
    rw [hdcdef]; split_ifs <;> omega
  have hlc1 : ipos ≤ xvs.length - dc - 1 → 1 ≤ dc := by
    rw [hdcdef]; split_ifs <;> omega
  have hlc2 : xvs.length - dc - 1 < ipos → 1 ≤ xvs.length - dc - 1 := by
    rw [hdcdef]; split_ifs <;> omega
  clear hdcdef
  cases hprom : xvs.get? (xvs.length - dc - 1) with
  | none =>
    rw [List.get?_eq_none] at hprom
    omega
  | some promoted =>
  have hxdec : xvs = xvs.take (xvs.length - dc - 1) ++ promoted ::
      xvs.drop (xvs.length - dc - 1 + 1) := list_decomp_at xvs _ promoted hprom
  set lc := xvs.length - dc - 1 with hlcdef
  set left2 : BNode α β := BNode.leaf xvs.length (xvs.take lc) with hleft2
  set dest : BNode α β := BNode.leaf xvs.length (xvs.drop (lc + 1)) with hdest
  set p2 : BNode α β := BNode.inner (pvals.insertIdx i promoted)
    ((pcs.set i left2).insertIdx (i + 1) dest) with hp2
  have htl2 : toListNode (setNode t pp p2) =
      preG ++ xvs.take lc ++ promoted :: xvs.drop (lc + 1) ++ postG := by
    rw [hp2]
    have := hplugL promoted left2 dest
    rw [hleft2, hdest] at this
    simpa using this
  have hcsi : ((pcs.set i left2).insertIdx (i + 1) dest).get? i = some left2 := by
    rw [get?_insertIdx_lt _ i (i + 1) dest (Nat.lt_succ_self i),
      List.get?_eq_getElem?, List.getElem?_set, if_pos hilt, if_pos rfl]
  have hcsi1 : ((pcs.set i left2).insertIdx (i + 1) dest).get? (i + 1) =
      some dest := by
    rw [get?_insertIdx_self]
    rw [List.length_set]
    omega
  dsimp only
  by_cases hbr : lc < ipos
  · rw [if_pos hbr]
    dsimp only
    unfold InsertReady
    refine ⟨xvs.length, xvs.drop (lc + 1), preG ++ xvs.take lc ++
      promoted :: (xvs.drop (lc + 1)).take (ipos - lc - 1),
      (xvs.drop (lc + 1)).drop (ipos - lc - 1) ++ postG, ?_, ?_, ?_, ?_, ?_, ?_⟩
    · rw [getNode_setNode_through pp [i + 1] t _ p2 hpar, hp2,
        getNode_inner_cons, hcsi1, Option.some_bind, getNode_nil, hdest]
    · rw [List.length_drop]
      omega
    · rw [List.length_drop]
      omega
    · rw [htl2]
      have hsplit : List.drop (lc + 1) xvs =
          (List.drop (lc + 1) xvs).take (ipos - lc - 1) ++
            (List.drop (lc + 1) xvs).drop (ipos - lc - 1) :=
        (List.take_append_drop _ _).symm
      conv_lhs => rw [hsplit]
      simp only [List.append_assoc, List.cons_append]
    · have h1 : (xvs.take lc).length = lc := by
        rw [List.length_take]
        omega
      have h2 : ((xvs.drop (lc + 1)).take (ipos - lc - 1)).length = ipos - lc - 1 := by
        rw [List.length_take, List.length_drop]
        omega
      simp only [List.length_append, List.length_cons, h1, h2, hstart]
      omega
    · intro w
      have hget2 : getNode (setNode t pp p2) (pp ++ [i + 1]) =
          some (BNode.leaf xvs.length (xvs.drop (lc + 1))) := by
        rw [getNode_setNode_through pp [i + 1] t _ p2 hpar, hp2,
          getNode_inner_cons, hcsi1, Option.some_bind, getNode_nil, hdest]
      have hIVeq : insertValueAt (setNode t pp p2) (pp ++ [i + 1]) (ipos - lc - 1) w
          = setNode t pp (BNode.inner (pvals.insertIdx i promoted)
            ((pcs.set i left2).insertIdx (i + 1)
              (BNode.leaf xvs.length ((xvs.drop (lc + 1)).insertIdx (ipos - lc - 1) w)))) := by
        simp only [insertValueAt, hget2]
        rw [setNode_setNode pp [i + 1] t _ p2 _ hpar, hp2]
        rw [setNode_inner_cons, hcsi1, Option.elim_some, setNode_nil]
        rw [set_insertIdx_self]
        rw [List.length_set]
        omega
      have hwfW : NodeWF xvs.length 0 false
          (BNode.leaf xvs.length ((xvs.drop (lc + 1)).insertIdx (ipos - lc - 1) w)) := by
        rw [NodeWF_zero_leaf]
        have : ((xvs.drop (lc + 1)).insertIdx (ipos - lc - 1) w).length =
            (xvs.drop (lc + 1)).length + 1 := by
          rw [List.length_insertIdx]
          rw [List.length_drop]
          omega
        rw [this, List.length_drop]
        refine ⟨by omega, by omega, by simp⟩
      have hwfL : NodeWF xvs.length 0 false left2 := by
        rw [hleft2, NodeWF_zero_leaf]
        have h1 : (xvs.take lc).length = lc := by
          rw [List.length_take]; omega
        rw [h1]
        exact ⟨hlc2 hbr, by omega, by simp⟩
      refine ⟨?_, ?_, ?_⟩
      · rw [hIVeq, hplugL]
        have hins : (xvs.drop (lc + 1)).insertIdx (ipos - lc - 1) w =
            (xvs.drop (lc + 1)).take (ipos - lc - 1) ++ w ::
              (xvs.drop (lc + 1)).drop (ipos - lc - 1) := by
          rw [insertIdx_eq_take_drop]
          rw [List.length_drop]
          omega
        rw [hleft2, hins]
        simp only [toListNode, List.append_assoc, List.cons_append]
      · rw [hIVeq]
        exact hplugW promoted left2 _ hwfL hwfW
      · rw [hIVeq]
        rw [getNode_setNode_through pp [i + 1] t _ _ hpar, getNode_inner_cons]
        have : ((pcs.set i left2).insertIdx (i + 1)
            (BNode.leaf xvs.length ((xvs.drop (lc + 1)).insertIdx (ipos - lc - 1) w))).get?
              (i + 1) = some (BNode.leaf xvs.length
                ((xvs.drop (lc + 1)).insertIdx (ipos - lc - 1) w)) := by
          rw [get?_insertIdx_self]
          rw [List.length_set]
          omega
        rw [this, Option.some_bind, getNode_nil]
  · rw [if_neg hbr]
    dsimp only
    have hiposlc : ipos ≤ lc := by omega
    unfold InsertReady
    refine ⟨xvs.length, xvs.take lc, preG ++ xvs.take ipos,
      (xvs.take lc).drop ipos ++ promoted :: xvs.drop (lc + 1) ++ postG,
      ?_, ?_, ?_, ?_, ?_, ?_⟩
    · rw [getNode_setNode_through pp [i] t _ p2 hpar, hp2,
        getNode_inner_cons, hcsi, Option.some_bind, getNode_nil, hleft2]
    · rw [List.length_take]
      omega
    · rw [List.length_take]
      omega
    · rw [htl2]
      have hseg : xvs.take lc = xvs.take ipos ++ (xvs.take lc).drop ipos := by
        conv_lhs => rw [← List.take_append_drop ipos (xvs.take lc)]
        rw [List.take_take, min_eq_left hiposlc]
      conv_lhs => rw [hseg]
      simp [List.append_assoc]
    · have h1 : (xvs.take ipos).length = ipos := by
        rw [List.length_take]
        omega
      simp only [List.length_append, h1, hstart]
    · intro w
      have hget2 : getNode (setNode t pp p2) (pp ++ [i]) =
          some (BNode.leaf xvs.length (xvs.take lc)) := by
        rw [getNode_setNode_through pp [i] t _ p2 hpar, hp2,
          getNode_inner_cons, hcsi, Option.some_bind, getNode_nil, hleft2]
      have hIVeq : insertValueAt (setNode t pp p2) (pp ++ [i]) ipos w
          = setNode t pp (BNode.inner (pvals.insertIdx i promoted)
            ((pcs.set i (BNode.leaf xvs.length ((xvs.take lc).insertIdx ipos w))).insertIdx
              (i + 1) dest)) := by
        simp only [insertValueAt, hget2]
        rw [setNode_setNode pp [i] t _ p2 _ hpar, hp2]
        rw [setNode_inner_cons, hcsi, Option.elim_some, setNode_nil]
        rw [set_insertIdx_lt _ i (i + 1) _ dest (Nat.lt_succ_self i), List.set_set]
      have hwfW : NodeWF xvs.length 0 false
          (BNode.leaf xvs.length ((xvs.take lc).insertIdx ipos w)) := by
        rw [NodeWF_zero_leaf]
        have h1 : (xvs.take lc).length = lc := by
          rw [List.length_take]; omega
        have : ((xvs.take lc).insertIdx ipos w).length = lc + 1 := by
          rw [List.length_insertIdx]
          · rw [h1]
          · rw [h1]; omega
        rw [this]
        refine ⟨by omega, by omega, by simp⟩
      have hwfD : NodeWF xvs.length 0 false dest := by
        rw [hdest, NodeWF_zero_leaf]
        rw [List.length_drop]
        exact ⟨by omega, by omega, by simp⟩
      refine ⟨?_, ?_, ?_⟩
      · rw [hIVeq, hplugL]
        have hins : (xvs.take lc).insertIdx ipos w =
            xvs.take ipos ++ w :: (xvs.take lc).drop ipos := by
          rw [insertIdx_eq_take_drop]
          · rw [List.take_take, min_eq_left hiposlc]
          · rw [List.length_take]; omega
        rw [hdest, hins]
        simp only [toListNode, List.append_assoc, List.cons_append]
      · rw [hIVeq]
        exact hplugW promoted _ dest hwfW hwfD
      · rw [hIVeq]
        rw [getNode_setNode_through pp [i] t _ _ hpar, getNode_inner_cons]
        have : ((pcs.set i (BNode.leaf xvs.length ((xvs.take lc).insertIdx ipos w))).insertIdx
            (i + 1) dest).get? i =
              some (BNode.leaf xvs.length ((xvs.take lc).insertIdx ipos w)) := by
          rw [get?_insertIdx_lt _ i (i + 1) dest (Nat.lt_succ_self i),
            List.get?_eq_getElem?, List.getElem?_set, if_pos hilt, if_pos rfl]
        rw [this, Option.some_bind, getNode_nil]

/-- `split` on a full internal child with room in the parent: the returned
position addresses the original child `ipos` (now inside one of the two
halves), again in `SplitReady` form one level down. -/
lemma splitChild_ready_inner {α β : Type} (N : Nat) (hN : 3 ≤ N)
    (t : BNode α β) (pp : List Nat) (i ipos : Nat)
    (xvs : List (α × β)) (xcs : List (BNode α β)) (start hc h2 : Nat)
    (Y : BNode α β)
    (hsr : SplitReady N t pp i (BNode.inner xvs xcs) start hc h2)
    (hfull : xvs.length = N) (hipos : ipos ≤ N)
    (hY : xcs.get? ipos = some Y) :
    SplitReady N (splitChild N t pp i ipos).1
      (splitChild N t pp i ipos).2.1 (splitChild N t pp i ipos).2.2
      Y (start + subtreeStart (BNode.inner xvs xcs) [ipos]) (hc - 1) h2 := by
  subst hfull
  obtain ⟨pvals, pcs, preG, postG, hpar, hX, hi, hroom, hplen, hXwf, hframe,
    hstart, hplugL, hplugW⟩ := hsr
  have hilt : i < pcs.length := by
    by_contra hcon
    rw [List.get?_eq_none.mpr (by omega)] at hX
    cases hX
  cases hc with
  | zero => exact absurd hXwf (NodeWF_zero_inner _ false xvs xcs)
  | succ hcx =>
  obtain ⟨hxpos, hxle, hxclen, hxcwf⟩ := (NodeWF_succ_inner _ hcx false xvs xcs).mp hXwf
  have hYwf : NodeWF xvs.length hcx false Y := hxcwf Y (List.get?_mem hY)
  have hYlt : ipos < xcs.length := by
    by_contra hcon
    rw [List.get?_eq_none.mpr (by omega)] at hY
    cases hY
  have hsub : subtreeStart (BNode.inner xvs xcs) [ipos] =
      ((xcs.take ipos).map (fun c => (toListNode c).length)).sum + ipos := by
    rw [subtreeStart_inner_cons, hY, Option.elim_some, subtreeStart_nil]
    omega
  rw [hsub]

  have hred : hcx + 1 - 1 = hcx := rfl
  rw [hred]
  simp only [splitChild, hpar, hX, BNode.count, BNode.valsOf, BNode.maxCountOf]
  set dc := (if ipos = 0 then xvs.length - 1 else
    if ipos = xvs.length then 0 else xvs.length / 2) with hdcdef
  have hdclt : dc < xvs.length := by
    rw [hdcdef]; split_ifs <;> omega
  have hlc1 : ipos ≤ xvs.length - dc - 1 → 1 ≤ dc := by
    rw [hdcdef]; split_ifs <;> omega
  have hlc2 : xvs.length - dc - 1 < ipos → 1 ≤ xvs.length - dc - 1 := by
    rw [hdcdef]; split_ifs <;> omega
  clear hdcdef
  cases hprom : xvs.get? (xvs.length - dc - 1) with
  | none =>
    rw [List.get?_eq_none] at hprom
    omega
  | some promoted =>
  set lc := xvs.length - dc - 1 with hlcdef
  set left2 : BNode α β := BNode.inner (xvs.take lc) (xcs.take (lc + 1)) with hleft2
  set dest : BNode α β := BNode.inner (xvs.drop (lc + 1)) (xcs.drop (lc + 1)) with hdest
  set p2 : BNode α β := BNode.inner (pvals.insertIdx i promoted)
    ((pcs.set i left2).insertIdx (i + 1) dest) with hp2
  have htl2 : toListNode (setNode t pp p2) =
      preG ++ toListNode left2 ++ promoted :: toListNode dest ++ postG := by
    rw [hp2]
    exact hplugL promoted left2 dest
  have hcsi : ((pcs.set i left2).insertIdx (i + 1) dest).get? i = some left2 := by
    rw [get?_insertIdx_lt _ i (i + 1) dest (Nat.lt_succ_self i),
      List.get?_eq_getElem?, List.getElem?_set, if_pos hilt, if_pos rfl]
  have hcsi1 : ((pcs.set i left2).insertIdx (i + 1) dest).get? (i + 1) =
      some dest := by
    rw [get?_insertIdx_self]
    rw [List.length_set]
    omega
  have hlenTakeV : (xvs.take lc).length = lc := by
    rw [List.length_take]; omega
  have hlenTakeC : (xcs.take (lc + 1)).length = lc + 1 := by
    rw [List.length_take]; omega
  have hlenDropV : (xvs.drop (lc + 1)).length = dc := by
    rw [List.length_drop]; omega
  have hlenDropC : (xcs.drop (lc + 1)).length = dc + 1 := by
    rw [List.length_drop]; omega
  dsimp only
  by_cases hbr : lc < ipos
  · rw [if_pos hbr]
    dsimp only
    have hgetY : (xcs.drop (lc + 1)).get? (ipos - lc - 1) = some Y := by
      rw [List.get?_drop]
      have : lc + 1 + (ipos - lc - 1) = ipos := by omega
      rw [this]
      exact hY
    obtain ⟨pre1, post1, hp1len, hp1eq, _, hp1ins⟩ :=
      tlc_at (ipos - lc - 1) (xcs.drop (lc + 1)) (xvs.drop (lc + 1)) Y
        (by omega) hgetY
    unfold SplitReady
    refine ⟨xvs.drop (lc + 1), xcs.drop (lc + 1),
      preG ++ toListNode left2 ++ promoted :: pre1, post1 ++ postG,
      ?_, ?_, ?_, ?_, ?_, ?_, ?_, ?_, ?_, ?_⟩
    · rw [getNode_setNode_through pp [i + 1] t _ p2 hpar, hp2,
        getNode_inner_cons, hcsi1, Option.some_bind, getNode_nil, hdest]
    · exact hgetY
    · omega
    · omega
    · omega
    · exact hYwf
    · have hdtl : toListNode dest = pre1 ++ toListNode Y ++ post1 := by
        rw [hdest, toListNode_inner, hp1eq]
      rw [htl2, hdtl]
      simp only [List.append_assoc, List.cons_append]
    · have hl2len : (toListNode left2).length =
          ((xcs.take (lc + 1)).map (fun c => (toListNode c).length)).sum + lc := by
        rw [hleft2, toListNode_inner, tlc_length _ _ (by omega), hlenTakeV]
      have hip : ipos = (lc + 1) + (ipos - lc - 1) := by omega
      have htk : xcs.take ipos = xcs.take (lc + 1) ++
          (xcs.drop (lc + 1)).take (ipos - lc - 1) := by
        conv_lhs => rw [hip, List.take_add]
      rw [htk]
      simp only [List.length_append, List.length_cons, hstart, hl2len, hp1len,
        List.map_append, List.sum_append]
      omega
    · intro w c1 c2
      rw [setNode_setNode pp [i + 1] t _ p2 _ hpar, hp2,
        setNode_inner_cons, hcsi1, Option.elim_some, setNode_nil,
        set_insertIdx_self _ _ _ _ (by rw [List.length_set]; omega)]
      have hQtl : toListNode (BNode.inner
          ((xvs.drop (lc + 1)).insertIdx (ipos - lc - 1) w)
          (((xcs.drop (lc + 1)).set (ipos - lc - 1) c1).insertIdx
            (ipos - lc - 1 + 1) c2)) =
          pre1 ++ toListNode c1 ++ w :: toListNode c2 ++ post1 := by
        rw [toListNode_inner, hp1ins c1 w c2]
      rw [hplugL promoted left2 _, hQtl]
      simp only [List.append_assoc, List.cons_append]
    · intro w c1 c2 hc1 hc2
      rw [setNode_setNode pp [i + 1] t _ p2 _ hpar, hp2,
        setNode_inner_cons, hcsi1, Option.elim_some, setNode_nil,
        set_insertIdx_self _ _ _ _ (by rw [List.length_set]; omega)]
      refine hplugW promoted left2 _ ?_ ?_
      · rw [hleft2, NodeWF_succ_inner]
        refine ⟨by rw [hlenTakeV]; omega, by rw [hlenTakeV]; omega,
          by rw [hlenTakeV, hlenTakeC], ?_⟩
        intro c hc
        exact hxcwf c (List.take_subset _ _ hc)
      · rw [NodeWF_succ_inner]
        refine ⟨?_, ?_, ?_, ?_⟩
        · rw [List.length_insertIdx _ _ (by omega)]
          omega
        · rw [List.length_insertIdx _ _ (by omega)]
          omega
        · rw [List.length_insertIdx _ _ (by rw [List.length_set]; omega),
            List.length_insertIdx _ _ (by omega), List.length_set]
          omega
        · intro c hc
          rcases (List.mem_insertIdx (by rw [List.length_set]; omega)).mp hc with
            h | h
          · subst h
            exact hc2
          · rcases List.mem_or_eq_of_mem_set h with h' | h'
            · exact hxcwf c (List.drop_subset _ _ h')
            · subst h'
              exact hc1
  · rw [if_neg hbr]
    dsimp only
    have hiposlc : ipos ≤ lc := by omega
    have hgetY : (xcs.take (lc + 1)).get? ipos = some Y := by
      rw [List.get?_take (by omega)]
      exact hY
    obtain ⟨pre1, post1, hp1len, hp1eq, _, hp1ins⟩ :=
      tlc_at ipos (xcs.take (lc + 1)) (xvs.take lc) Y
        (by omega) hgetY
    unfold SplitReady
    refine ⟨xvs.take lc, xcs.take (lc + 1),
      preG ++ pre1, post1 ++ promoted :: toListNode dest ++ postG,
      ?_, ?_, ?_, ?_, ?_, ?_, ?_, ?_, ?_, ?_⟩
    · rw [getNode_setNode_through pp [i] t _ p2 hpar, hp2,
        getNode_inner_cons, hcsi, Option.some_bind, getNode_nil, hleft2]
    · exact hgetY
    · omega
    · omega
    · omega
    · exact hYwf
    · have hltl : toListNode left2 = pre1 ++ toListNode Y ++ post1 := by
        rw [hleft2, toListNode_inner, hp1eq]
      rw [htl2, hltl]
      simp only [List.append_assoc, List.cons_append]
    · have htk : (xcs.take (lc + 1)).take ipos = xcs.take ipos := by
        rw [List.take_take, min_eq_left (by omega)]
      rw [htk] at hp1len
      simp only [List.length_append, hstart, hp1len]
    · intro w c1 c2
      rw [setNode_setNode pp [i] t _ p2 _ hpar, hp2,
        setNode_inner_cons, hcsi, Option.elim_some, setNode_nil,
        set_insertIdx_lt _ i (i + 1) _ dest (Nat.lt_succ_self i), List.set_set]
      have hQtl : toListNode (BNode.inner
          ((xvs.take lc).insertIdx ipos w)
          (((xcs.take (lc + 1)).set ipos c1).insertIdx (ipos + 1) c2)) =
          pre1 ++ toListNode c1 ++ w :: toListNode c2 ++ post1 := by
        rw [toListNode_inner, hp1ins c1 w c2]
      rw [hplugL promoted _ dest, hQtl]
      simp only [List.append_assoc, List.cons_append]
    · intro w c1 c2 hc1 hc2
      rw [setNode_setNode pp [i] t _ p2 _ hpar, hp2,
        setNode_inner_cons, hcsi, Option.elim_some, setNode_nil,
        set_insertIdx_lt _ i (i + 1) _ dest (Nat.lt_succ_self i), List.set_set]
      refine hplugW promoted _ dest ?_ ?_
      · rw [NodeWF_succ_inner]
        refine ⟨?_, ?_, ?_, ?_⟩
        · rw [List.length_insertIdx _ _ (by omega)]
          omega
        · rw [List.length_insertIdx _ _ (by omega)]
          omega
        · rw [List.length_insertIdx _ _ (by rw [List.length_set, hlenTakeC]; omega),
            List.length_insertIdx _ _ (by rw [hlenTakeV]; omega), List.length_set]
          omega
        · intro c hc
          rcases (List.mem_insertIdx (by rw [List.length_set, hlenTakeC]; omega)).mp hc with
            h | h
          · subst h
            exact hc2
          · rcases List.mem_or_eq_of_mem_set h with h' | h'
            · exact hxcwf c (List.take_subset _ _ h')
            · subst h'
              exact hc1
      · rw [hdest, NodeWF_succ_inner]
        refine ⟨by rw [hlenDropV]; exact hlc1 hiposlc, by rw [hlenDropV]; omega,
          by rw [hlenDropV, hlenDropC], ?_⟩
        intro c hc
        exact hxcwf c (List.drop_subset _ _ hc)

/-!  ## Slot lemmas: surgery and well-formedness packaged per position -/

lemma maxCountOf_of_wf {α β : Type} (N hx : Nat) (L : BNode α β)
    (h : NodeWF N hx false L) : L.maxCountOf N = N := by
  match hx, L with
  | 0, BNode.leaf mc vs =>
    have := ((NodeWF_zero_leaf N false mc vs).mp h).2.2
    simpa [BNode.maxCountOf] using this
  | hx + 1, BNode.inner vs cs => rfl
  | 0, BNode.inner vs cs => exact absurd h (NodeWF_zero_inner N false vs cs)
  | hx + 1, BNode.leaf mc vs => exact absurd h (NodeWF_succ_leaf N hx false mc vs)

lemma NodeWF_b_inner {α β : Type} (N hh : Nat) (b b' : Bool)
    (vs : List (α × β)) (cs : List (BNode α β))
    (h : NodeWF N hh b (BNode.inner vs cs)) : NodeWF N hh b' (BNode.inner vs cs) := by
  match hh with
  | 0 => exact absurd h (NodeWF_zero_inner N b vs cs)
  | hh + 1 => exact (NodeWF_succ_inner N hh b' vs cs).mpr ((NodeWF_succ_inner N hh b vs cs).mp h)

lemma take_set_ge {γ : Type} :
    ∀ (l : List γ) (k j : Nat) (x : γ), j ≤ k →
      (l.set k x).take j = l.take j := by
  intro l
  induction l with
  | nil => intro k j x h; simp
  | cons a l ih =>
    intro k j x h
    match k, j with
    | k, 0 => simp
    | k + 1, j + 1 =>
      simp only [List.set_cons_succ, List.take_succ_cons, List.cons.injEq, true_and]
      exact ih k j x (by omega)

lemma subtreeStart_setNode {α β : Type} :
    ∀ (p : List Nat) (t n0 m : BNode α β), getNode t p = some n0 →
      subtreeStart (setNode t p m) p = subtreeStart t p := by
  intro p
  induction p with
  | nil => intro t n0 m hget; simp
  | cons i p ih =>
    intro t n0 m hget
    cases t with
    | leaf mc vs => simp at hget
    | inner vs cs =>
      rw [getNode_inner_cons] at hget
      cases hc : cs.get? i with
      | none => rw [hc] at hget; simp at hget
      | some c =>
        rw [hc] at hget
        simp only [Option.some_bind] at hget
        have hilt : i < cs.length := by
          by_contra hcon
          rw [List.get?_eq_none.mpr (by omega)] at hc
          cases hc
        rw [setNode_inner_cons, hc, Option.elim_some, subtreeStart_inner_cons,
          subtreeStart_inner_cons, hc, Option.elim_some]
        have hgi : (cs.set i (setNode c p m)).get? i = some (setNode c p m) := by
          rw [List.get?_eq_getElem?, List.getElem?_set, if_pos hilt, if_pos rfl]
        rw [hgi, Option.elim_some, ih c n0 m hget]
        rw [take_set_ge cs i i (setNode c p m) (le_refl i)]

lemma map_take_succ_sum {γ : Type} (f : γ → Nat) (l : List γ) (j : Nat) (c : γ)
    (h : l.get? j = some c) :
    ((l.take (j + 1)).map f).sum = ((l.take j).map f).sum + f c := by
  rw [List.take_succ]
  rw [List.get?_eq_getElem?] at h
  rw [h]
  simp

/-- Every position of a well-formed tree is a ready slot. -/
lemma slotReady_of_wf {α β : Type} (N : Nat) :
    ∀ (p2 : List Nat) (t2 T : BNode α β) (h : Nat),
      NodeWF N h true t2 → getNode t2 p2 = some T →
      SlotReady N t2 p2 T (subtreeStart t2 p2) (h - p2.length) h := by
  intro p2 t2 T h hwf hget
  obtain ⟨pre, post, hprelen, heq, hset⟩ :=
    setNode_surgery p2 t2 T (NodeWF_shape N h true t2 hwf) hget
  refine ⟨pre, post, hget, heq, hprelen, hset, ?_⟩
  intro U hU
  by_cases hp : p2 = []
  · subst hp
    rw [setNode_nil]
    rw [getNode_nil] at hget
    obtain rfl : t2 = T := by simpa using hget
    simp only [List.length_nil, Nat.sub_zero] at hU ⊢
    exact NodeWF_false_true N h U hU
  · exact NodeWF_setNode N p2 t2 T U h true hwf hget hp hU

/-- A leaf slot with room is an insert-ready position. -/
lemma insertReady_of_slot {α β : Type} (N : Nat) (t2 : BNode α β)
    (p2 : List Nat) (mc : Nat) (vs : List (α × β)) (sT h2 i2 : Nat)
    (hslot : SlotReady N t2 p2 (BNode.leaf mc vs) sT 0 h2)
    (hi2 : i2 ≤ vs.length) (hroom : vs.length < mc) (hmc : mc = N) :
    InsertReady N t2 p2 i2 (sT + i2) h2 := by
  obtain ⟨G1, G2, hget, heq, hlen, hsetL, hsetW⟩ := hslot
  unfold InsertReady
  refine ⟨mc, vs, G1 ++ vs.take i2, vs.drop i2 ++ G2, hget, hi2, hroom, ?_, ?_, ?_⟩
  · rw [heq]
    conv_lhs => rw [← List.take_append_drop i2 vs]
    simp only [toListNode, List.append_assoc]
  · rw [List.length_append, List.length_take, hlen]
    omega
  · intro w
    have hIV : insertValueAt t2 p2 i2 w =
        setNode t2 p2 (BNode.leaf mc (vs.insertIdx i2 w)) := by
      simp only [insertValueAt, hget]
    refine ⟨?_, ?_, ?_⟩
    · rw [hIV, hsetL]
      simp only [toListNode]
      rw [insertIdx_eq_take_drop vs i2 w hi2]
      simp only [List.append_assoc, List.cons_append]
    · rw [hIV]
      refine hsetW _ ?_
      rw [NodeWF_zero_leaf]
      rw [List.length_insertIdx _ _ hi2]
      refine ⟨by omega, by omega, by simp [hmc]⟩
    · rw [hIV, getNode_setNode_self p2 t2 _ _ hget]

/-- An internal slot with room is a split-ready position around any of its
children. -/
lemma splitReady_of_slot {α β : Type} (N : Nat) (t2 : BNode α β)
    (p2 : List Nat) (pv : List (α × β)) (pcs : List (BNode α β))
    (sT hcx h2 i2 : Nat) (Y : BNode α β)
    (hslot : SlotReady N t2 p2 (BNode.inner pv pcs) sT (hcx + 1) h2)
    (hTwf : NodeWF N (hcx + 1) false (BNode.inner pv pcs))
    (hY : pcs.get? i2 = some Y) (hi2 : i2 ≤ pv.length) (hroom : pv.length < N) :
    SplitReady N t2 p2 i2 Y (sT + subtreeStart (BNode.inner pv pcs) [i2])
      hcx h2 := by
  obtain ⟨G1, G2, hget, heq, hlen, hsetL, hsetW⟩ := hslot
  obtain ⟨hppos, hple, hpclen, hpcwf⟩ := (NodeWF_succ_inner N hcx false pv pcs).mp hTwf
  obtain ⟨pre1, post1, hp1len, hp1eq, _, hp1ins⟩ := tlc_at i2 pcs pv Y hpclen hY
  have hsub : subtreeStart (BNode.inner pv pcs) [i2] =
      ((pcs.take i2).map (fun c => (toListNode c).length)).sum + i2 := by
    rw [subtreeStart_inner_cons, hY, Option.elim_some, subtreeStart_nil]
    omega
  unfold SplitReady
  refine ⟨pv, pcs, G1 ++ pre1, post1 ++ G2, hget, hY, hi2, hroom, hpclen,
    hpcwf Y (List.get?_mem hY), ?_, ?_, ?_, ?_⟩
  · rw [heq, toListNode_inner, hp1eq]
    simp only [List.append_assoc]
  · rw [List.length_append, hlen, hp1len, hsub]
  · intro w c1 c2
    rw [hsetL, toListNode_inner, hp1ins c1 w c2]
    simp only [List.append_assoc, List.cons_append]
  · intro w c1 c2 hc1 hc2
    refine hsetW _ ?_
    rw [NodeWF_succ_inner]
    refine ⟨?_, ?_, ?_, ?_⟩
    · rw [List.length_insertIdx _ _ (by omega)]
      omega
    · rw [List.length_insertIdx _ _ (by omega)]
      omega
    · rw [List.length_insertIdx _ _ (by rw [List.length_set]; omega),
        List.length_insertIdx _ _ (by omega), List.length_set]
      omega
    · intro c hc
      rcases (List.mem_insertIdx (by rw [List.length_set]; omega)).mp hc with
        h | h
      · subst h
        exact hc2
      · rcases List.mem_or_eq_of_mem_set h with h' | h'
        · exact hpcwf c h'
        · subst h'
          exact hc1

lemma ShapeOK_getNode {α β : Type} :
    ∀ (p : List Nat) (t n : BNode α β), ShapeOK t → getNode t p = some n →
      ShapeOK n := by
  intro p
  induction p with
  | nil =>
    intro t n ht hget
    rw [getNode_nil] at hget
    obtain rfl : t = n := by simpa using hget
    exact ht
  | cons i p ih =>
    intro t n ht hget
    cases t with
    | leaf mc vs => simp at hget
    | inner vs cs =>
      rw [getNode_inner_cons] at hget
      cases hc : cs.get? i with
      | none => rw [hc] at hget; simp at hget
      | some c =>
        rw [hc] at hget
        simp only [Option.some_bind] at hget
        rw [ShapeOK] at ht
        exact ih c n (ht.2 c (List.get?_mem hc)) hget

/-- `split` never changes the in-order traversal of the tree, and keeps
every internal node's child count coherent. -/
lemma splitChild_preserves {α β : Type} (N : Nat) (t : BNode α β)
    (pp : List Nat) (i ipos : Nat) (hsh : ShapeOK t) :
    toListNode (splitChild N t pp i ipos).1 = toListNode t ∧
      ShapeOK (splitChild N t pp i ipos).1 := by
  cases hpar : getNode t pp with
  | none =>
    simp only [splitChild, hpar]
    exact ⟨trivial, hsh⟩
  | some P =>
    cases P with
    | leaf mc vs =>
      simp only [splitChild, hpar]
      exact ⟨trivial, hsh⟩
    | inner pvals pcs =>
      cases hX : pcs.get? i with
      | none =>
        simp only [splitChild, hpar, hX]
        exact ⟨trivial, hsh⟩
      | some X =>
        have hilt : i < pcs.length := by
          by_contra hcon
          rw [List.get?_eq_none.mpr (by omega)] at hX
          cases hX
        have hshP : ShapeOK (BNode.inner pvals pcs) := ShapeOK_getNode pp t _ hsh hpar
        rw [ShapeOK] at hshP
        have hshX : ShapeOK X := hshP.2 X (List.get?_mem hX)
        obtain ⟨pre, post, hprelen, heq, hset⟩ := setNode_surgery pp t _ hsh hpar
        obtain ⟨pre2, post2, hp2len, hp2eq, _, hp2ins⟩ :=
          tlc_at i pcs pvals X hshP.1 hX
        have main : ∀ (promoted : α × β) (l2 d2 : BNode α β),
            toListNode l2 ++ promoted :: toListNode d2 = toListNode X →
            ShapeOK l2 → ShapeOK d2 →
            toListNode (setNode t pp (BNode.inner (pvals.insertIdx i promoted)
              ((pcs.set i l2).insertIdx (i + 1) d2))) = toListNode t ∧
            ShapeOK (setNode t pp (BNode.inner (pvals.insertIdx i promoted)
              ((pcs.set i l2).insertIdx (i + 1) d2))) := by
          intro promoted l2 d2 hcont hshl2 hshd2
          constructor
          · rw [hset, heq, toListNode_inner, toListNode_inner,
              hp2ins l2 promoted d2, hp2eq, ← hcont]
            simp only [List.append_assoc, List.cons_append]
          · refine setNode_shape pp t _ _ hsh hpar ?_
            rw [ShapeOK]
            refine ⟨?_, ?_⟩
            · rw [List.length_insertIdx _ _ (by rw [List.length_set]; omega),
                List.length_insertIdx _ _ (by omega), List.length_set]
              omega
            · intro c hc
              rcases (List.mem_insertIdx (by rw [List.length_set]; omega)).mp hc
                with h | h
              · subst h
                exact hshd2
              · rcases List.mem_or_eq_of_mem_set h with h' | h'
                · exact hshP.2 c h'
                · subst h'
                  exact hshl2
        cases X with
        | leaf mcX xvs =>
          simp only [splitChild, hpar, hX, BNode.count, BNode.valsOf,
            BNode.maxCountOf]
          set lc := xvs.length - (if ipos = 0 then xvs.length - 1 else
            if ipos = mcX then 0 else xvs.length / 2) - 1 with hlcdef
          cases hprom : xvs.get? lc with
          | none =>
            dsimp only
            exact ⟨rfl, hsh⟩
          | some promoted =>
            dsimp only
            have hcont : toListNode (BNode.leaf mcX (xvs.take lc)) ++ promoted ::
                toListNode (BNode.leaf N (xvs.drop (lc + 1))) =
                toListNode (BNode.leaf mcX xvs) := by
              simp only [toListNode]
              exact (list_decomp_at xvs lc promoted hprom).symm
            by_cases hbr : lc < ipos
            · rw [if_pos hbr]
              exact main promoted _ _ hcont (by rw [ShapeOK]; trivial)
                (by rw [ShapeOK]; trivial)
            · rw [if_neg hbr]
              exact main promoted _ _ hcont (by rw [ShapeOK]; trivial)
                (by rw [ShapeOK]; trivial)
        | inner xvs xcs =>
          rw [ShapeOK] at hshX
          have hlcok : ∀ lcv : Nat, lcv < xvs.length →
              ShapeOK (BNode.inner (xvs.take lcv) (xcs.take (lcv + 1))) ∧
              ShapeOK (BNode.inner (xvs.drop (lcv + 1)) (xcs.drop (lcv + 1))) := by
            intro lcv hlt
            constructor
            · rw [ShapeOK]
              refine ⟨by rw [List.length_take, List.length_take]; omega, ?_⟩
              intro c hc
              exact hshX.2 c (List.take_subset _ _ hc)
            · rw [ShapeOK]
              refine ⟨by rw [List.length_drop, List.length_drop]; omega, ?_⟩
              intro c hc
              exact hshX.2 c (List.drop_subset _ _ hc)
          simp only [splitChild, hpar, hX, BNode.count, BNode.valsOf,
            BNode.maxCountOf]
          set lc := xvs.length - (if ipos = 0 then xvs.length - 1 else
            if ipos = N then 0 else xvs.length / 2) - 1 with hlcdef
          cases hprom : xvs.get? lc with
          | none =>
            dsimp only
            exact ⟨rfl, hsh⟩
          | some promoted =>
            dsimp only
            have hlclt : lc < xvs.length := by
              by_contra hcon
              rw [List.get?_eq_none.mpr (by omega)] at hprom
              cases hprom
            have hcont : toListNode (BNode.inner (xvs.take lc) (xcs.take (lc + 1)))
                ++ promoted ::
                toListNode (BNode.inner (xvs.drop (lc + 1)) (xcs.drop (lc + 1))) =
                toListNode (BNode.inner xvs xcs) := by
              rw [toListNode_inner, toListNode_inner, toListNode_inner]
              exact (tlc_split xcs xvs lc promoted hshX.1 hprom).symm
            by_cases hbr : lc < ipos
            · rw [if_pos hbr]
              exact main promoted _ _ hcont (hlcok lc hlclt).1 (hlcok lc hlclt).2
            · rw [if_neg hbr]
              exact main promoted _ _ hcont (hlcok lc hlclt).1 (hlcok lc hlclt).2

/-- Replacing the subtree at any position (including the root) by an
equally tall well-formed node keeps the tree well-formed. -/
lemma NodeWF_replace {α β : Type} (N : Nat) (p : List Nat)
    (t n0 m : BNode α β) (h : Nat) (hwf : NodeWF N h true t)
    (hget : getNode t p = some n0) (hm : NodeWF N (h - p.length) false m) :
    NodeWF N h true (setNode t p m) := by
  by_cases hp : p = []
  · subst hp
    rw [setNode_nil]
    simp only [List.length_nil, Nat.sub_zero] at hm
    exact NodeWF_false_true N h m hm
  · exact NodeWF_setNode N p t n0 m h true hwf hget hp hm

/-- A non-root leaf position with room in a well-formed tree is
insert-ready at its global index. -/
lemma finish_leaf {α β : Type} (N : Nat) (t2 : BNode α β) (p2 : List Nat)
    (mc2 i2 s0 h : Nat) (vs2 : List (α × β))
    (hwf : NodeWF N h true t2) (hget : getNode t2 p2 = some (BNode.leaf mc2 vs2))
    (hp2 : p2 ≠ []) (hroom : vs2.length < mc2) (hmc : mc2 = N)
    (hi2 : i2 ≤ vs2.length) (hs : subtreeStart t2 p2 + i2 = s0) :
    ∃ h2, InsertReady N t2 p2 i2 s0 h2 := by
  have hat := (NodeWF_getNode N p2 t2 _ h true hwf hget hp2).2
  have h0 : h - p2.length = 0 := by
    cases hk : h - p2.length with
    | zero => rfl
    | succ k =>
      rw [hk] at hat
      exact absurd hat (NodeWF_succ_leaf N k false mc2 vs2)
  have hslot := slotReady_of_wf N p2 t2 _ h hwf hget
  rw [h0] at hslot
  refine ⟨h, ?_⟩
  rw [← hs]
  exact insertReady_of_slot N t2 p2 mc2 vs2 _ h i2 hslot hi2 hroom hmc

/-- A non-root internal position with room in a well-formed tree is
split-ready around any of its children. -/
lemma finish_inner {α β : Type} (N : Nat) (t2 : BNode α β) (p2 : List Nat)
    (i2 s0 h : Nat) (pv2 : List (α × β)) (pcs2 : List (BNode α β))
    (Y : BNode α β)
    (hwf : NodeWF N h true t2) (hget : getNode t2 p2 = some (BNode.inner pv2 pcs2))
    (hp2 : p2 ≠ []) (hY : pcs2.get? i2 = some Y) (hi2 : i2 ≤ pv2.length)
    (hroom : pv2.length < N)
    (hs : subtreeStart t2 p2 + subtreeStart (BNode.inner pv2 pcs2) [i2] = s0) :
    ∃ hc h2, SplitReady N t2 p2 i2 Y s0 hc h2 := by
  have hat := (NodeWF_getNode N p2 t2 _ h true hwf hget hp2).2
  obtain ⟨hcx, hk⟩ : ∃ hcx, h - p2.length = hcx + 1 := by
    cases hk : h - p2.length with
    | zero =>
      rw [hk] at hat
      exact absurd hat (NodeWF_zero_inner N false pv2 pcs2)
    | succ k => exact ⟨k, rfl⟩
  rw [hk] at hat
  have hslot := slotReady_of_wf N p2 t2 _ h hwf hget
  rw [hk] at hslot
  refine ⟨hcx, h, ?_⟩
  rw [← hs]
  exact splitReady_of_slot N t2 p2 pv2 pcs2 _ hcx h i2 Y hslot hat hY hi2 hroom

/-- `rebalance_or_split` on a full root: a fresh internal root is created
above it and the old root is split. -/
lemma rebalanceOrSplit_ready_root {α β : Type} (N : Nat) (hN : 3 ≤ N)
    (t : BNode α β) (h ipos : Nat)
    (hwf : NodeWF N h true t)
    (hcount : t.count = N) (hmax : t.maxCountOf N = N) (hipos : ipos ≤ N) :
    toListNode (rebalanceOrSplit N t [] ipos).1 = toListNode t ∧
    ShapeOK (rebalanceOrSplit N t [] ipos).1 ∧
    (t.isLeaf = true →
      ∃ h2, InsertReady N (rebalanceOrSplit N t [] ipos).1
        (rebalanceOrSplit N t [] ipos).2.1 (rebalanceOrSplit N t [] ipos).2.2
        ipos h2) ∧
    (∀ Y, t.childrenOf.get? ipos = some Y →
      ∃ hc h2, SplitReady N (rebalanceOrSplit N t [] ipos).1
        (rebalanceOrSplit N t [] ipos).2.1 (rebalanceOrSplit N t [] ipos).2.2
        Y (subtreeStart t [ipos]) hc h2) := by
  have hROS : rebalanceOrSplit N t [] ipos =
      splitChild N (BNode.inner [] [t]) [] 0 ipos := by
    cases t <;> simp only [rebalanceOrSplit]
  have hshape : ShapeOK (BNode.inner [] [t]) := by
    rw [ShapeOK]
    refine ⟨by simp, ?_⟩
    intro c hc
    have hct : c = t := by simpa using hc
    rw [hct]
    exact NodeWF_shape N h true t hwf
  have htfalse : NodeWF N h false t := by
    cases t with
    | leaf mc vs =>
      match h, hwf with
      | 0, hwf =>
        rw [NodeWF_zero_leaf] at hwf ⊢
        have hmc : mc = N := by simpa [BNode.maxCountOf] using hmax
        exact ⟨hwf.1, hwf.2.1, by simp [hmc]⟩
      | h + 1, hwf => exact absurd hwf (NodeWF_succ_leaf N h true mc vs)
    | inner vs cs => exact NodeWF_b_inner N h true false vs cs hwf
  have hsr : SplitReady N (BNode.inner [] [t]) [] 0 t 0 h (h + 1) := by
    unfold SplitReady
    refine ⟨[], [t], [], [], by rw [getNode_nil], rfl, by simp,
      by simp only [List.length_nil]; omega,
      by simp, htfalse, by rw [toListNode_inner]; simp, rfl, ?_, ?_⟩
    · intro w c1 c2
      simp only [setNode_nil, List.insertIdx_zero, List.set_cons_zero,
        List.insertIdx_succ_cons, toListNode_inner, tlc_cons_cons,
        tlc_cons_nil, List.nil_append, List.append_nil]
    · intro w c1 c2 hc1 hc2
      simp only [setNode_nil, List.insertIdx_zero, List.set_cons_zero,
        List.insertIdx_succ_cons]
      rw [NodeWF_succ_inner]
      refine ⟨by simp, by simp; omega, by simp, ?_⟩
      intro c hc
      rcases List.mem_pair.mp hc with h' | h'
      · subst h'; exact hc1
      · subst h'; exact hc2
  have hpres := splitChild_preserves N (BNode.inner [] [t]) [] 0 ipos hshape
  have htl : toListNode (BNode.inner [] [t]) = toListNode t := by
    rw [toListNode_inner]
    simp
  rw [hROS]
  refine ⟨by rw [hpres.1, htl], hpres.2, ?_, ?_⟩
  · intro hleaf
    cases t with
    | inner vs cs => simp [BNode.isLeaf] at hleaf
    | leaf mc vs =>
      have hfull : vs.length = N := by simpa [BNode.count] using hcount
      have hmc : mc = N := by simpa [BNode.maxCountOf] using hmax
      have := splitChild_ready_leaf N hN (BNode.inner [] [BNode.leaf mc vs])
        [] 0 ipos mc vs 0 h (h + 1) hsr hfull hmc hipos
      exact ⟨h + 1, by simpa using this⟩
  · intro Y hY
    cases t with
    | leaf mc vs => simp [BNode.childrenOf] at hY
    | inner vs cs =>
      have hfull : vs.length = N := by simpa [BNode.count] using hcount
      have hYc : cs.get? ipos = some Y := by simpa [BNode.childrenOf] using hY
      have := splitChild_ready_inner N hN (BNode.inner [] [BNode.inner vs cs])
        [] 0 ipos vs cs 0 h (h + 1) Y hsr hfull hipos hYc
      exact ⟨h - 1, h + 1, by simpa using this⟩

/-- Branch analysis of `rebalance_or_split` below the root: shift left,
shift right, or split (after recursively making room in a full parent). -/
lemma rebalanceOrSplit_eval {α β : Type} (N : Nat) (t : BNode α β)
    (q : Nat) (qs : List Nat) (ipos : Nat)
    (pvals : List (α × β)) (pcs : List (BNode α β)) (X : BNode α β)
    (hP : getNode t ((q :: qs).dropLast) = some (BNode.inner pvals pcs))
    (hXi : pcs.get? ((q :: qs).getLastD 0) = some X) :
    (∃ L m, 0 < (q :: qs).getLastD 0 ∧
      pcs.get? ((q :: qs).getLastD 0 - 1) = some L ∧
      L.count < L.maxCountOf N ∧
      m = max 1 ((L.maxCountOf N - L.count) /
        (1 + (if ipos < L.maxCountOf N then 1 else 0))) ∧
      (ipos ≥ m ∨ L.count + m < L.maxCountOf N) ∧
      ((ipos ≥ m ∧ rebalanceOrSplit N t (q :: qs) ipos =
        (setNode t ((q :: qs).dropLast) (rebalanceRTLAt (BNode.inner pvals pcs)
          ((q :: qs).getLastD 0 - 1) m),
         (q :: qs).dropLast ++ [(q :: qs).getLastD 0], ipos - m)) ∨
       (¬ ipos ≥ m ∧ rebalanceOrSplit N t (q :: qs) ipos =
        (setNode t ((q :: qs).dropLast) (rebalanceRTLAt (BNode.inner pvals pcs)
          ((q :: qs).getLastD 0 - 1) m),
         (q :: qs).dropLast ++ [(q :: qs).getLastD 0 - 1], ipos + L.count + 1)))) ∨
    (∃ R m, (q :: qs).getLastD 0 < pvals.length ∧
      pcs.get? ((q :: qs).getLastD 0 + 1) = some R ∧
      R.count < R.maxCountOf N ∧
      m = max 1 ((R.maxCountOf N - R.count) /
        (1 + (if 0 < ipos then 1 else 0))) ∧
      (ipos + m ≤ X.count ∨ R.count + m < R.maxCountOf N) ∧
      ((¬ ipos > X.count - m ∧ rebalanceOrSplit N t (q :: qs) ipos =
        (setNode t ((q :: qs).dropLast) (rebalanceLTRAt (BNode.inner pvals pcs)
          ((q :: qs).getLastD 0) m),
         (q :: qs).dropLast ++ [(q :: qs).getLastD 0], ipos)) ∨
       (ipos > X.count - m ∧ rebalanceOrSplit N t (q :: qs) ipos =
        (setNode t ((q :: qs).dropLast) (rebalanceLTRAt (BNode.inner pvals pcs)
          ((q :: qs).getLastD 0) m),
         (q :: qs).dropLast ++ [(q :: qs).getLastD 0 + 1],
         ipos - (X.count - m) - 1)))) ∨
    (pvals.length ≠ N ∧ rebalanceOrSplit N t (q :: qs) ipos =
      splitChild N t ((q :: qs).dropLast) ((q :: qs).getLastD 0) ipos) ∨
    (pvals.length = N ∧ ∃ t3 pp3 i3,
      rebalanceOrSplit N t ((q :: qs).dropLast) ((q :: qs).getLastD 0) =
        (t3, pp3, i3) ∧
      rebalanceOrSplit N t (q :: qs) ipos = splitChild N t3 pp3 i3 ipos) := by
  simp only [rebalanceOrSplit, hP, hXi]
  split
  next res hTL =>
    split at hTL
    · rename_i hI0
      split at hTL
      · rename_i left hL
        split at hTL
        · rename_i hLroom
          split at hTL
          · rename_i hdelta
            split at hTL
            · rename_i hcond
              split at hTL
              · rename_i hdir
                injection hTL with hres
                exact Or.inl ⟨left, _, hI0, hL, hLroom, by rw [if_pos hdelta],
                  hcond, Or.inl ⟨hdir, hres.symm⟩⟩
              · rename_i hdir
                injection hTL with hres
                exact Or.inl ⟨left, _, hI0, hL, hLroom, by rw [if_pos hdelta],
                  hcond, Or.inr ⟨hdir, hres.symm⟩⟩
            · simp at hTL
          · rename_i hdelta
            split at hTL
            · rename_i hcond
              split at hTL
              · rename_i hdir
                injection hTL with hres
                exact Or.inl ⟨left, _, hI0, hL, hLroom, by rw [if_neg hdelta],
                  hcond, Or.inl ⟨hdir, hres.symm⟩⟩
              · rename_i hdir
                injection hTL with hres
                exact Or.inl ⟨left, _, hI0, hL, hLroom, by rw [if_neg hdelta],
                  hcond, Or.inr ⟨hdir, hres.symm⟩⟩
            · simp at hTL
        · simp at hTL
      · simp at hTL
    · simp at hTL
  next hTL =>
    clear hTL
    split
    next res hTR =>
      split at hTR
      · rename_i hIlt
        split at hTR
        · rename_i right hR
          split at hTR
          · rename_i hRroom
            split at hTR
            · rename_i hdelta
              split at hTR
              · rename_i hcond
                split at hTR
                · rename_i hdir
                  injection hTR with hres
                  exact Or.inr (Or.inl ⟨right, _, hIlt, hR, hRroom,
                    by rw [if_pos hdelta], hcond, Or.inr ⟨hdir, hres.symm⟩⟩)
                · rename_i hdir
                  injection hTR with hres
                  exact Or.inr (Or.inl ⟨right, _, hIlt, hR, hRroom,
                    by rw [if_pos hdelta], hcond, Or.inl ⟨hdir, hres.symm⟩⟩)
              · simp at hTR
            · rename_i hdelta
              split at hTR
              · rename_i hcond
                split at hTR
                · rename_i hdir
                  injection hTR with hres
                  exact Or.inr (Or.inl ⟨right, _, hIlt, hR, hRroom,
                    by rw [if_neg hdelta], hcond, Or.inr ⟨hdir, hres.symm⟩⟩)
                · rename_i hdir
                  injection hTR with hres
                  exact Or.inr (Or.inl ⟨right, _, hIlt, hR, hRroom,
                    by rw [if_neg hdelta], hcond, Or.inl ⟨hdir, hres.symm⟩⟩)
              · simp at hTR
          · simp at hTR
        · simp at hTR
      · simp at hTR
    next hTR =>
      clear hTR
      by_cases hlen : pvals.length = N
      · rw [if_pos hlen]
        cases hstep : rebalanceOrSplit N t (q :: qs).dropLast ((q :: qs).getLastD 0) with
        | mk t3 r3 =>
          cases r3 with
          | mk pp3 i3 =>
            exact Or.inr (Or.inr (Or.inr ⟨hlen, t3, pp3, i3, rfl, rfl⟩))
      · rw [if_neg hlen]
        exact Or.inr (Or.inr (Or.inl ⟨hlen, rfl⟩))

lemma count_pos_of_wf {α β : Type} (N hx : Nat) (b : Bool) (n : BNode α β)
    (h : NodeWF N hx b n) : 0 < n.count := by
  match hx, n with
  | 0, BNode.leaf mc vs => exact ((NodeWF_zero_leaf N b mc vs).mp h).1
  | hx + 1, BNode.inner vs cs => exact ((NodeWF_succ_inner N hx b vs cs).mp h).1
  | 0, BNode.inner vs cs => exact absurd h (NodeWF_zero_inner N b vs cs)
  | hx + 1, BNode.leaf mc vs => exact absurd h (NodeWF_succ_leaf N hx b mc vs)

lemma count_le_of_wf {α β : Type} (N hx : Nat) (n : BNode α β)
    (h : NodeWF N hx false n) : n.count ≤ N := by
  match hx, n with
  | 0, BNode.leaf mc vs =>
    obtain ⟨h1, h2, h3⟩ := (NodeWF_zero_leaf N false mc vs).mp h
    simp only [if_neg (by simp : ¬ false = true)] at h3
    simp only [BNode.count]
    omega
  | hx + 1, BNode.inner vs cs => exact ((NodeWF_succ_inner N hx false vs cs).mp h).2.1
  | 0, BNode.inner vs cs => exact absurd h (NodeWF_zero_inner N false vs cs)
  | hx + 1, BNode.leaf mc vs => exact absurd h (NodeWF_succ_leaf N hx false mc vs)

set_option maxHeartbeats 1000000 in
lemma ros_ready_left {α β : Type} (N h hcx : Nat) (hN : 3 ≤ N)
    (t : BNode α β) (pp : List Nat) (i ipos : Nat)
    (pvals : List (α × β)) (pcs : List (BNode α β)) (X L : BNode α β)
    (m S : Nat)
    (hwf : NodeWF N h true t)
    (hP : getNode t pp = some (BNode.inner pvals pcs))
    (hk : h - pp.length = hcx + 1)
    (hXi : pcs.get? i = some X)
    (hL : pcs.get? (i - 1) = some L)
    (hI0 : 0 < i)
    (hpclen : pcs.length = pvals.length + 1) (hil : i ≤ pvals.length)
    (hppos : 0 < pvals.length) (hple : pvals.length ≤ N)
    (hpcwf : ∀ c ∈ pcs, NodeWF N hcx false c)
    (hcount : X.count = N) (hipos : ipos ≤ N)
    (hm1 : 1 ≤ m) (hm2 : m ≤ N - L.count) (hLroom : L.count < N)
    (hS : subtreeStart t pp +
      (((pcs.take i).map (fun c => (toListNode c).length)).sum + i) = S) :
    toListNode (setNode t pp
        (rebalanceRTLAt (BNode.inner pvals pcs) (i - 1) m)) = toListNode t ∧
    NodeWF N h true (setNode t pp
        (rebalanceRTLAt (BNode.inner pvals pcs) (i - 1) m)) ∧
    (m ≤ ipos →
      (X.isLeaf = true → ∃ h2, InsertReady N (setNode t pp
          (rebalanceRTLAt (BNode.inner pvals pcs) (i - 1) m))
        (pp ++ [i]) (ipos - m) (S + ipos) h2) ∧
      (∀ Y, X.childrenOf.get? ipos = some Y →
        ∃ hc h2, SplitReady N (setNode t pp
            (rebalanceRTLAt (BNode.inner pvals pcs) (i - 1) m))
          (pp ++ [i]) (ipos - m) Y (S + subtreeStart X [ipos]) hc h2)) ∧
    (ipos < m → L.count + m < N →
      (X.isLeaf = true → ∃ h2, InsertReady N (setNode t pp
          (rebalanceRTLAt (BNode.inner pvals pcs) (i - 1) m))
        (pp ++ [i - 1]) (ipos + L.count + 1) (S + ipos) h2) ∧
      (∀ Y, X.childrenOf.get? ipos = some Y →
        ∃ hc h2, SplitReady N (setNode t pp
            (rebalanceRTLAt (BNode.inner pvals pcs) (i - 1) m))
          (pp ++ [i - 1]) (ipos + L.count + 1) Y
          (S + subtreeStart X [ipos]) hc h2)) := by
  have hXwf : NodeWF N hcx false X := hpcwf X (List.get?_mem hXi)
  have hLwf : NodeWF N hcx false L := hpcwf L (List.get?_mem hL)
  have hLpos : 0 < L.count := count_pos_of_wf N hcx false L hLwf
  have hilt : i < pcs.length := by
    by_contra hcon
    rw [List.get?_eq_none.mpr (by omega)] at hXi
    cases hXi
  have hi1lt : i - 1 < pvals.length := by omega
  cases hd : pvals.get? (i - 1) with
  | none =>
    rw [List.get?_eq_none] at hd
    omega
  | some d0 =>
  have him1 : i - 1 + 1 = i := by omega
  have hXi' : pcs.get? (i - 1 + 1) = some X := by rw [him1]; exact hXi
  obtain ⟨pre2, post2, hp2len, hp2eq, hp2set, _⟩ :=
    tlc_at2 (i - 1) pcs pvals L X d0 hpclen hL hXi' hd
  have hshape : ShapeOK t := NodeWF_shape N h true t hwf
  obtain ⟨preP, postP, hPlen, hPeq, hPset⟩ := setNode_surgery pp t _ hshape hP
  cases hcx with
  | zero =>
    -- both siblings are leaves
    cases L with
    | inner lv lc => exact absurd hLwf (NodeWF_zero_inner N false lv lc)
    | leaf mcL lv =>
    cases X with
    | inner xv xc => exact absurd hXwf (NodeWF_zero_inner N false xv xc)
    | leaf mcX xv =>
    obtain ⟨hlvpos, hlvle, hmcL⟩ := (NodeWF_zero_leaf N false mcL lv).mp hLwf
    obtain ⟨hxvpos, hxvle, hmcX⟩ := (NodeWF_zero_leaf N false mcX xv).mp hXwf
    simp only [if_neg (by simp : ¬ false = true)] at hmcL hmcX
    have hxvN : xv.length = N := by simpa [BNode.count] using hcount
    simp only [BNode.count] at hLpos hm2 hLroom ⊢
    have hnd : xv.get? (m - 1) = some (xv.get ⟨m - 1, by omega⟩) := by
      rw [List.get?_eq_getElem?, List.getElem?_eq_getElem (by omega)]
      rfl
    set nd := xv.get ⟨m - 1, by omega⟩ with hnddef
    set l2 : BNode α β := BNode.leaf mcL (lv ++ d0 :: xv.take (m - 1)) with hl2
    set r2 : BNode α β := BNode.leaf mcX (xv.drop m) with hr2
    have hreb : rebalanceRTLAt (BNode.inner pvals pcs) (i - 1) m =
        BNode.inner (pvals.set (i - 1) nd)
          ((pcs.set (i - 1) l2).set (i - 1 + 1) r2) := by
      simp only [rebalanceRTLAt, hL, hXi', hd, BNode.valsOf, hnd,
        Option.getD_some, hl2, hr2]
    have hxdec : xv = xv.take (m - 1) ++ nd :: xv.drop m := by
      have := list_decomp_at xv (m - 1) nd hnd
      have hm' : m - 1 + 1 = m := by omega
      rw [hm'] at this
      exact this
    have hcont : pre2 ++ toListNode l2 ++ nd :: toListNode r2 ++ post2 =
        pre2 ++ toListNode (BNode.leaf mcL lv) ++ d0 ::
          toListNode (BNode.leaf mcX xv) ++ post2 := by
      rw [hl2, hr2]
      simp only [toListNode]
      conv_rhs => rw [hxdec]
      simp only [List.append_assoc, List.cons_append]
    have hl2len : (toListNode l2).length = lv.length + m := by
      rw [hl2]
      simp only [toListNode, List.length_append, List.length_cons, List.length_take]
      omega
    have hr2len : (toListNode r2).length = N - m := by
      rw [hr2]
      simp only [toListNode, List.length_drop]
      omega
    have hl2wf : NodeWF N 0 false l2 := by
      rw [hl2, NodeWF_zero_leaf]
      refine ⟨by simp, ?_, by simp [hmcL]⟩
      simp only [List.length_append, List.length_cons, List.length_take]
      omega
    have hr2wf : NodeWF N 0 false r2 := by
      rw [hr2, NodeWF_zero_leaf]
      refine ⟨?_, ?_, by simp [hmcX]⟩ <;> rw [List.length_drop] <;> omega
    have hP'wf : NodeWF N (0 + 1) false (BNode.inner (pvals.set (i - 1) nd)
        ((pcs.set (i - 1) l2).set (i - 1 + 1) r2)) := by
      rw [NodeWF_succ_inner]
      refine ⟨by simpa using hppos, by simpa using hple, ?_, ?_⟩
      · simp only [List.length_set]
        omega
      · intro c hc
        rcases List.mem_or_eq_of_mem_set hc with h' | h'
        · rcases List.mem_or_eq_of_mem_set h' with h'' | h''
          · exact hpcwf c h''
          · subst h''
            exact hl2wf
        · subst h'
          exact hr2wf
    have ht2wf : NodeWF N h true (setNode t pp
        (rebalanceRTLAt (BNode.inner pvals pcs) (i - 1) m)) := by
      rw [hreb]
      exact NodeWF_replace N pp t _ _ h hwf hP (by rw [hk]; exact hP'wf)
    have htl2 : toListNode (setNode t pp
        (rebalanceRTLAt (BNode.inner pvals pcs) (i - 1) m)) = toListNode t := by
      rw [hreb, hPset, hPeq, toListNode_inner, toListNode_inner,
        hp2set l2 nd r2, hp2eq, hcont]
    have hgetP' : getNode (setNode t pp
        (rebalanceRTLAt (BNode.inner pvals pcs) (i - 1) m)) pp =
        some (BNode.inner (pvals.set (i - 1) nd)
          ((pcs.set (i - 1) l2).set (i - 1 + 1) r2)) := by
      rw [hreb]
      exact getNode_setNode_self pp t _ _ hP
    have hlen1 : i < ((pcs.set (i - 1) l2)).length := by
      rw [List.length_set]
      omega
    have hne1 : ¬ (i = i - 1) := by omega
    have hlt1 : i - 1 < pcs.length := by omega
    have hcs'i : ((pcs.set (i - 1) l2).set (i - 1 + 1) r2).get? i = some r2 := by
      rw [him1, List.get?_eq_getElem?, List.getElem?_set, if_pos hlen1,
        if_pos rfl]
    have hcs'i1 : ((pcs.set (i - 1) l2).set (i - 1 + 1) r2).get? (i - 1) =
        some l2 := by
      rw [him1, List.get?_eq_getElem?, List.getElem?_set, if_neg hne1,
        List.getElem?_set, if_pos hlt1, if_pos rfl]
    have hsum1 : ((((pcs.set (i - 1) l2).set (i - 1 + 1) r2).take i).map
        (fun c => (toListNode c).length)).sum =
        (((pcs.take (i - 1)).map (fun c => (toListNode c).length)).sum) +
          (lv.length + m) := by
      have h1 := map_take_succ_sum (fun c => (toListNode c).length)
        ((pcs.set (i - 1) l2).set (i - 1 + 1) r2) (i - 1) l2 hcs'i1
      rw [him1] at h1 ⊢
      rw [h1, take_set_ge (pcs.set (i - 1) l2) i (i - 1) r2 (by omega),
        take_set_ge pcs (i - 1) (i - 1) l2 (le_refl _)]
      simp only [hl2len]
    have hsumP : (((pcs.take i).map (fun c => (toListNode c).length)).sum) =
        (((pcs.take (i - 1)).map (fun c => (toListNode c).length)).sum) +
          lv.length := by
      have h1 := map_take_succ_sum (fun c => (toListNode c).length)
        pcs (i - 1) (BNode.leaf mcL lv) hL
      rw [him1] at h1
      rw [h1]
      simp only [toListNode]
    have hst2pp : subtreeStart (setNode t pp
        (rebalanceRTLAt (BNode.inner pvals pcs) (i - 1) m)) pp =
        subtreeStart t pp := by
      rw [hreb]
      exact subtreeStart_setNode pp t _ _ hP
    refine ⟨htl2, ht2wf, ?_, ?_⟩
    · -- B1: stay in the node, now at ipos - m
      intro hdir
      constructor
      · intro _
        have hget2 : getNode (setNode t pp
            (rebalanceRTLAt (BNode.inner pvals pcs) (i - 1) m)) (pp ++ [i]) =
            some r2 := by
          rw [getNode_append, hgetP', Option.some_bind, getNode_inner_cons,
            hcs'i, Option.some_bind, getNode_nil]
        refine finish_leaf N _ (pp ++ [i]) mcX (ipos - m) (S + ipos) h
          (xv.drop m) ht2wf (by rw [hget2, hr2]) (by simp) ?_ hmcX ?_ ?_
        · rw [List.length_drop]
          omega
        · rw [List.length_drop]
          omega
        · rw [subtreeStart_append pp [i] _ _ hgetP', hst2pp,
            subtreeStart_inner_cons, hcs'i, Option.elim_some, subtreeStart_nil,
            hsum1]
          rw [hsumP] at hS
          omega
      · intro Y hY
        simp [BNode.childrenOf] at hY
    · -- B2: move into the left sibling
      intro hdir hroomL
      constructor
      · intro _
        have hget2 : getNode (setNode t pp
            (rebalanceRTLAt (BNode.inner pvals pcs) (i - 1) m)) (pp ++ [i - 1]) =
            some l2 := by
          rw [getNode_append, hgetP', Option.some_bind, getNode_inner_cons,
            hcs'i1, Option.some_bind, getNode_nil]
        refine finish_leaf N _ (pp ++ [i - 1]) mcL (ipos + lv.length + 1)
          (S + ipos) h (lv ++ d0 :: xv.take (m - 1)) ht2wf
          (by rw [hget2, hl2]) (by simp) ?_ hmcL ?_ ?_
        · simp only [List.length_append, List.length_cons, List.length_take]
          omega
        · simp only [List.length_append, List.length_cons, List.length_take]
          omega
        · rw [subtreeStart_append pp [i - 1] _ _ hgetP', hst2pp,
            subtreeStart_inner_cons, hcs'i1, Option.elim_some, subtreeStart_nil,
            take_set_ge (pcs.set (i - 1) l2) (i - 1 + 1) (i - 1) r2 (by omega),
            take_set_ge pcs (i - 1) (i - 1) l2 (le_refl _)]
          rw [hsumP] at hS
          omega
      · intro Y hY
        simp [BNode.childrenOf] at hY
  | succ hcy =>
    -- both siblings are internal nodes
    cases L with
    | leaf mcL lvx => exact absurd hLwf (NodeWF_succ_leaf N hcy false mcL lvx)
    | inner lv lc =>
    cases X with
    | leaf mcX xvx => exact absurd hXwf (NodeWF_succ_leaf N hcy false mcX xvx)
    | inner xv xc =>
    obtain ⟨hlvpos, hlvle, hlclen, hlcwf⟩ :=
      (NodeWF_succ_inner N hcy false lv lc).mp hLwf
    obtain ⟨hxvpos, hxvle, hxclen, hxcwf⟩ :=
      (NodeWF_succ_inner N hcy false xv xc).mp hXwf
    have hxvN : xv.length = N := by simpa [BNode.count] using hcount
    simp only [BNode.count] at hLpos hm2 hLroom ⊢
    have hnd : xv.get? (m - 1) = some (xv.get ⟨m - 1, by omega⟩) := by
      rw [List.get?_eq_getElem?, List.getElem?_eq_getElem (by omega)]
      rfl
    set nd := xv.get ⟨m - 1, by omega⟩ with hnddef
    set l2 : BNode α β := BNode.inner (lv ++ d0 :: xv.take (m - 1))
      (lc ++ xc.take m) with hl2
    set r2 : BNode α β := BNode.inner (xv.drop m) (xc.drop m) with hr2
    have hreb : rebalanceRTLAt (BNode.inner pvals pcs) (i - 1) m =
        BNode.inner (pvals.set (i - 1) nd)
          ((pcs.set (i - 1) l2).set (i - 1 + 1) r2) := by
      simp only [rebalanceRTLAt, hL, hXi', hd, BNode.valsOf, hnd,
        Option.getD_some, hl2, hr2]
    have hm' : m - 1 + 1 = m := by omega
    have hXtl : toListNode.toListChildren xc xv =
        toListNode.toListChildren (xc.take m) (xv.take (m - 1)) ++ nd ::
          toListNode.toListChildren (xc.drop m) (xv.drop m) := by
      have hsp := tlc_split xc xv (m - 1) nd hxclen hnd
      rw [hm'] at hsp
      exact hsp
    have hcont : pre2 ++ toListNode l2 ++ nd :: toListNode r2 ++ post2 =
        pre2 ++ toListNode (BNode.inner lv lc) ++ d0 ::
          toListNode (BNode.inner xv xc) ++ post2 := by
      rw [hl2, hr2, toListNode_inner, toListNode_inner, toListNode_inner,
        toListNode_inner, tlc_append lc lv (xc.take m) (xv.take (m - 1)) d0
          hlclen, hXtl]
      simp only [List.append_assoc, List.cons_append]
    have htkmlen : (xc.take m).length = m := by
      rw [List.length_take]
      omega
    have hl2len : (toListNode l2).length =
        ((lc.map (fun c => (toListNode c).length)).sum +
          ((xc.take m).map (fun c => (toListNode c).length)).sum) +
          (lv.length + m) := by
      rw [hl2, toListNode_inner, tlc_length _ _ (by
        simp only [List.length_append, List.length_cons, List.length_take,
          htkmlen]
        omega)]
      simp only [List.map_append, List.sum_append, List.length_append,
        List.length_cons, List.length_take]
      omega
    have hLlen : (toListNode (BNode.inner lv lc)).length =
        (lc.map (fun c => (toListNode c).length)).sum + lv.length := by
      rw [toListNode_inner, tlc_length _ _ hlclen]
    have hl2wf : NodeWF N (hcy + 1) false l2 := by
      rw [hl2, NodeWF_succ_inner]
      refine ⟨by simp, ?_, ?_, ?_⟩
      · simp only [List.length_append, List.length_cons, List.length_take]
        omega
      · simp only [List.length_append, List.length_cons, List.length_take,
          htkmlen]
        omega
      · intro c hc
        rcases List.mem_append.mp hc with h' | h'
        · exact hlcwf c h'
        · exact hxcwf c (List.take_subset _ _ h')
    have hr2wf : NodeWF N (hcy + 1) false r2 := by
      rw [hr2, NodeWF_succ_inner]
      refine ⟨?_, ?_, ?_, ?_⟩
      · rw [List.length_drop]
        omega
      · rw [List.length_drop]
        omega
      · rw [List.length_drop, List.length_drop]
        omega
      · intro c hc
        exact hxcwf c (List.drop_subset _ _ hc)
    have hP'wf : NodeWF N (hcy + 1 + 1) false (BNode.inner (pvals.set (i - 1) nd)
        ((pcs.set (i - 1) l2).set (i - 1 + 1) r2)) := by
      rw [NodeWF_succ_inner]
      refine ⟨by simpa using hppos, by simpa using hple, ?_, ?_⟩
      · simp only [List.length_set]
        omega
      · intro c hc
        rcases List.mem_or_eq_of_mem_set hc with h' | h'
        · rcases List.mem_or_eq_of_mem_set h' with h'' | h''
          · exact hpcwf c h''
          · subst h''
            exact hl2wf
        · subst h'
          exact hr2wf
    have ht2wf : NodeWF N h true (setNode t pp
        (rebalanceRTLAt (BNode.inner pvals pcs) (i - 1) m)) := by
      rw [hreb]
      exact NodeWF_replace N pp t _ _ h hwf hP (by rw [hk]; exact hP'wf)
    have htl2 : toListNode (setNode t pp
        (rebalanceRTLAt (BNode.inner pvals pcs) (i - 1) m)) = toListNode t := by
      rw [hreb, hPset, hPeq, toListNode_inner, toListNode_inner,
        hp2set l2 nd r2, hp2eq, hcont]
    have hgetP' : getNode (setNode t pp
        (rebalanceRTLAt (BNode.inner pvals pcs) (i - 1) m)) pp =
        some (BNode.inner (pvals.set (i - 1) nd)
          ((pcs.set (i - 1) l2).set (i - 1 + 1) r2)) := by
      rw [hreb]
      exact getNode_setNode_self pp t _ _ hP
    have hlen1 : i < ((pcs.set (i - 1) l2)).length := by
      rw [List.length_set]
      omega
    have hne1 : ¬ (i = i - 1) := by omega
    have hlt1 : i - 1 < pcs.length := by omega
    have hcs'i : ((pcs.set (i - 1) l2).set (i - 1 + 1) r2).get? i = some r2 := by
      rw [him1, List.get?_eq_getElem?, List.getElem?_set, if_pos hlen1,
        if_pos rfl]
    have hcs'i1 : ((pcs.set (i - 1) l2).set (i - 1 + 1) r2).get? (i - 1) =
        some l2 := by
      rw [him1, List.get?_eq_getElem?, List.getElem?_set, if_neg hne1,
        List.getElem?_set, if_pos hlt1, if_pos rfl]
    have hsum1 : ((((pcs.set (i - 1) l2).set (i - 1 + 1) r2).take i).map
        (fun c => (toListNode c).length)).sum =
        (((pcs.take (i - 1)).map (fun c => (toListNode c).length)).sum) +
          (toListNode l2).length := by
      have h1 := map_take_succ_sum (fun c => (toListNode c).length)
        ((pcs.set (i - 1) l2).set (i - 1 + 1) r2) (i - 1) l2 hcs'i1
      rw [him1] at h1 ⊢
      rw [h1, take_set_ge (pcs.set (i - 1) l2) i (i - 1) r2 (by omega),
        take_set_ge pcs (i - 1) (i - 1) l2 (le_refl _)]
    have hsumP : (((pcs.take i).map (fun c => (toListNode c).length)).sum) =
        (((pcs.take (i - 1)).map (fun c => (toListNode c).length)).sum) +
          (toListNode (BNode.inner lv lc)).length := by
      have h1 := map_take_succ_sum (fun c => (toListNode c).length)
        pcs (i - 1) (BNode.inner lv lc) hL
      rw [him1] at h1
      rw [h1]
    have hst2pp : subtreeStart (setNode t pp
        (rebalanceRTLAt (BNode.inner pvals pcs) (i - 1) m)) pp =
        subtreeStart t pp := by
      rw [hreb]
      exact subtreeStart_setNode pp t _ _ hP
    refine ⟨htl2, ht2wf, ?_, ?_⟩
    · -- B1: stay in the node, now at child ipos - m
      intro hdir
      constructor
      · intro habs
        simp [BNode.isLeaf] at habs
      · intro Y hY
        simp only [BNode.childrenOf] at hY
        have hYlt : ipos < xc.length := by
          by_contra hcon
          rw [List.get?_eq_none.mpr (by omega)] at hY
          cases hY
        have hYdrop : (xc.drop m).get? (ipos - m) = some Y := by
          rw [List.get?_drop]
          have hmm : m + (ipos - m) = ipos := by omega
          rw [hmm]
          exact hY
        have hget2 : getNode (setNode t pp
            (rebalanceRTLAt (BNode.inner pvals pcs) (i - 1) m)) (pp ++ [i]) =
            some r2 := by
          rw [getNode_append, hgetP', Option.some_bind, getNode_inner_cons,
            hcs'i, Option.some_bind, getNode_nil]
        have hip : ipos = m + (ipos - m) := by omega
        have htk : xc.take ipos = xc.take m ++ (xc.drop m).take (ipos - m) := by
          conv_lhs => rw [hip, List.take_add]
        refine finish_inner N _ (pp ++ [i]) (ipos - m)
          (S + subtreeStart (BNode.inner xv xc) [ipos]) h
          (xv.drop m) (xc.drop m) Y ht2wf (by rw [hget2, hr2]) (by simp)
          hYdrop ?_ ?_ ?_
        · rw [List.length_drop]
          omega
        · rw [List.length_drop]
          omega
        · rw [subtreeStart_append pp [i] _ _ hgetP', hst2pp,
            subtreeStart_inner_cons, hcs'i, Option.elim_some, subtreeStart_nil,
            hsum1, hl2len]
          rw [subtreeStart_inner_cons, hYdrop, Option.elim_some, subtreeStart_nil]
          rw [subtreeStart_inner_cons, hY, Option.elim_some, subtreeStart_nil]
          rw [htk, List.map_append, List.sum_append]
          rw [hsumP, hLlen] at hS
          omega
    · -- B2: move into the left sibling, after its old content
      intro hdir hroomL
      constructor
      · intro habs
        simp [BNode.isLeaf] at habs
      · intro Y hY
        simp only [BNode.childrenOf] at hY
        have hYlt : ipos < xc.length := by
          by_contra hcon
          rw [List.get?_eq_none.mpr (by omega)] at hY
          cases hY
        have hlclen' : lc.length = lv.length + 1 := hlclen
        have hYl2 : (lc ++ xc.take m).get? (ipos + lv.length + 1) = some Y := by
          rw [List.get?_append_right (by omega)]
          have hmm : ipos + lv.length + 1 - lc.length = ipos := by omega
          rw [hmm, List.get?_take (by omega)]
          exact hY
        have hget2 : getNode (setNode t pp
            (rebalanceRTLAt (BNode.inner pvals pcs) (i - 1) m)) (pp ++ [i - 1]) =
            some l2 := by
          rw [getNode_append, hgetP', Option.some_bind, getNode_inner_cons,
            hcs'i1, Option.some_bind, getNode_nil]
        have hi2 : ipos + lv.length + 1 = lc.length + ipos := by omega
        have htk2 : (lc ++ xc.take m).take (ipos + lv.length + 1) =
            lc ++ xc.take ipos := by
          rw [hi2]
          rw [List.take_add, List.take_left, List.drop_left, List.take_take,
            min_eq_left (by omega)]
        refine finish_inner N _ (pp ++ [i - 1]) (ipos + lv.length + 1)
          (S + subtreeStart (BNode.inner xv xc) [ipos]) h
          (lv ++ d0 :: xv.take (m - 1)) (lc ++ xc.take m) Y ht2wf
          (by rw [hget2, hl2]) (by simp) hYl2 ?_ ?_ ?_
        · simp only [List.length_append, List.length_cons, List.length_take]
          omega
        · simp only [List.length_append, List.length_cons, List.length_take]
          omega
        · rw [subtreeStart_append pp [i - 1] _ _ hgetP', hst2pp,
            subtreeStart_inner_cons, hcs'i1, Option.elim_some, subtreeStart_nil,
            take_set_ge (pcs.set (i - 1) l2) (i - 1 + 1) (i - 1) r2 (by omega),
            take_set_ge pcs (i - 1) (i - 1) l2 (le_refl _)]
          rw [subtreeStart_inner_cons, hYl2, Option.elim_some, subtreeStart_nil]
          rw [subtreeStart_inner_cons, hY, Option.elim_some, subtreeStart_nil]
          rw [htk2, List.map_append, List.sum_append]
          rw [hsumP, hLlen] at hS
          omega

set_option maxHeartbeats 1000000 in
lemma ros_ready_right {α β : Type} (N h hcx : Nat) (hN : 3 ≤ N)
    (t : BNode α β) (pp : List Nat) (i ipos : Nat)
    (pvals : List (α × β)) (pcs : List (BNode α β)) (X R : BNode α β)
    (m S : Nat)
    (hwf : NodeWF N h true t)
    (hP : getNode t pp = some (BNode.inner pvals pcs))
    (hk : h - pp.length = hcx + 1)
    (hXi : pcs.get? i = some X)
    (hR : pcs.get? (i + 1) = some R)
    (hIlt : i < pvals.length)
    (hpclen : pcs.length = pvals.length + 1)
    (hppos : 0 < pvals.length) (hple : pvals.length ≤ N)
    (hpcwf : ∀ c ∈ pcs, NodeWF N hcx false c)
    (hcount : X.count = N) (hipos : ipos ≤ N)
    (hm1 : 1 ≤ m) (hm2 : m ≤ N - R.count) (hRroom : R.count < N)
    (hS : subtreeStart t pp +
      (((pcs.take i).map (fun c => (toListNode c).length)).sum + i) = S) :
    toListNode (setNode t pp
        (rebalanceLTRAt (BNode.inner pvals pcs) i m)) = toListNode t ∧
    NodeWF N h true (setNode t pp
        (rebalanceLTRAt (BNode.inner pvals pcs) i m)) ∧
    (ipos ≤ X.count - m →
      (X.isLeaf = true → ∃ h2, InsertReady N (setNode t pp
          (rebalanceLTRAt (BNode.inner pvals pcs) i m))
        (pp ++ [i]) ipos (S + ipos) h2) ∧
      (∀ Y, X.childrenOf.get? ipos = some Y →
        ∃ hc h2, SplitReady N (setNode t pp
            (rebalanceLTRAt (BNode.inner pvals pcs) i m))
          (pp ++ [i]) ipos Y (S + subtreeStart X [ipos]) hc h2)) ∧
    (X.count - m < ipos → R.count + m < N →
      (X.isLeaf = true → ∃ h2, InsertReady N (setNode t pp
          (rebalanceLTRAt (BNode.inner pvals pcs) i m))
        (pp ++ [i + 1]) (ipos - (X.count - m) - 1) (S + ipos) h2) ∧
      (∀ Y, X.childrenOf.get? ipos = some Y →
        ∃ hc h2, SplitReady N (setNode t pp
            (rebalanceLTRAt (BNode.inner pvals pcs) i m))
          (pp ++ [i + 1]) (ipos - (X.count - m) - 1) Y
          (S + subtreeStart X [ipos]) hc h2)) := by
  have hXwf : NodeWF N hcx false X := hpcwf X (List.get?_mem hXi)
  have hRwf : NodeWF N hcx false R := hpcwf R (List.get?_mem hR)
  have hRpos : 0 < R.count := count_pos_of_wf N hcx false R hRwf
  have hilt : i < pcs.length := by omega
  have hi1lt : i + 1 < pcs.length := by omega
  cases hd : pvals.get? i with
  | none =>
    rw [List.get?_eq_none] at hd
    omega
  | some dR =>
  obtain ⟨pre2, post2, hp2len, hp2eq, hp2set, _⟩ :=
    tlc_at2 i pcs pvals X R dR hpclen hXi hR hd
  have hshape : ShapeOK t := NodeWF_shape N h true t hwf
  obtain ⟨preP, postP, hPlen, hPeq, hPset⟩ := setNode_surgery pp t _ hshape hP
  cases hcx with
  | zero =>
    -- both siblings are leaves
    cases X with
    | inner xvx xcx => exact absurd hXwf (NodeWF_zero_inner N false xvx xcx)
    | leaf mcX xv =>
    cases R with
    | inner rvx rcx => exact absurd hRwf (NodeWF_zero_inner N false rvx rcx)
    | leaf mcR rv =>
    obtain ⟨hxvpos, hxvle, hmcX⟩ := (NodeWF_zero_leaf N false mcX xv).mp hXwf
    obtain ⟨hrvpos, hrvle, hmcR⟩ := (NodeWF_zero_leaf N false mcR rv).mp hRwf
    simp only [if_neg (by simp : ¬ false = true)] at hmcX hmcR
    have hxvN : xv.length = N := by simpa [BNode.count] using hcount
    simp only [BNode.count] at hRpos hm2 hRroom ⊢
    have hndr : xv.get? (xv.length - m) = some (xv.get ⟨xv.length - m, by omega⟩) := by
      rw [List.get?_eq_getElem?, List.getElem?_eq_getElem (by omega)]
      rfl
    set ndr := xv.get ⟨xv.length - m, by omega⟩ with hndrdef
    set l2 : BNode α β := BNode.leaf mcX (xv.take (xv.length - m)) with hl2
    set r2 : BNode α β := BNode.leaf mcR (xv.drop (xv.length - m + 1) ++ dR :: rv)
      with hr2
    have hreb : rebalanceLTRAt (BNode.inner pvals pcs) i m =
        BNode.inner (pvals.set i ndr) ((pcs.set i l2).set (i + 1) r2) := by
      simp only [rebalanceLTRAt, hXi, hR, hd, BNode.count, BNode.valsOf, hndr,
        Option.getD_some, hl2, hr2]
    have hxdec : xv = xv.take (xv.length - m) ++ ndr ::
        xv.drop (xv.length - m + 1) := by
      have hdec := list_decomp_at xv (xv.length - m) ndr hndr
      exact hdec
    have hcont : pre2 ++ toListNode l2 ++ ndr :: toListNode r2 ++ post2 =
        pre2 ++ toListNode (BNode.leaf mcX xv) ++ dR ::
          toListNode (BNode.leaf mcR rv) ++ post2 := by
      rw [hl2, hr2]
      simp only [toListNode]
      conv_rhs => rw [hxdec]
      simp only [List.append_assoc, List.cons_append]
    have hl2len : (toListNode l2).length = xv.length - m := by
      rw [hl2]
      simp only [toListNode, List.length_take]
      omega
    have hl2wf : NodeWF N 0 false l2 := by
      rw [hl2, NodeWF_zero_leaf]
      refine ⟨?_, ?_, by simp [hmcX]⟩ <;> rw [List.length_take] <;> omega
    have hr2wf : NodeWF N 0 false r2 := by
      rw [hr2, NodeWF_zero_leaf]
      refine ⟨by simp, ?_, by simp [hmcR]⟩
      simp only [List.length_append, List.length_cons, List.length_drop]
      omega
    have hP'wf : NodeWF N (0 + 1) false (BNode.inner (pvals.set i ndr)
        ((pcs.set i l2).set (i + 1) r2)) := by
      rw [NodeWF_succ_inner]
      refine ⟨by simpa using hppos, by simpa using hple, ?_, ?_⟩
      · simp only [List.length_set]
        omega
      · intro c hc
        rcases List.mem_or_eq_of_mem_set hc with h' | h'
        · rcases List.mem_or_eq_of_mem_set h' with h'' | h''
          · exact hpcwf c h''
          · subst h''
            exact hl2wf
        · subst h'
          exact hr2wf
    have ht2wf : NodeWF N h true (setNode t pp
        (rebalanceLTRAt (BNode.inner pvals pcs) i m)) := by
      rw [hreb]
      exact NodeWF_replace N pp t _ _ h hwf hP (by rw [hk]; exact hP'wf)
    have htl2 : toListNode (setNode t pp
        (rebalanceLTRAt (BNode.inner pvals pcs) i m)) = toListNode t := by
      rw [hreb, hPset, hPeq, toListNode_inner, toListNode_inner,
        hp2set l2 ndr r2, hp2eq, hcont]
    have hgetP' : getNode (setNode t pp
        (rebalanceLTRAt (BNode.inner pvals pcs) i m)) pp =
        some (BNode.inner (pvals.set i ndr)
          ((pcs.set i l2).set (i + 1) r2)) := by
      rw [hreb]
      exact getNode_setNode_self pp t _ _ hP
    have hlen1 : i + 1 < ((pcs.set i l2)).length := by
      rw [List.length_set]
      omega
    have hne1 : ¬ (i + 1 = i) := by omega
    have hcs'i : ((pcs.set i l2).set (i + 1) r2).get? i = some l2 := by
      rw [List.get?_eq_getElem?, List.getElem?_set, if_neg hne1,
        List.getElem?_set, if_pos hilt, if_pos rfl]
    have hcs'i1 : ((pcs.set i l2).set (i + 1) r2).get? (i + 1) = some r2 := by
      rw [List.get?_eq_getElem?, List.getElem?_set, if_pos hlen1, if_pos rfl]
    have hsum0 : ((((pcs.set i l2).set (i + 1) r2).take i).map
        (fun c => (toListNode c).length)).sum =
        (((pcs.take i).map (fun c => (toListNode c).length)).sum) := by
      rw [take_set_ge (pcs.set i l2) (i + 1) i r2 (by omega),
        take_set_ge pcs i i l2 (le_refl _)]
    have hsum1 : ((((pcs.set i l2).set (i + 1) r2).take (i + 1)).map
        (fun c => (toListNode c).length)).sum =
        (((pcs.take i).map (fun c => (toListNode c).length)).sum) +
          (xv.length - m) := by
      have h1 := map_take_succ_sum (fun c => (toListNode c).length)
        ((pcs.set i l2).set (i + 1) r2) i l2 hcs'i
      rw [h1, hsum0]
      simp only [hl2len]
    have hst2pp : subtreeStart (setNode t pp
        (rebalanceLTRAt (BNode.inner pvals pcs) i m)) pp =
        subtreeStart t pp := by
      rw [hreb]
      exact subtreeStart_setNode pp t _ _ hP
    refine ⟨htl2, ht2wf, ?_, ?_⟩
    · -- C1: stay in the node
      intro hdir
      constructor
      · intro _
        have hget2 : getNode (setNode t pp
            (rebalanceLTRAt (BNode.inner pvals pcs) i m)) (pp ++ [i]) =
            some l2 := by
          rw [getNode_append, hgetP', Option.some_bind, getNode_inner_cons,
            hcs'i, Option.some_bind, getNode_nil]
        refine finish_leaf N _ (pp ++ [i]) mcX ipos (S + ipos) h
          (xv.take (xv.length - m)) ht2wf (by rw [hget2, hl2]) (by simp)
          ?_ hmcX ?_ ?_
        · rw [List.length_take]
          omega
        · rw [List.length_take]
          omega
        · rw [subtreeStart_append pp [i] _ _ hgetP', hst2pp,
            subtreeStart_inner_cons, hcs'i, Option.elim_some, subtreeStart_nil,
            hsum0]
          omega
      · intro Y hY
        simp [BNode.childrenOf] at hY
    · -- C2: move into the right sibling
      intro hdir hroomR
      constructor
      · intro _
        have hget2 : getNode (setNode t pp
            (rebalanceLTRAt (BNode.inner pvals pcs) i m)) (pp ++ [i + 1]) =
            some r2 := by
          rw [getNode_append, hgetP', Option.some_bind, getNode_inner_cons,
            hcs'i1, Option.some_bind, getNode_nil]
        refine finish_leaf N _ (pp ++ [i + 1]) mcR
          (ipos - (xv.length - m) - 1) (S + ipos) h
          (xv.drop (xv.length - m + 1) ++ dR :: rv) ht2wf
          (by rw [hget2, hr2]) (by simp) ?_ hmcR ?_ ?_
        · simp only [List.length_append, List.length_cons, List.length_drop]
          omega
        · simp only [List.length_append, List.length_cons, List.length_drop]
          omega
        · rw [subtreeStart_append pp [i + 1] _ _ hgetP', hst2pp,
            subtreeStart_inner_cons, hcs'i1, Option.elim_some, subtreeStart_nil,
            hsum1]
          omega
      · intro Y hY
        simp [BNode.childrenOf] at hY
  | succ hcy =>
    -- both siblings are internal nodes
    cases X with
    | leaf mcX xvx => exact absurd hXwf (NodeWF_succ_leaf N hcy false mcX xvx)
    | inner xv xc =>
    cases R with
    | leaf mcR rvx => exact absurd hRwf (NodeWF_succ_leaf N hcy false mcR rvx)
    | inner rv rc =>
    obtain ⟨hxvpos, hxvle, hxclen, hxcwf⟩ :=
      (NodeWF_succ_inner N hcy false xv xc).mp hXwf
    obtain ⟨hrvpos, hrvle, hrclen, hrcwf⟩ :=
      (NodeWF_succ_inner N hcy false rv rc).mp hRwf
    have hxvN : xv.length = N := by simpa [BNode.count] using hcount
    simp only [BNode.count] at hRpos hm2 hRroom ⊢
    have hndr : xv.get? (xv.length - m) = some (xv.get ⟨xv.length - m, by omega⟩) := by
      rw [List.get?_eq_getElem?, List.getElem?_eq_getElem (by omega)]
      rfl
    set ndr := xv.get ⟨xv.length - m, by omega⟩ with hndrdef
    set l2 : BNode α β := BNode.inner (xv.take (xv.length - m))
      (xc.take (xv.length - m + 1)) with hl2
    set r2 : BNode α β := BNode.inner (xv.drop (xv.length - m + 1) ++ dR :: rv)
      (xc.drop (xv.length - m + 1) ++ rc) with hr2
    have hreb : rebalanceLTRAt (BNode.inner pvals pcs) i m =
        BNode.inner (pvals.set i ndr) ((pcs.set i l2).set (i + 1) r2) := by
      simp only [rebalanceLTRAt, hXi, hR, hd, BNode.count, BNode.valsOf, hndr,
        Option.getD_some, hl2, hr2]
    have hXtl : toListNode.toListChildren xc xv =
        toListNode.toListChildren (xc.take (xv.length - m + 1))
          (xv.take (xv.length - m)) ++ ndr ::
          toListNode.toListChildren (xc.drop (xv.length - m + 1))
            (xv.drop (xv.length - m + 1)) := by
      exact tlc_split xc xv (xv.length - m) ndr hxclen hndr
    have hr2tl : toListNode r2 =
        toListNode.toListChildren (xc.drop (xv.length - m + 1))
          (xv.drop (xv.length - m + 1)) ++ dR ::
          toListNode.toListChildren rc rv := by
      rw [hr2, toListNode_inner, tlc_append _ _ rc rv dR (by
        rw [List.length_drop, List.length_drop]
        omega)]
    have hcont : pre2 ++ toListNode l2 ++ ndr :: toListNode r2 ++ post2 =
        pre2 ++ toListNode (BNode.inner xv xc) ++ dR ::
          toListNode (BNode.inner rv rc) ++ post2 := by
      rw [hl2, hr2tl, toListNode_inner, toListNode_inner, toListNode_inner,
        hXtl]
      simp only [List.append_assoc, List.cons_append]
    have htklen : (xc.take (xv.length - m + 1)).length = xv.length - m + 1 := by
      rw [List.length_take]
      omega
    have hl2len : (toListNode l2).length =
        ((xc.take (xv.length - m + 1)).map (fun c => (toListNode c).length)).sum +
          (xv.length - m) := by
      rw [hl2, toListNode_inner, tlc_length _ _ (by
        rw [htklen, List.length_take]
        omega)]
      rw [List.length_take]
      omega
    have hl2wf : NodeWF N (hcy + 1) false l2 := by
      rw [hl2, NodeWF_succ_inner]
      refine ⟨?_, ?_, ?_, ?_⟩
      · rw [List.length_take]
        omega
      · rw [List.length_take]
        omega
      · rw [htklen, List.length_take]
        omega
      · intro c hc
        exact hxcwf c (List.take_subset _ _ hc)
    have hr2wf : NodeWF N (hcy + 1) false r2 := by
      rw [hr2, NodeWF_succ_inner]
      refine ⟨by simp, ?_, ?_, ?_⟩
      · simp only [List.length_append, List.length_cons, List.length_drop]
        omega
      · simp only [List.length_append, List.length_cons, List.length_drop]
        omega
      · intro c hc
        rcases List.mem_append.mp hc with h' | h'
        · exact hxcwf c (List.drop_subset _ _ h')
        · exact hrcwf c h'
    have hP'wf : NodeWF N (hcy + 1 + 1) false (BNode.inner (pvals.set i ndr)
        ((pcs.set i l2).set (i + 1) r2)) := by
      rw [NodeWF_succ_inner]
      refine ⟨by simpa using hppos, by simpa using hple, ?_, ?_⟩
      · simp only [List.length_set]
        omega
      · intro c hc
        rcases List.mem_or_eq_of_mem_set hc with h' | h'
        · rcases List.mem_or_eq_of_mem_set h' with h'' | h''
          · exact hpcwf c h''
          · subst h''
            exact hl2wf
        · subst h'
          exact hr2wf
    have ht2wf : NodeWF N h true (setNode t pp
        (rebalanceLTRAt (BNode.inner pvals pcs) i m)) := by
      rw [hreb]
      exact NodeWF_replace N pp t _ _ h hwf hP (by rw [hk]; exact hP'wf)
    have htl2 : toListNode (setNode t pp
        (rebalanceLTRAt (BNode.inner pvals pcs) i m)) = toListNode t := by
      rw [hreb, hPset, hPeq, toListNode_inner, toListNode_inner,
        hp2set l2 ndr r2, hp2eq, hcont]
    have hgetP' : getNode (setNode t pp
        (rebalanceLTRAt (BNode.inner pvals pcs) i m)) pp =
        some (BNode.inner (pvals.set i ndr)
          ((pcs.set i l2).set (i + 1) r2)) := by
      rw [hreb]
      exact getNode_setNode_self pp t _ _ hP
    have hlen1 : i + 1 < ((pcs.set i l2)).length := by
      rw [List.length_set]
      omega
    have hne1 : ¬ (i + 1 = i) := by omega
    have hcs'i : ((pcs.set i l2).set (i + 1) r2).get? i = some l2 := by
      rw [List.get?_eq_getElem?, List.getElem?_set, if_neg hne1,
        List.getElem?_set, if_pos hilt, if_pos rfl]
    have hcs'i1 : ((pcs.set i l2).set (i + 1) r2).get? (i + 1) = some r2 := by
      rw [List.get?_eq_getElem?, List.getElem?_set, if_pos hlen1, if_pos rfl]
    have hsum0 : ((((pcs.set i l2).set (i + 1) r2).take i).map
        (fun c => (toListNode c).length)).sum =
        (((pcs.take i).map (fun c => (toListNode c).length)).sum) := by
      rw [take_set_ge (pcs.set i l2) (i + 1) i r2 (by omega),
        take_set_ge pcs i i l2 (le_refl _)]
    have hsum1 : ((((pcs.set i l2).set (i + 1) r2).take (i + 1)).map
        (fun c => (toListNode c).length)).sum =
        (((pcs.take i).map (fun c => (toListNode c).length)).sum) +
          (toListNode l2).length := by
      have h1 := map_take_succ_sum (fun c => (toListNode c).length)
        ((pcs.set i l2).set (i + 1) r2) i l2 hcs'i
      rw [h1, hsum0]
    have hst2pp : subtreeStart (setNode t pp
        (rebalanceLTRAt (BNode.inner pvals pcs) i m)) pp =
        subtreeStart t pp := by
      rw [hreb]
      exact subtreeStart_setNode pp t _ _ hP
    refine ⟨htl2, ht2wf, ?_, ?_⟩
    · -- C1: stay in the node
      intro hdir
      constructor
      · intro habs
        simp [BNode.isLeaf] at habs
      · intro Y hY
        simp only [BNode.childrenOf] at hY
        have hYlt : ipos < xc.length := by
          by_contra hcon
          rw [List.get?_eq_none.mpr (by omega)] at hY
          cases hY
        have hYtake : (xc.take (xv.length - m + 1)).get? ipos = some Y := by
          rw [List.get?_take (by omega)]
          exact hY
        have hget2 : getNode (setNode t pp
            (rebalanceLTRAt (BNode.inner pvals pcs) i m)) (pp ++ [i]) =
            some l2 := by
          rw [getNode_append, hgetP', Option.some_bind, getNode_inner_cons,
            hcs'i, Option.some_bind, getNode_nil]
        refine finish_inner N _ (pp ++ [i]) ipos
          (S + subtreeStart (BNode.inner xv xc) [ipos]) h
          (xv.take (xv.length - m)) (xc.take (xv.length - m + 1)) Y ht2wf
          (by rw [hget2, hl2]) (by simp) hYtake ?_ ?_ ?_
        · rw [List.length_take]
          omega
        · rw [List.length_take]
          omega
        · rw [subtreeStart_append pp [i] _ _ hgetP', hst2pp,
            subtreeStart_inner_cons, hcs'i, Option.elim_some, subtreeStart_nil,
            hsum0]
          rw [subtreeStart_inner_cons, hYtake, Option.elim_some, subtreeStart_nil]
          rw [subtreeStart_inner_cons, hY, Option.elim_some, subtreeStart_nil]
          rw [List.take_take, min_eq_left (by omega)]
          omega
    · -- C2: move into the right sibling
      intro hdir hroomR
      constructor
      · intro habs
        simp [BNode.isLeaf] at habs
      · intro Y hY
        simp only [BNode.childrenOf] at hY
        have hYlt : ipos < xc.length := by
          by_contra hcon
          rw [List.get?_eq_none.mpr (by omega)] at hY
          cases hY
        have hdroplen : (xc.drop (xv.length - m + 1)).length = m := by
          rw [List.length_drop]
          omega
        have hYr2 : ((xc.drop (xv.length - m + 1)) ++ rc).get?
            (ipos - (xv.length - m) - 1) = some Y := by
          rw [List.get?_append (by rw [hdroplen]; omega), List.get?_drop]
          have hmm : xv.length - m + 1 + (ipos - (xv.length - m) - 1) = ipos := by
            omega
          rw [hmm]
          exact hY
        have hget2 : getNode (setNode t pp
            (rebalanceLTRAt (BNode.inner pvals pcs) i m)) (pp ++ [i + 1]) =
            some r2 := by
          rw [getNode_append, hgetP', Option.some_bind, getNode_inner_cons,
            hcs'i1, Option.some_bind, getNode_nil]
        have hip : ipos = (xv.length - m + 1) + (ipos - (xv.length - m) - 1) := by
          omega
        have htk : xc.take ipos = xc.take (xv.length - m + 1) ++
            (xc.drop (xv.length - m + 1)).take (ipos - (xv.length - m) - 1) := by
          conv_lhs => rw [hip, List.take_add]
        have htk2 : ((xc.drop (xv.length - m + 1)) ++ rc).take
            (ipos - (xv.length - m) - 1) =
            (xc.drop (xv.length - m + 1)).take (ipos - (xv.length - m) - 1) := by
          rw [List.take_append_of_le_length (by rw [hdroplen]; omega)]
        refine finish_inner N _ (pp ++ [i + 1]) (ipos - (xv.length - m) - 1)
          (S + subtreeStart (BNode.inner xv xc) [ipos]) h
          (xv.drop (xv.length - m + 1) ++ dR :: rv)
          ((xc.drop (xv.length - m + 1)) ++ rc) Y ht2wf
          (by rw [hget2, hr2]) (by simp) hYr2 ?_ ?_ ?_
        · simp only [List.length_append, List.length_cons, List.length_drop]
          omega
        · simp only [List.length_append, List.length_cons, List.length_drop]
          omega
        · rw [subtreeStart_append pp [i + 1] _ _ hgetP', hst2pp,
            subtreeStart_inner_cons, hcs'i1, Option.elim_some, subtreeStart_nil,
            hsum1, hl2len]
          rw [subtreeStart_inner_cons, hYr2, Option.elim_some, subtreeStart_nil]
          rw [subtreeStart_inner_cons, hY, Option.elim_some, subtreeStart_nil]
          rw [htk2, htk, List.map_append, List.sum_append]
          omega

set_option maxHeartbeats 1000000 in
/-- Master specification of `rebalance_or_split` on a full node: the
traversal and shape are preserved, and the returned position is
insert-ready (full leaf) or split-ready around the original child `ipos`
(full internal node), at the original global in-order index. -/
lemma rebalanceOrSplit_ready {α β : Type} (N : Nat) (hN : 3 ≤ N) :
    ∀ (L0 : Nat) (path : List Nat) (t X : BNode α β) (h ipos : Nat),
      path.length ≤ L0 →
      NodeWF N h true t →
      getNode t path = some X →
      X.count = N → X.maxCountOf N = N → ipos ≤ N →
      toListNode (rebalanceOrSplit N t path ipos).1 = toListNode t ∧
      ShapeOK (rebalanceOrSplit N t path ipos).1 ∧
      (X.isLeaf = true →
        ∃ h2, InsertReady N (rebalanceOrSplit N t path ipos).1
          (rebalanceOrSplit N t path ipos).2.1
          (rebalanceOrSplit N t path ipos).2.2
          (subtreeStart t path + ipos) h2) ∧
      (∀ Y, X.childrenOf.get? ipos = some Y →
        ∃ hc h2, SplitReady N (rebalanceOrSplit N t path ipos).1
          (rebalanceOrSplit N t path ipos).2.1
          (rebalanceOrSplit N t path ipos).2.2
          Y (subtreeStart t path + subtreeStart X [ipos]) hc h2) := by
  intro L0
  induction L0 with
  | zero =>
    intro path t X h ipos hlen hwf hget hcount hmax hipos
    have hpath : path = [] := by
      cases path with
      | nil => rfl
      | cons a b => simp at hlen
    subst hpath
    rw [getNode_nil] at hget
    obtain rfl : t = X := by simpa using hget
    have hroot := rebalanceOrSplit_ready_root N hN t h ipos hwf hcount hmax hipos
    simpa using hroot
  | succ L0 ihL =>
    intro path t X h ipos hlen hwf hget hcount hmax hipos
    cases path with
    | nil =>
      rw [getNode_nil] at hget
      obtain rfl : t = X := by simpa using hget
      have hroot := rebalanceOrSplit_ready_root N hN t h ipos hwf hcount hmax hipos
      simpa using hroot
    | cons q qs =>
    have hne : q :: qs ≠ [] := by simp
    have hsplit : (q :: qs).dropLast ++ [(q :: qs).getLastD 0] = q :: qs := by
      rw [List.getLastD_eq_getLast?, List.getLast?_eq_getLast _ hne]
      exact List.dropLast_append_getLast hne
    have hget2 : (getNode t ((q :: qs).dropLast)).bind
        (fun n => getNode n [(q :: qs).getLastD 0]) = some X := by
      rw [← getNode_append, hsplit]
      exact hget
    cases hP0 : getNode t ((q :: qs).dropLast) with
    | none => rw [hP0] at hget2; simp at hget2
    | some P =>
    rw [hP0] at hget2
    simp only [Option.some_bind] at hget2
    cases P with
    | leaf mc vs => simp at hget2
    | inner pvals pcs =>
    rw [getNode_inner_cons] at hget2
    cases hXi0 : pcs.get? ((q :: qs).getLastD 0) with
    | none => rw [hXi0] at hget2; simp at hget2
    | some X' =>
    rw [hXi0] at hget2
    simp only [Option.some_bind, getNode_nil] at hget2
    obtain rfl : X = X' := by simpa using hget2.symm
    have hshape : ShapeOK t := NodeWF_shape N h true t hwf
    have hwfP : NodeWF N (h - ((q :: qs).dropLast).length) false
        (BNode.inner pvals pcs) := by
      by_cases hppn : (q :: qs).dropLast = []
      · rw [hppn] at hP0 ⊢
        rw [getNode_nil] at hP0
        have heq : t = BNode.inner pvals pcs := by simpa using hP0
        rw [heq] at hwf
        simpa using NodeWF_b_inner N h true false pvals pcs hwf
      · exact (NodeWF_getNode N _ t _ h true hwf hP0 hppn).2
    obtain ⟨hcx, hk⟩ : ∃ hcx, h - ((q :: qs).dropLast).length = hcx + 1 := by
      cases hk0 : h - ((q :: qs).dropLast).length with
      | zero =>
        rw [hk0] at hwfP
        exact absurd hwfP (NodeWF_zero_inner N false pvals pcs)
      | succ k => exact ⟨k, rfl⟩
    rw [hk] at hwfP
    obtain ⟨hppos, hple, hpclen, hpcwf⟩ :=
      (NodeWF_succ_inner N hcx false pvals pcs).mp hwfP
    have hXwf : NodeWF N hcx false X := hpcwf X (List.get?_mem hXi0)
    have hilt : (q :: qs).getLastD 0 < pcs.length := by
      by_contra hcon
      rw [List.get?_eq_none.mpr (by omega)] at hXi0
      cases hXi0
    have hil : (q :: qs).getLastD 0 ≤ pvals.length := by omega
    have hconv : subtreeStart t ((q :: qs).dropLast) +
        subtreeStart (BNode.inner pvals pcs) [(q :: qs).getLastD 0] =
        subtreeStart t (q :: qs) := by
      conv_rhs => rw [← hsplit]
      exact (subtreeStart_append _ [(q :: qs).getLastD 0] t _ hP0).symm
    have hstq : subtreeStart t (q :: qs) = subtreeStart t ((q :: qs).dropLast) +
        (((pcs.take ((q :: qs).getLastD 0)).map
          (fun c => (toListNode c).length)).sum + (q :: qs).getLastD 0) := by
      rw [← hconv, subtreeStart_inner_cons, hXi0, Option.elim_some,
        subtreeStart_nil]
      omega
    rcases rebalanceOrSplit_eval N t q qs ipos pvals pcs X hP0 hXi0 with
      ⟨L, m, hI0, hL, hLroomRaw, hmdef, hcondRaw, hcase⟩ |
      ⟨R, m, hIlt, hR, hRroomRaw, hmdef, hcondRaw, hcase⟩ |
      ⟨hlenne, hEq⟩ | ⟨hlenN, t3, pp3, i3, hstep, hEq⟩
    · -- shift into the left sibling
      have hLwf : NodeWF N hcx false L := hpcwf L (List.get?_mem hL)
      have hLmax : L.maxCountOf N = N := maxCountOf_of_wf N hcx L hLwf
      rw [hLmax] at hLroomRaw hmdef hcondRaw
      have hm1 : 1 ≤ m := by rw [hmdef]; exact le_max_left 1 _
      have hm2 : m ≤ N - L.count := by
        rw [hmdef]
        exact max_le (by omega) (Nat.div_le_self _ _)
      have hros := ros_ready_left N h hcx hN t ((q :: qs).dropLast)
        ((q :: qs).getLastD 0) ipos pvals pcs X L m (subtreeStart t (q :: qs))
        hwf hP0 hk hXi0 hL hI0 hpclen hil hppos hple hpcwf hcount hipos
        hm1 hm2 hLroomRaw hstq.symm
      obtain ⟨htl2, ht2wf, hB1, hB2⟩ := hros
      rcases hcase with ⟨hdir, hEq⟩ | ⟨hdir, hEq⟩
      · obtain ⟨hB1leaf, hB1inner⟩ := hB1 (by omega)
        refine ⟨?_, ?_, ?_, ?_⟩
        · rw [hEq]; exact htl2
        · rw [hEq]; exact NodeWF_shape N h true _ ht2wf
        · intro hXleaf
          rw [hEq]
          exact hB1leaf hXleaf
        · intro Y hY
          rw [hEq]
          exact hB1inner Y hY
      · have hcond2 : L.count + m < N := by
          rcases hcondRaw with hc | hc
          · exact absurd hc hdir
          · exact hc
        obtain ⟨hB2leaf, hB2inner⟩ := hB2 (by omega) hcond2
        refine ⟨?_, ?_, ?_, ?_⟩
        · rw [hEq]; exact htl2
        · rw [hEq]; exact NodeWF_shape N h true _ ht2wf
        · intro hXleaf
          rw [hEq]
          exact hB2leaf hXleaf
        · intro Y hY
          rw [hEq]
          exact hB2inner Y hY
    · -- shift into the right sibling
      have hRwf : NodeWF N hcx false R := hpcwf R (List.get?_mem hR)
      have hRmax : R.maxCountOf N = N := maxCountOf_of_wf N hcx R hRwf
      rw [hRmax] at hRroomRaw hmdef hcondRaw
      have hm1 : 1 ≤ m := by rw [hmdef]; exact le_max_left 1 _
      have hm2 : m ≤ N - R.count := by
        rw [hmdef]
        exact max_le (by omega) (Nat.div_le_self _ _)
      have hros := ros_ready_right N h hcx hN t ((q :: qs).dropLast)
        ((q :: qs).getLastD 0) ipos pvals pcs X R m (subtreeStart t (q :: qs))
        hwf hP0 hk hXi0 hR hIlt hpclen hppos hple hpcwf hcount hipos
        hm1 hm2 hRroomRaw hstq.symm
      obtain ⟨htl2, ht2wf, hC1, hC2⟩ := hros
      rcases hcase with ⟨hdir, hEq⟩ | ⟨hdir, hEq⟩
      · obtain ⟨hC1leaf, hC1inner⟩ := hC1 (by omega)
        refine ⟨?_, ?_, ?_, ?_⟩
        · rw [hEq]; exact htl2
        · rw [hEq]; exact NodeWF_shape N h true _ ht2wf
        · intro hXleaf
          rw [hEq]
          exact hC1leaf hXleaf
        · intro Y hY
          rw [hEq]
          exact hC1inner Y hY
      · have hmleN : m ≤ N := by
          have := count_pos_of_wf N hcx false R hRwf
          omega
        have hcond2 : R.count + m < N := by
          rcases hcondRaw with hc | hc
          · rw [hcount] at hc hdir
            omega
          · exact hc
        obtain ⟨hC2leaf, hC2inner⟩ := hC2 (by omega) hcond2
        refine ⟨?_, ?_, ?_, ?_⟩
        · rw [hEq]; exact htl2
        · rw [hEq]; exact NodeWF_shape N h true _ ht2wf
        · intro hXleaf
          rw [hEq]
          exact hC2leaf hXleaf
        · intro Y hY
          rw [hEq]
          exact hC2inner Y hY
    · -- split with a non-full parent
      have hslot := slotReady_of_wf N ((q :: qs).dropLast) t _ h hwf hP0
      rw [hk] at hslot
      have hsr := splitReady_of_slot N t ((q :: qs).dropLast) pvals pcs
        (subtreeStart t ((q :: qs).dropLast)) hcx h ((q :: qs).getLastD 0) X
        hslot hwfP hXi0 hil (by omega)
      have hpres := splitChild_preserves N t ((q :: qs).dropLast)
        ((q :: qs).getLastD 0) ipos hshape
      refine ⟨?_, ?_, ?_, ?_⟩
      · rw [hEq]; exact hpres.1
      · rw [hEq]; exact hpres.2
      · intro hXleaf
        cases X with
        | inner xv xc => simp [BNode.isLeaf] at hXleaf
        | leaf mcX xv =>
          have hfull : xv.length = N := by simpa [BNode.count] using hcount
          have hmcX : mcX = N := by simpa [BNode.maxCountOf] using hmax
          have hready := splitChild_ready_leaf N hN t ((q :: qs).dropLast)
            ((q :: qs).getLastD 0) ipos mcX xv _ hcx h hsr hfull hmcX hipos
          rw [hconv] at hready
          refine ⟨h, ?_⟩
          rw [hEq]
          exact hready
      · intro Y hY
        cases X with
        | leaf mcX xv => simp [BNode.childrenOf] at hY
        | inner xv xc =>
          have hfull : xv.length = N := by simpa [BNode.count] using hcount
          have hYc : xc.get? ipos = some Y := by
            simpa [BNode.childrenOf] using hY
          have hready := splitChild_ready_inner N hN t ((q :: qs).dropLast)
            ((q :: qs).getLastD 0) ipos xv xc _ hcx h Y hsr hfull hipos hYc
          rw [hconv] at hready
          refine ⟨hcx - 1, h, ?_⟩
          rw [hEq]
          exact hready
    · -- split after recursively making room in the full parent
      have hlen' : ((q :: qs).dropLast).length ≤ L0 := by
        rw [List.length_dropLast]
        simp only [List.length_cons] at hlen ⊢
        omega
      have hcountP : (BNode.inner pvals pcs).count = N := by
        simpa [BNode.count] using hlenN
      have hiiN : (q :: qs).getLastD 0 ≤ N := by omega
      obtain ⟨htl3, hsh3, _, hinner3⟩ := ihL ((q :: qs).dropLast) t
        (BNode.inner pvals pcs) h ((q :: qs).getLastD 0) hlen' hwf hP0
        hcountP rfl hiiN
      obtain ⟨hc0, h20, hsr⟩ := hinner3 X (by
        simpa [BNode.childrenOf] using hXi0)
      rw [hstep] at hsr htl3 hsh3
      have hpres := splitChild_preserves N t3 pp3 i3 ipos hsh3
      refine ⟨?_, ?_, ?_, ?_⟩
      · rw [hEq, hpres.1]
        exact htl3
      · rw [hEq]
        exact hpres.2
      · intro hXleaf
        cases X with
        | inner xv xc => simp [BNode.isLeaf] at hXleaf
        | leaf mcX xv =>
          have hfull : xv.length = N := by simpa [BNode.count] using hcount
          have hmcX : mcX = N := by simpa [BNode.maxCountOf] using hmax
          have hready := splitChild_ready_leaf N hN t3 pp3 i3 ipos mcX xv _
            hc0 h20 hsr hfull hmcX hipos
          rw [hconv] at hready
          refine ⟨h20, ?_⟩
          rw [hEq]
          exact hready
      · intro Y hY
        cases X with
        | leaf mcX xv => simp [BNode.childrenOf] at hY
        | inner xv xc =>
          have hfull : xv.length = N := by simpa [BNode.count] using hcount
          have hYc : xc.get? ipos = some Y := by
            simpa [BNode.childrenOf] using hY
          have hready := splitChild_ready_inner N hN t3 pp3 i3 ipos xv xc _
            hc0 h20 Y hsr hfull hipos hYc
          rw [hconv] at hready
          refine ⟨hc0 - 1, h20, ?_⟩
          rw [hEq]
          exact hready

set_option maxHeartbeats 1000000 in
/-- `internal_insert` at a valid leaf position: the value lands at the
position's global in-order index, the tree stays well-formed, `size` stays
coherent, and the returned iterator addresses the inserted value. -/
lemma internalInsert_spec {α β : Type} (N : Nat) (hN : 3 ≤ N)
    (tr : BTreeM α β) (r : BNode α β) (it : Iter) (v : α × β)
    (mc : Nat) (vs : List (α × β)) (h : Nat)
    (hroot : tr.root = some r)
    (hwf : NodeWF N h true r ∨ r = BNode.leaf 1 [])
    (hit : getNode r it.path = some (BNode.leaf mc vs))
    (hpos : it.pos ≤ vs.length)
    (hsize : treeSize tr = (toListNode r).length) :
    ∃ r', (internalInsert N tr it v).1.root = some r' ∧
      toListNode r' = (toListNode r).insertIdx
        (subtreeStart r it.path + it.pos) v ∧
      (∃ h', NodeWF N h' true r') ∧
      treeSize (internalInsert N tr it v).1 = (toListNode r').length ∧
      (∃ mc' vs', getNode r' (internalInsert N tr it v).2.path =
          some (BNode.leaf mc' vs') ∧
        vs'.get? (internalInsert N tr it v).2.pos = some v) := by
  have hII : internalInsert N tr it v =
      (if vs.length = mc then
        if mc < N then
          ({ root := some (BNode.leaf (min N (2 * mc)) (vs.insertIdx it.pos v)),
             size := tr.size }, ⟨[], it.pos⟩)
        else
          let s := rebalanceOrSplit N r it.path it.pos
          let size2 := (if r.isLeaf then r.count else tr.size) + 1
          let r3 := insertValueAt s.1 s.2.1 s.2.2 v
          ({ root := some r3, size := size2 }, ⟨s.2.1, s.2.2⟩)
      else
        let size2 := if r.isLeaf then tr.size else tr.size + 1
        let r3 := insertValueAt r it.path it.pos v
        ({ root := some r3, size := size2 }, it)) := by
    simp only [internalInsert, hroot, hit]
  rw [hII]
  by_cases hfull : vs.length = mc
  · rw [if_pos hfull]
    by_cases hsmall : mc < N
    · -- small-root growth
      rw [if_pos hsmall]
      dsimp only
      have hpath : it.path = [] := by
        rcases hwf with hwf | hfresh
        · by_contra hne
          have hat := (NodeWF_getNode N it.path r _ h true hwf hit hne).2
          have hmcN : mc = N := by
            cases hk : h - it.path.length with
            | zero =>
              rw [hk] at hat
              obtain ⟨_, _, h3⟩ := (NodeWF_zero_leaf N false mc vs).mp hat
              simpa using h3
            | succ k =>
              rw [hk] at hat
              exact absurd hat (NodeWF_succ_leaf N k false mc vs)
          omega
        · rw [hfresh] at hit
          cases hp : it.path with
          | nil => rfl
          | cons a b =>
            rw [hp] at hit
            simp at hit
      rw [hpath, getNode_nil] at hit
      have hr : r = BNode.leaf mc vs := by simpa using hit
      have hmc1 : 1 ≤ mc := by
        rcases hwf with hwf | hfresh
        · rw [hr] at hwf
          match h, hwf with
          | 0, hwf =>
            obtain ⟨h1, h2, _⟩ := (NodeWF_zero_leaf N true mc vs).mp hwf
            omega
        · rw [hfresh] at hr
          have hm1 : mc = 1 := by
            cases hr
            rfl
          omega
      refine ⟨_, rfl, ?_, ?_, ?_, ?_⟩
      · rw [hr, hpath]
        simp only [toListNode, subtreeStart_nil, Nat.zero_add]
      · refine ⟨0, ?_⟩
        rw [NodeWF_zero_leaf]
        rw [List.length_insertIdx _ _ hpos]
        refine ⟨by omega, by omega, by simp⟩
      · rfl
      · exact ⟨min N (2 * mc), vs.insertIdx it.pos v, rfl,
          get?_insertIdx_self vs it.pos v hpos⟩
    · -- full node: rebalance or split, then insert
      rw [if_neg hsmall]
      dsimp only
      have hwf2 : NodeWF N h true r := by
        rcases hwf with hwf | hfresh
        · exact hwf
        · exfalso
          rw [hfresh] at hit
          cases hp : it.path with
          | nil =>
            rw [hp, getNode_nil] at hit
            have hm1 : mc = 1 := by
              have h2 := hit
              simp only [Option.some.injEq] at h2
              cases h2
              rfl
            omega
          | cons a b =>
            rw [hp] at hit
            simp at hit
      have hmcN : mc = N := by
        by_cases hne : it.path = []
        · rw [hne, getNode_nil] at hit
          have hr : r = BNode.leaf mc vs := by simpa using hit
          rw [hr] at hwf2
          match h, hwf2 with
          | 0, hwf2 =>
            obtain ⟨_, _, h3⟩ := (NodeWF_zero_leaf N true mc vs).mp hwf2
            simp at h3
            omega
        · have hat := (NodeWF_getNode N it.path r _ h true hwf2 hit hne).2
          cases hk : h - it.path.length with
          | zero =>
            rw [hk] at hat
            obtain ⟨_, _, h3⟩ := (NodeWF_zero_leaf N false mc vs).mp hat
            simpa using h3
          | succ k =>
            rw [hk] at hat
            exact absurd hat (NodeWF_succ_leaf N k false mc vs)
      have hcount : (BNode.leaf mc vs).count = N := by
        simp only [BNode.count]
        omega
      have hmax : BNode.maxCountOf N (BNode.leaf mc vs) = N := by
        simp only [BNode.maxCountOf]
        omega
      obtain ⟨htl, hshape2, hleafcl, _⟩ := rebalanceOrSplit_ready N hN
        it.path.length it.path r (BNode.leaf mc vs) h it.pos (le_refl _)
        hwf2 hit hcount hmax (by omega)
      obtain ⟨h2, hIR⟩ := hleafcl rfl
      unfold InsertReady at hIR
      obtain ⟨mc2, vs2, preG, postG, hget2, hi2, hroom2, hfr, hprelen, hplug⟩ := hIR
      obtain ⟨hplugL, hplugW, hplugG⟩ := hplug v
      have hrdec : toListNode r = preG ++ postG := htl.symm.trans hfr
      refine ⟨_, rfl, ?_, ⟨h2, hplugW⟩, ?_, ?_⟩
      · rw [hplugL, hrdec, ← hprelen]
        have hia := insertIdx_append_left preG postG 0 v
        rw [Nat.add_zero] at hia
        rw [hia, List.insertIdx_zero]
      · have hlen3 : (toListNode (insertValueAt
            (rebalanceOrSplit N r it.path it.pos).1
            (rebalanceOrSplit N r it.path it.pos).2.1
            (rebalanceOrSplit N r it.path it.pos).2.2 v)).length =
            (toListNode r).length + 1 := by
          rw [hplugL, hrdec]
          simp only [List.length_append, List.length_cons]
          omega
        cases hr3 : insertValueAt (rebalanceOrSplit N r it.path it.pos).1
            (rebalanceOrSplit N r it.path it.pos).2.1
            (rebalanceOrSplit N r it.path it.pos).2.2 v with
        | leaf mc3 vals3 => rfl
        | inner vals3 cs3 =>
          rw [hr3] at hlen3
          have hrlen : (if r.isLeaf = true then r.count else tr.size) =
              (toListNode r).length := by
            cases r with
            | leaf mcr vsr =>
              simp [BNode.isLeaf, BNode.count, toListNode]
            | inner rv rc =>
              simp only [BNode.isLeaf, Bool.false_eq_true, if_false]
              have hts : treeSize tr = tr.size := by
                simp only [treeSize, hroot]
              rw [← hsize, hts]
          simp only [treeSize]
          rw [hrlen]
          simp only [toListNode] at hlen3 ⊢
          omega
      · exact ⟨mc2, vs2.insertIdx (rebalanceOrSplit N r it.path it.pos).2.2 v,
          hplugG, get?_insertIdx_self vs2 _ v hi2⟩
  · -- there is room in the leaf
    rw [if_neg hfull]
    dsimp only
    by_cases hpnil : it.path = []
    · -- the leaf is the root
      rw [hpnil, getNode_nil] at hit
      have hr : r = BNode.leaf mc vs := by simpa using hit
      have hbounds : vs.length < mc ∧ mc ≤ N := by
        rcases hwf with hwf | hfresh
        · rw [hr] at hwf
          match h, hwf with
          | 0, hwf =>
            obtain ⟨h1, h2, h3⟩ := (NodeWF_zero_leaf N true mc vs).mp hwf
            simp only [if_pos rfl] at h3
            exact ⟨by omega, h3⟩
        · have hlf : BNode.leaf 1 ([] : List (α × β)) = BNode.leaf mc vs := by
            rw [← hfresh, hr]
          injection hlf with h1 h2
          subst h1
          subst h2
          exact ⟨by simp, by omega⟩
      have hIV : insertValueAt r it.path it.pos v =
          BNode.leaf mc (vs.insertIdx it.pos v) := by
        rw [hpnil, hr]
        simp only [insertValueAt, getNode_nil, setNode_nil]
      rw [hIV]
      refine ⟨_, rfl, ?_, ?_, ?_, ?_⟩
      · rw [hr, hpnil]
        simp only [toListNode, subtreeStart_nil, Nat.zero_add]
      · refine ⟨0, ?_⟩
        rw [NodeWF_zero_leaf]
        rw [List.length_insertIdx _ _ hpos]
        refine ⟨by omega, by omega, ?_⟩
        simpa using hbounds.2
      · rfl
      · refine ⟨mc, vs.insertIdx it.pos v, ?_,
          get?_insertIdx_self vs it.pos v hpos⟩
        rw [hpnil, getNode_nil]
    · -- the leaf is a proper descendant of an internal root
      have hwf2 : NodeWF N h true r := by
        rcases hwf with hwf | hfresh
        · exact hwf
        · exfalso
          rw [hfresh] at hit
          cases hp : it.path with
          | nil => exact hpnil hp
          | cons a b =>
            rw [hp] at hit
            simp at hit
      have hat := (NodeWF_getNode N it.path r _ h true hwf2 hit hpnil).2
      have hk0 : h - it.path.length = 0 := by
        cases hk : h - it.path.length with
        | zero => rfl
        | succ k =>
          rw [hk] at hat
          exact absurd hat (NodeWF_succ_leaf N k false mc vs)
      rw [hk0] at hat
      obtain ⟨hvpos, hvle, hmcN⟩ := (NodeWF_zero_leaf N false mc vs).mp hat
      simp only [if_neg (by simp : ¬ false = true)] at hmcN
      have hslot := slotReady_of_wf N it.path r _ h hwf2 hit
      rw [hk0] at hslot
      have hIR := insertReady_of_slot N r it.path mc vs
        (subtreeStart r it.path) h it.pos hslot hpos (by omega) hmcN
      unfold InsertReady at hIR
      obtain ⟨mc2, vs2, preG, postG, hget2, hi2, hroom2, hfr, hprelen, hplug⟩ := hIR
      obtain ⟨hplugL, hplugW, hplugG⟩ := hplug v
      refine ⟨_, rfl, ?_, ⟨h, hplugW⟩, ?_, ?_⟩
      · rw [hplugL, hfr, ← hprelen]
        have hia := insertIdx_append_left preG postG 0 v
        rw [Nat.add_zero] at hia
        rw [hia, List.insertIdx_zero]
      · have hlen3 : (toListNode (insertValueAt r it.path it.pos v)).length =
            (toListNode r).length + 1 := by
          rw [hplugL, hfr]
          simp only [List.length_append, List.length_cons]
          omega
        cases hr3 : insertValueAt r it.path it.pos v with
        | leaf mc3 vals3 => rfl
        | inner vals3 cs3 =>
          rw [hr3] at hlen3
          cases r with
          | leaf mcr vsr =>
            exfalso
            cases hp : it.path with
            | nil => exact hpnil hp
            | cons a b =>
              rw [hp] at hit
              simp at hit
          | inner rv rc =>
            simp only [treeSize, BNode.isLeaf, Bool.false_eq_true, if_false]
            have hts : treeSize tr = tr.size := by
              simp only [treeSize, hroot]
            rw [← hts, hsize]
            simp only [toListNode] at hlen3 ⊢
            omega
      · exact ⟨mc2, vs2.insertIdx it.pos v, hplugG,
          get?_insertIdx_self vs2 _ v hi2⟩
